import Mathlib

/-!
# Snapper btrfs send-stream comparison: the path tree and the stream callbacks

A shallow embedding of the change-tree aggregator of `snapper/Btrfs.cc`
(`tree_node`, `StreamProcessor::created` / `deleted`, `merge`, `process_rename`
and the attribute callbacks), of the post-pass `tree_node::check` and the result walk,
and of the driver (`dumper`, `do_send`, `StreamProcessor::process`, `Btrfs::cmpDirs`,
`Btrfs::openInfosDir`), followed by the properties proved about them:
what `created`, `deleted` and `rename` do to the tree, the exclusion of `CREATED`
and `DELETED` on every node, the effect of the doubled prefix in `merge`, the order and
content of the report, and which comparator delivers it.

Conventions of the embedding

* A path argument (`const string& name`) is a `String`.  Every tree operation
  of the source splits its argument at the first `'/'`
  (`name.find('/')`, `substr(0, pos)`, `substr(pos + 1)`) and recurses on the
  remainder; `Path.parse` performs exactly this splitting once, and the tree
  operations recurse on the resulting `Path`.
* `map<string, tree_node>` is an association list kept in strictly ascending
  key order (the order of `std::less<string>`).
* A `tree_node*` obtained from `find` / `insert` is represented by the path it
  was obtained with; a write through the pointer is `tree_node.update`.
* `status` is a non-negative `int` used as a bit mask; it is a `Nat` here.
* What the driver meets outside the program (ioctl and parser results, the content
  compare) is collected in `Core`; a function that may raise returns the exception as a
  value, and the loop of `dumper` is bounded by a number of passes.
-/

namespace Snapper

/-! ## Status flags -/

/-- Modelled from the spec: the status flag `CREATED`.  The flags are the enumerators of
`StatusFlags`, declared in `File.h`, which is not among the sources at hand; they are distinct
single bits, numbered here as in that header. -/
def CREATED : Nat := 1

/-- Modelled from the spec: the `StatusFlags` enumerator `DELETED`. -/
def DELETED : Nat := 2

/-- Modelled from the spec: the `StatusFlags` enumerator `CONTENT`. -/
def CONTENT : Nat := 8

/-- Modelled from the spec: the `StatusFlags` enumerator `PERMISSIONS`. -/
def PERMISSIONS : Nat := 16

/-- Modelled from the spec: the `StatusFlags` enumerator `OWNER`. -/
def OWNER : Nat := 32

/-- Modelled from the spec: the `StatusFlags` enumerator `GROUP`. -/
def GROUP : Nat := 64

/-- Modelled from the spec: the `StatusFlags` enumerator `XATTRS`. -/
def XATTRS : Nat := 128

/-- Modelled from the spec: the `StatusFlags` enumerator `ACL`. -/
def ACL : Nat := 256

/-- The mask `CONTENT | PERMISSIONS | OWNER | GROUP | XATTRS | ACL`. -/
def ATTRS : Nat := CONTENT ||| PERMISSIONS ||| OWNER ||| GROUP ||| XATTRS ||| ACL

/-- The C expression `s & ~m` on non-negative `int`s: the bits of `m` are removed from `s`. -/
def clearBits (s m : Nat) : Nat := s ^^^ (s &&& m)

/-- The status written by the "already present" branch of `created` and of `merge`:
`status &= ~(CREATED | DELETED); status |= CONTENT | ... | ACL`. -/
def touched (s : Nat) : Nat := clearBits s (CREATED ||| DELETED) ||| ATTRS

/-! ## Keys and the ordered map -/

/-- Lexicographic comparison of two character sequences (`std::string::compare < 0`).  The
characters are compared by code point, which for UTF-8 text is the order of the bytes. -/
def ltChars : List Char → List Char → Bool
  | [], [] => false
  | [], _ :: _ => true
  | _ :: _, [] => false
  | a :: as, b :: bs => if a < b then true else if b < a then false else ltChars as bs

/-- The key order of `map<string, tree_node>`. -/
def keyLt (a b : String) : Bool := ltChars a.data b.data

/-- The lookup `map::find`: the value stored under `k`, if any. -/
def childs_find {α : Type} (k : String) : List (String × α) → Option α
  | [] => none
  | (k', v) :: rest => if k' = k then some v else childs_find k rest

/-- Store `v` under `k`: replaces the value of an existing entry (a write through an
iterator) or links a new entry at its place in key order (`map::insert`). -/
def childs_put {α : Type} (k : String) (v : α) : List (String × α) → List (String × α)
  | [] => [(k, v)]
  | (k', v') :: rest =>
    if k' = k then (k, v) :: rest
    else if keyLt k k' then (k, v) :: (k', v') :: rest
    else (k', v') :: childs_put k v rest

/-- The call `map::erase(it)`: unlink the entry stored under `k`. -/
def childs_erase {α : Type} (k : String) : List (String × α) → List (String × α)
  | [] => []
  | (k', v) :: rest => if k' = k then rest else (k', v) :: childs_erase k rest

/-- The keys of a map are strictly ascending (the representation invariant of `std::map`). -/
def keysAscending {α : Type} : List (String × α) → Bool
  | [] => true
  | [_] => true
  | (k, _) :: (k', v') :: rest => keyLt k k' && keysAscending ((k', v') :: rest)

/-- Every key of the list is above `k`. -/
def keysAbove {α : Type} (k : String) (l : List (String × α)) : Prop :=
  ∀ k' v, (k', v) ∈ l → keyLt k k' = true

/-! ## Paths -/

/-- A path string split at its `'/'` characters: `last name` is a string without `'/'`
(`name.find('/') == npos`), `cons a b` is `a + "/" + b` with `a = name.substr(0, pos)` and
`b = name.substr(pos + 1)`. -/
inductive Path where
  | last (name : String)
  | cons (a : String) (b : Path)
  deriving DecidableEq, Repr

namespace Path

/-- Put one more character in front of the first segment. -/
def pushFront (c : Char) : Path → Path
  | last name => last ⟨c :: name.data⟩
  | cons a b => cons ⟨c :: a.data⟩ b

/-- Split a character sequence at every `'/'`. -/
def parseChars : List Char → Path
  | [] => last ""
  | c :: cs => if c = '/' then cons "" (parseChars cs) else pushFront c (parseChars cs)

/-- The splitting all tree operations perform on their path argument. -/
def parse (name : String) : Path := parseChars name.data

/-- The path `p + "/" + q`. -/
def append : Path → Path → Path
  | last a, q => cons a q
  | cons a b, q => cons a (append b q)

/-- The path `n` lies strictly beneath the path `o` (`n = o + "/" + q` for some `q`). -/
def beneath : Path → Path → Bool
  | last _, last _ => false
  | last a, cons b _ => a == b
  | cons _ _, last _ => false
  | cons a o, cons b n => a == b && beneath o n

end Path

/-! ## The path tree -/

/-- The class `tree_node`: an `int status` and a `map<string, tree_node> childs`. -/
inductive tree_node where
  | mk (status : Nat) (childs : List (String × tree_node))

namespace tree_node

/-- The member `status`. -/
def status : tree_node → Nat
  | mk s _ => s

/-- The member `childs`. -/
def childs : tree_node → List (String × tree_node)
  | mk _ cs => cs

/-- The constructor `tree_node() : status(0) {}`. -/
def empty : tree_node := mk 0 []

/-- The member function `tree_node::find`: the node at the path, if there is one. -/
def find : tree_node → Path → Option tree_node
  | t, Path.last name => childs_find name t.childs
  | t, Path.cons a b =>
    match childs_find a t.childs with
    | none => none
    | some c => find c b

/-- The member function `tree_node::insert`; the returned pointer is the node at the path in
the resulting tree. -/
def insert : tree_node → Path → tree_node
  | t, Path.last name =>
    match childs_find name t.childs with
    | none => mk t.status (childs_put name empty t.childs)
    | some _ => t
  | t, Path.cons a b =>
    match childs_find a t.childs with
    | none => mk t.status (childs_put a (insert empty b) t.childs)
    | some c => mk t.status (childs_put a (insert c b) t.childs)

/-- The member function `tree_node::erase`: the returned flag and the tree afterwards. -/
def erase : tree_node → Path → Bool × tree_node
  | t, Path.last name =>
    match childs_find name t.childs with
    | none => (false, t)
    | some c =>
      if c.childs.isEmpty then (true, mk t.status (childs_erase name t.childs))
      else (true, mk t.status (childs_put name (mk 0 c.childs) t.childs))
  | t, Path.cons a b =>
    match childs_find a t.childs with
    | none => (false, t)
    | some c =>
      let c1 := (erase c b).2
      if c1.status = 0 ∧ c1.childs.isEmpty then (true, mk t.status (childs_erase a t.childs))
      else (true, mk t.status (childs_put a c1 t.childs))

/-- A write through a node pointer: the node at path `p` (if there is one) becomes `f node`. -/
def update (f : tree_node → tree_node) : tree_node → Path → tree_node
  | t, Path.last name =>
    match childs_find name t.childs with
    | none => t
    | some c => mk t.status (childs_put name (f c) t.childs)
  | t, Path.cons a b =>
    match childs_find a t.childs with
    | none => t
    | some c => mk t.status (childs_put a (update f c b) t.childs)

/-- The member function `tree_node::rename`: the returned flag and the tree afterwards.  After
`nn = insert(n)`,
`swap(nn->childs, oo->childs)` and `nn->status = oo->status` are two writes through the
pointers `nn` and `oo`, followed by `erase(o)`.  Both pointers are valid at that point, so
the last alternative below is never taken (`rename_pointers`). -/
def rename (t : tree_node) (o n : Path) : Bool × tree_node :=
  match find t o with
  | none => (false, t)
  | some _ =>
    match find t n with
    | some _ => (false, t)
    | none =>
      let t1 := insert t n
      match find t1 o, find t1 n with
      | some oo, some nn =>
        let t2 := update (fun _ => mk oo.status oo.childs) t1 n
        let t3 := update (fun x => mk x.status nn.childs) t2 o
        (true, (erase t3 o).2)
      | _, _ => (true, t1)

/-- The member function `tree_node::result`, with the callback invocations collected in
order. -/
def result : tree_node → String → List (String × Nat)
  | mk _ cs, pre => resultChilds cs pre
where
  /-- The loop of `tree_node::result` over `childs`. -/
  resultChilds : List (String × tree_node) → String → List (String × Nat)
  | [], _ => []
  | (k, c) :: rest, pre =>
    (if pre = "" then
      (if c.status ≠ 0 then [("/" ++ k, c.status)] else []) ++ result c k
    else
      (if c.status ≠ 0 then [("/" ++ pre ++ "/" ++ k, c.status)] else [])
        ++ result c (pre ++ "/" ++ k))
    ++ resultChilds rest pre

end tree_node

/-! ## The stream processor -/

namespace StreamProcessor

open tree_node

/-- The member function `StreamProcessor::created`, as a function of the member `files`. -/
def created (files : tree_node) (name : String) : tree_node :=
  match files.find (Path.parse name) with
  | none => update (fun x => mk CREATED x.childs) (files.insert (Path.parse name)) (Path.parse name)
  | some _ => update (fun x => mk (touched x.status) x.childs) files (Path.parse name)

/-- The member function `StreamProcessor::deleted`, as a function of the member `files`. -/
def deleted (files : tree_node) (name : String) : tree_node :=
  match files.find (Path.parse name) with
  | none => update (fun x => mk DELETED x.childs) (files.insert (Path.parse name)) (Path.parse name)
  | some _ => (files.erase (Path.parse name)).2

end StreamProcessor

open tree_node StreamProcessor

/-- The body of the loop of `merge` for one entry `(k, c)` of `tmp->childs`, up to the
recursive call: the path `x` and the upsert of `x` into `processor->files`. -/
def mergeEntry (files : tree_node) (dst pre k : String) (c : tree_node) : String × tree_node :=
  let x := if pre = "" then dst ++ "/" ++ k else dst ++ "/" ++ pre ++ "/" ++ k
  match files.find (Path.parse x) with
  | none => (x, update (fun y => mk c.status y.childs) (files.insert (Path.parse x)) (Path.parse x))
  | some _ => (x, update (fun y => mk (touched y.status) y.childs) files (Path.parse x))

/-- The function `merge`, as a function of `processor->files`; `pre` is the argument
`prefix` and `dst` the argument `to`.  The argument `from` of the source is unused and left out. -/
def merge : tree_node → tree_node → String → String → tree_node
  | files, mk _ cs, dst, pre => mergeChilds files cs dst pre
where
  /-- The loop of `merge` over `tmp->childs`. -/
  mergeChilds : tree_node → List (String × tree_node) → String → String → tree_node
  | files, [], _, _ => files
  | files, (k, c) :: rest, dst, pre =>
    let r := mergeEntry files dst pre k c
    mergeChilds (merge r.2 c dst r.1) rest dst pre

/-- The callback `process_rename`, as a function of `processor->files`.  `entries` is what the
source
reads from snapshot 1: the result of `entries_recursive()` on `from` when `from` is a directory
there, and the empty list otherwise (the loop is then not entered). -/
def process_rename (files : tree_node) (entries : List String) (src dst : String) : tree_node :=
  match files.find (Path.parse src) with
  | none =>
    entries.foldl (fun fs e => created (deleted fs (src ++ "/" ++ e)) (dst ++ "/" ++ e))
      (created (deleted files src) dst)
  | some it1 =>
    match files.find (Path.parse dst) with
    | none => (files.rename (Path.parse src) (Path.parse dst)).2
    | some _ =>
      let tmp := mk 0 it1.childs
      let files1 := update (fun x => mk x.status []) files (Path.parse src)
      merge (created (deleted files1 src) dst) tmp dst ""

/-- The body of the attribute callbacks: `files.insert(path)` followed by
`node->status |= flags`. -/
def touch (files : tree_node) (path : String) (flags : Nat) : tree_node :=
  update (fun x => mk (x.status ||| flags) x.childs) (files.insert (Path.parse path)) (Path.parse path)

/-- What the stream processor reads from outside the tree: the directory listings of
snapshot 1 used by `process_rename`, whether `ENABLE_XATTRS` is defined, and the
predicate `is_acl_signature`. -/
structure Env where
  /-- The recursive listing of a directory of snapshot 1 (empty when not a directory). -/
  entries_recursive : String → List String
  /-- Whether `ENABLE_XATTRS` is defined. -/
  enable_xattrs : Bool
  /-- The predicate `is_acl_signature`. -/
  is_acl_signature : String → Bool

/-- The operations of a send stream that have a callback. -/
inductive Op where
  | subvol (path : String)
  | snapshot (path : String)
  | mkfile (path : String)
  | mkdir (path : String)
  | mknod (path : String)
  | mkfifo (path : String)
  | mksock (path : String)
  | symlink (path lnk : String)
  | rename (src dst : String)
  | link (path lnk : String)
  | unlink (path : String)
  | rmdir (path : String)
  | write (path : String)
  | clone (path : String)
  | set_xattr (path name : String)
  | remove_xattr (path name : String)
  | truncate (path : String)
  | chmod (path : String)
  | chown (path : String)
  | utimes (path : String)
  | update_extent (path : String)

/-- The status bits `process_set_xattr` / `process_remove_xattr` add. -/
def xattrFlags (env : Env) (name : String) : Nat :=
  if env.is_acl_signature name then XATTRS ||| ACL else XATTRS

/-- The effect of one callback `process_*` on `processor->files`. -/
def process (env : Env) (files : tree_node) : Op → tree_node
  | Op.subvol _ => files
  | Op.snapshot _ => files
  | Op.mkfile path => created files path
  | Op.mkdir path => created files path
  | Op.mknod _ => files
  | Op.mkfifo _ => files
  | Op.mksock _ => files
  | Op.symlink path _ => created files path
  | Op.rename src dst => process_rename files (env.entries_recursive src) src dst
  | Op.link path _ => created files path
  | Op.unlink path => deleted files path
  | Op.rmdir path => deleted files path
  | Op.write path => touch files path CONTENT
  | Op.clone path => touch files path CONTENT
  | Op.set_xattr path name => if env.enable_xattrs then touch files path (xattrFlags env name) else files
  | Op.remove_xattr path name => if env.enable_xattrs then touch files path (xattrFlags env name) else files
  | Op.truncate path => touch files path CONTENT
  | Op.chmod path => touch files path PERMISSIONS
  | Op.chown path => touch files path (OWNER ||| GROUP)
  | Op.utimes _ => files
  | Op.update_extent path => touch files path CONTENT

/-- The tree after a whole stream, starting from the tree `files`. -/
def processAll (env : Env) (files : tree_node) (ops : List Op) : tree_node :=
  ops.foldl (process env) files

/-- A rename whose destination lies beneath its source. -/
def Op.renamesBeneath : Op → Bool
  | Op.rename src dst => Path.beneath (Path.parse src) (Path.parse dst)
  | _ => false

/-! ## Well-formedness of the maps -/

namespace tree_node

/-- Every `childs` map of the tree has strictly ascending keys (each is a `std::map`). -/
def WF : tree_node → Bool
  | mk _ cs => keysAscending cs && WFChilds cs
where
  /-- All nodes stored in a map are well formed. -/
  WFChilds : List (String × tree_node) → Bool
  | [] => true
  | (_, c) :: rest => WF c && WFChilds rest

end tree_node

/-! ## Definitions used by the statements -/

/-- The status `tree_node.find` reports at a path, if a node is there. -/
def statusAt (t : tree_node) (p : Path) : Option Nat := (tree_node.find t p).map tree_node.status

/-- The environment of the examples: no directory of snapshot 1 has entries, extended
attributes are compiled in, no attribute name is an ACL signature. -/
def exampleEnv : Env := ⟨fun _ => [], true, fun _ => false⟩

/-- The tree after `mkdir d; mkfile d/x`. -/
def exampleDir : tree_node :=
  processAll exampleEnv tree_node.empty [Op.mkdir "d", Op.mkfile "d/x"]

/-- Every node strictly below the root of the tree has a status satisfying `P`. -/
def allStatus (P : Nat → Prop) : tree_node → Prop
  | tree_node.mk _ cs => allStatusChilds P cs
where
  /-- Every node stored in the map, and every node below it, has a status satisfying `P`. -/
  allStatusChilds (P : Nat → Prop) : List (String × tree_node) → Prop
  | [] => True
  | (_, c) :: rest => P c.status ∧ allStatus P c ∧ allStatusChilds P rest

/-- A status does not carry `CREATED` and `DELETED` together. -/
def exclusive (s : Nat) : Prop := ¬ (s &&& CREATED ≠ 0 ∧ s &&& DELETED ≠ 0)

/-- The stream `mkfile a/b/c; mkfile t; rename a -> t`. -/
def danglingOps : List Op := [Op.mkfile "a/b/c", Op.mkfile "t", Op.rename "a" "t"]

/-- The tree the stream `danglingOps` builds from the empty tree. -/
def danglingTree : tree_node := processAll exampleEnv tree_node.empty danglingOps

/-- P4: every node with status 0 has a descendant with a non-zero status. -/
def noDanglingZero (t : tree_node) : Prop :=
  ∀ q n, tree_node.find t q = some n → n.status = 0 →
    ∃ r m, tree_node.find n r = some m ∧ m.status ≠ 0

/-- A node is not a childless node with status 0. -/
def notZeroLeaf (c : tree_node) : Prop := c.status = 0 → c.childs ≠ []

/-- No node strictly below the root is a childless node with status 0. -/
def noZeroLeaf : tree_node → Prop
  | tree_node.mk _ cs => noZeroLeafChilds cs
where
  /-- No node stored in the map, and no node below one, is a childless node with status 0. -/
  noZeroLeafChilds : List (String × tree_node) → Prop
  | [] => True
  | (_, c) :: rest => notZeroLeaf c ∧ noZeroLeaf c ∧ noZeroLeafChilds rest

/-- A stream in which no rename finds both its source and its destination in the tree, so
that `process_rename` never reaches `merge`. -/
def mergeFree (env : Env) : tree_node → List Op → Prop
  | _, [] => True
  | t, op :: rest =>
    (∀ src dst, op = Op.rename src dst →
      ¬ ((tree_node.find t (Path.parse src)).isSome = true ∧
        (tree_node.find t (Path.parse dst)).isSome = true)) ∧
    mergeFree env (process env t op) rest

/-- The callback `process_write`: the returned code and `processor->files` afterwards. -/
def process_write (files : tree_node) (path : String) : Int × tree_node :=
  (0, touch files path CONTENT)

/-- The callback `process_clone`: the returned code and `processor->files` afterwards. -/
def process_clone (files : tree_node) (path : String) : Int × tree_node :=
  (0, touch files path CONTENT)

/-- The callback `process_truncate`: the returned code and `processor->files` afterwards. -/
def process_truncate (files : tree_node) (path : String) : Int × tree_node :=
  (0, touch files path CONTENT)

/-- The callback `process_update_extent`: the returned code and `processor->files`
afterwards. -/
def process_update_extent (files : tree_node) (path : String) : Int × tree_node :=
  (0, touch files path CONTENT)

/-- The callback `process_chmod`: the returned code and `processor->files` afterwards. -/
def process_chmod (files : tree_node) (path : String) : Int × tree_node :=
  (0, touch files path PERMISSIONS)

/-- The callback `process_chown`: the returned code and `processor->files` afterwards. -/
def process_chown (files : tree_node) (path : String) : Int × tree_node :=
  (0, touch files path (OWNER ||| GROUP))

/-- The body shared by `process_set_xattr` and `process_remove_xattr`: with `ENABLE_XATTRS`,
`insert(path)`, `status |= XATTRS`, and `status |= ACL` when the name is an ACL signature;
the returned code is 0 in every case. -/
def process_xattr (env : Env) (files : tree_node) (path name : String) : Int × tree_node :=
  if env.enable_xattrs then
    if env.is_acl_signature name then
      (0, tree_node.update (fun x => tree_node.mk (x.status ||| ACL) x.childs)
        (touch files path XATTRS) (Path.parse path))
    else (0, touch files path XATTRS)
  else (0, files)

/-- The callback `process_set_xattr`: the returned code and `processor->files` afterwards. -/
def process_set_xattr (env : Env) (files : tree_node) (path name : String) : Int × tree_node :=
  process_xattr env files path name

/-- The callback `process_remove_xattr`: the returned code and `processor->files`
afterwards. -/
def process_remove_xattr (env : Env) (files : tree_node) (path name : String) :
    Int × tree_node :=
  process_xattr env files path name

/-- The effect claimed for an attribute callback on `path` with the bits `flags`: the callback
returns 0; the node at `path` carries its former status (0 for a node that had to be created)
ORed with `flags`, and its former children; every other path keeps the status it had, and
the only paths that are new are ancestors of `path`, with status 0. -/
def orsFlags (files : tree_node) (path : String) (flags : Nat) (r : Int × tree_node) : Prop :=
  r.1 = 0 ∧
    tree_node.find r.2 (Path.parse path) =
      some (match tree_node.find files (Path.parse path) with
        | none => tree_node.mk (0 ||| flags) []
        | some n => tree_node.mk (n.status ||| flags) n.childs) ∧
    ∀ q : Path, q ≠ Path.parse path →
      statusAt r.2 q =
        match statusAt files q with
        | some s => some s
        | none => if Path.beneath q (Path.parse path) = true then some 0 else none

/-- The tree the spec describes for a rename whose source is not in the tree, after
`deleted(from)` and `created(to)`: for each entry `e` of the listing, in order,
`deleted(from/e)` and then `created(to/e)`. -/
def spec_mark_entries (src dst : String) : tree_node → List String → tree_node
  | t, [] => t
  | t, e :: es =>
    spec_mark_entries src dst
      (StreamProcessor.created (StreamProcessor.deleted t (src ++ "/" ++ e)) (dst ++ "/" ++ e)) es

/-- The tree the spec describes for a rename whose source is not in the tree. -/
def spec_untracked_rename (files : tree_node) (entries : List String) (src dst : String) :
    tree_node :=
  spec_mark_entries src dst (StreamProcessor.created (StreamProcessor.deleted files src) dst)
    entries

/-- The environment in which the directory `d` of snapshot 1 lists `x`, `y` and `y/z`. -/
def listingEnv : Env := ⟨fun _ => ["x", "y", "y/z"], true, fun _ => false⟩

/-- The depth-first walk of the tree in the order of the maps: every node below the root,
with the path of its segments and its status, a node before the nodes beneath it. -/
def walk : tree_node → List (Path × Nat)
  | tree_node.mk _ cs => walkChilds cs
where
  /-- The walk through the entries of one map. -/
  walkChilds : List (String × tree_node) → List (Path × Nat)
  | [] => []
  | (k, c) :: rest =>
    (Path.last k, c.status) :: ((walk c).map (fun x => (Path.cons k x.1, x.2)) ++ walkChilds rest)

/-- The string `tree_node::result` hands to the callback for the node at a path, when called
with the argument `prefix`: at each level the prefix for the children is `it->first` when
`prefix.empty()` and `prefix + "/" + it->first` otherwise. -/
def emitName (pre : String) : Path → String
  | Path.last k => if pre = "" then "/" ++ k else "/" ++ pre ++ "/" ++ k
  | Path.cons k q => emitName (if pre = "" then k else pre ++ "/" ++ k) q

/-- The segments of a path joined with `"/"`. -/
def Path.render : Path → String
  | Path.last a => a
  | Path.cons a b => a ++ "/" ++ Path.render b

/-- The first segment of a path. -/
def Path.head : Path → String
  | Path.last a => a
  | Path.cons a _ => a

/-- The order of a depth-first pre-order walk on paths: a path comes before the paths beneath
it, and otherwise the first segment in which two paths differ decides, by the key order. -/
def Path.lt : Path → Path → Bool
  | Path.last a, Path.last b => keyLt a b
  | Path.last a, Path.cons b _ => a == b || keyLt a b
  | Path.cons a _, Path.last b => keyLt a b
  | Path.cons a p, Path.cons b q => keyLt a b || (a == b && Path.lt p q)

/-- No segment of the path contains a `'/'`. -/
def Path.slashFree : Path → Bool
  | Path.last a => !a.data.contains '/'
  | Path.cons a b => !a.data.contains '/' && Path.slashFree b

/-- No key of the tree contains a `'/'`: every key is a segment produced by splitting a path
string at its `'/'` characters. -/
def keysSplit : tree_node → Bool
  | tree_node.mk _ cs => keysSplitChilds cs
where
  /-- No key of the map, and no key below, contains a `'/'`. -/
  keysSplitChilds : List (String × tree_node) → Bool
  | [] => true
  | (k, c) :: rest => !k.data.contains '/' && keysSplit c && keysSplitChilds rest

/-- No child of the root has the empty string as its key (no path of the tree starts with
`'/'` or is empty). -/
def topNonempty (t : tree_node) : Bool := t.childs.all (fun kc => decide (kc.1 ≠ ""))

/-- The tree after `mkfile a; mkfile /a`: the second path has an empty first segment. -/
def emptySegmentTree : tree_node :=
  processAll exampleEnv tree_node.empty [Op.mkfile "a", Op.mkfile "/a"]

/-- The three-argument `tree_node::check`, with the names handed to the content compare and
the returned status.  `cmpFiles name` stands for opening the two parent directories of `name`
and calling `cmpFiles` on the two entries: the returned mask, or `none` when an exception
escapes, which then escapes from `check` as well. -/
def tree_node.check_status (cmpFiles : String → Option Nat) (name : String) (status : Nat) :
    Option (List String × Nat) :=
  let s1 := if status &&& CREATED ≠ 0 then CREATED else status
  let s2 := if s1 &&& DELETED ≠ 0 then DELETED else s1
  if s2 &&& ATTRS ≠ 0 then
    match cmpFiles name with
    | none => none
    | some m => some ([name], clearBits s2 ATTRS ||| m)
  else some ([], s2)

/-- The two-argument `tree_node::check` (the post-pass over the children of a node), with
the names handed to the content compare, in order, and the tree afterwards; `none` when an
exception escapes. -/
def tree_node.check (cmpFiles : String → Option Nat) :
    tree_node → String → Option (List String × tree_node)
  | tree_node.mk s cs, pre =>
    match checkChilds cmpFiles cs pre with
    | none => none
    | some r => some (r.1, tree_node.mk s r.2)
where
  /-- The loop of `tree_node::check` over `childs`. -/
  checkChilds (cmpFiles : String → Option Nat) :
      List (String × tree_node) → String → Option (List String × List (String × tree_node))
  | [], _ => some ([], [])
  | (k, c) :: rest, pre =>
    match tree_node.check_status cmpFiles (if pre = "" then k else pre ++ "/" ++ k) c.status with
    | none => none
    | some r1 =>
      match tree_node.check cmpFiles c (if pre = "" then k else pre ++ "/" ++ k) with
      | none => none
      | some r2 =>
        match checkChilds cmpFiles rest pre with
        | none => none
        | some r3 => some (r1.1 ++ r2.1 ++ r3.1, (k, tree_node.mk r1.2 r2.2.childs) :: r3.2)

/-- The name `tree_node::check` builds for the node at a path, when called with the argument
`prefix`: `it->first` when `prefix.empty()`, `prefix + "/" + it->first` otherwise. -/
def checkName (pre : String) : Path → String
  | Path.last k => if pre = "" then k else pre ++ "/" ++ k
  | Path.cons k q => checkName (if pre = "" then k else pre ++ "/" ++ k) q

/-- The status carries at least one of the six attribute flags and neither `CREATED` nor
`DELETED`. -/
def needsCompare (s : Nat) : Bool :=
  decide (s &&& ATTRS ≠ 0) && decide (s &&& CREATED = 0) && decide (s &&& DELETED = 0)

/-- The status of a node that is not compared: `CREATED` alone when `CREATED` is set,
otherwise `DELETED` alone when `DELETED` is set, otherwise the status itself. -/
def collapsed (s : Nat) : Nat :=
  if s &&& CREATED ≠ 0 then CREATED else if s &&& DELETED ≠ 0 then DELETED else s

/-- The status is a set over the eight flags `CREATED`, `DELETED` and the six attribute
flags. -/
def inUniverse (s : Nat) : Prop := s &&& (CREATED ||| (DELETED ||| ATTRS)) = s

/-- A mask the report may carry: exactly `CREATED`, exactly `DELETED`, or a non-empty set
of attribute flags. -/
def reportable (m : Nat) : Prop := m = CREATED ∨ m = DELETED ∨ (m ≠ 0 ∧ m &&& ATTRS = m)

/-- The tree after `mkfile a/b/c; mkfile t`. -/
def mergeSource : tree_node :=
  processAll exampleEnv tree_node.empty [Op.mkfile "a/b/c", Op.mkfile "t"]

/-- The tree after `mkfile a; chmod b; write c/d`. -/
def touchedTree : tree_node :=
  processAll exampleEnv tree_node.empty [Op.mkfile "a", Op.chmod "b", Op.write "c/d"]

/-- A content compare that finds the permissions of `b` changed and nothing else. -/
def exampleCompare : String → Option Nat :=
  fun name => if name = "b" then some PERMISSIONS else some 0

/-- The exceptions of the model: the two classes the functions below raise, and
`runtime_error` for an exception that is no `SnapperException`. -/
inductive Exn where
  | BtrfsSendReceiveException
  | IOErrorException
  | runtime_error
  deriving DecidableEq, Repr

/-- Modelled from the spec: whether the handler `catch (const SnapperException& e)` catches
the exception.  `BtrfsSendReceiveException` derives from `SnapperException` in the source.
`IOErrorException` is declared in `Exception.h`, which is not among the sources; it is taken
to derive from `SnapperException` as well (the diff completes with a report unless the
fallback also fails, so every failure of the core reaches the handler of the driver). -/
def Exn.isSnapperException : Exn → Bool
  | Exn.BtrfsSendReceiveException => true
  | Exn.IOErrorException => true
  | Exn.runtime_error => false

/-- The fields of `struct stat` the checks on a directory read. -/
structure Stat where
  /-- The inode number. -/
  st_ino : Nat
  /-- The file type and mode bits. -/
  st_mode : Nat
  /-- The owner. -/
  st_uid : Nat
  /-- The group. -/
  st_gid : Nat
  deriving DecidableEq, Repr

/-- The constant `S_IWGRP` of `<sys/stat.h>` (octal 020). -/
def S_IWGRP : Nat := 16

/-- The constant `S_IWOTH` of `<sys/stat.h>` (octal 002). -/
def S_IWOTH : Nat := 2

/-- The member function `Btrfs::openInfosDir`, as a function of what `infos_dir.stat(&stat)`
delivers: `none` when it returns non-zero, the `struct stat` otherwise.  The helper
`is_subvolume` is not among the sources and is a parameter.  The result `ok` stands for
`return infos_dir`. -/
def Btrfs.openInfosDir (is_subvolume : Stat → Bool) : Option Stat → Except Exn Unit
  | none => Except.error Exn.IOErrorException
  | some stat =>
    if !is_subvolume stat then Except.error Exn.IOErrorException
    else if stat.st_uid ≠ 0 then Except.error Exn.IOErrorException
    else if stat.st_gid ≠ 0 ∧ stat.st_mode &&& S_IWGRP ≠ 0 then
      Except.error Exn.IOErrorException
    else if stat.st_mode &&& S_IWOTH ≠ 0 then Except.error Exn.IOErrorException
    else Except.ok ()

/-- What one run of `Btrfs::cmpDirs` meets outside the program. -/
structure Core where
  /-- Whether `openSubvolumeDir()` returns (it raises `IOErrorException` otherwise). -/
  subvolume : Bool
  /-- The result of `subvol_uuid_search_init` in the constructor of `StreamProcessor`. -/
  search_init : Int
  /-- The result of `is_subvolume_ro(dir1)`: `none` when the ioctl fails. -/
  ro1 : Option Bool
  /-- The result of `is_subvolume_ro(dir2)`: `none` when the ioctl fails. -/
  ro2 : Option Bool
  /-- The result of `get_root_id`. -/
  root_id : Bool
  /-- The result `r1` of `pipe(pipefd)`. -/
  pipe : Int
  /-- The result `r2` of the `BTRFS_IOC_SEND` ioctl. -/
  ioctl : Int
  /-- The call number `i` of `btrfs_read_and_process_send_stream`: the commands it hands to
  the callbacks of `send_ops`, in order, and the value it returns. -/
  parser : Nat → List Op × Int
  /-- The content compare of the post-pass, as in `tree_node.check_status`. -/
  cmpFiles : String → Option Nat
  /-- What the callbacks read outside the tree. -/
  env : Env

/-- The member function `StreamProcessor::dumper`: the returned flag and `files` afterwards.
The first argument bounds the number of passes through the `while (true)` loop; the second
is the number of the next call of the parser. -/
def Core.dumper (c : Core) : Nat → Nat → tree_node → Option (Bool × tree_node)
  | 0, _, _ => none
  | fuel + 1, i, files =>
    if (c.parser i).2 < 0 then some (false, processAll c.env files (c.parser i).1)
    else if (c.parser i).2 ≠ 0 then some (true, processAll c.env files (c.parser i).1)
    else Core.dumper c fuel (i + 1) (processAll c.env files (c.parser i).1)

/-- The commands the parser hands to the callbacks in its calls number `i` to `i + k`. -/
def Core.commands (c : Core) : Nat → Nat → List Op
  | i, 0 => (c.parser i).1
  | i, k + 1 => (c.parser i).1 ++ Core.commands c (i + 1) k

/-- The member function `StreamProcessor::do_send`: the exception raised or, when it returns,
`files` afterwards.  The consumer `dumper` runs in its own thread and is waited for
(`uf.wait()`) before the results are looked at. -/
def Core.do_send (c : Core) (fuel : Nat) (files : tree_node) : Option (Except Exn tree_node) :=
  if c.pipe < 0 then some (Except.error Exn.BtrfsSendReceiveException)
  else
    match Core.dumper c fuel 0 files with
    | none => none
    | some uf =>
      if c.ioctl < 0 ∨ uf.1 = false then some (Except.error Exn.BtrfsSendReceiveException)
      else some (Except.ok uf.2)

/-- What a comparator has done when it is left: the invocations of the caller's callback, in
order, and the exception that escapes, if any. -/
structure Outcome where
  /-- The invocations of `cb`. -/
  calls : List (String × Nat)
  /-- The exception that escapes. -/
  raised : Option Exn
  deriving DecidableEq, Repr

/-- The member function `StreamProcessor::process`, with `files` empty at the start.  An
exception that escapes from the content compare of the post-pass is an `IOErrorException`
(the failure of a filesystem primitive). -/
def Core.process (c : Core) (fuel : Nat) : Option Outcome :=
  match c.ro1 with
  | none => some ⟨[], some Exn.IOErrorException⟩
  | some false => some ⟨[], some Exn.BtrfsSendReceiveException⟩
  | some true =>
    match c.ro2 with
    | none => some ⟨[], some Exn.IOErrorException⟩
    | some false => some ⟨[], some Exn.BtrfsSendReceiveException⟩
    | some true =>
      if c.root_id = false then some ⟨[], some Exn.BtrfsSendReceiveException⟩
      else
        match Core.do_send c fuel tree_node.empty with
        | none => none
        | some (Except.error e) => some ⟨[], some e⟩
        | some (Except.ok files) =>
          match tree_node.check c.cmpFiles files "" with
          | none => some ⟨[], some Exn.IOErrorException⟩
          | some r => some ⟨tree_node.result r.2 "", none⟩

/-- The `try` block of `Btrfs::cmpDirs`: `openSubvolumeDir()`, the constructor of
`StreamProcessor` and `processor.process(cb)`. -/
def Core.cmpDirs_try (c : Core) (fuel : Nat) : Option Outcome :=
  if c.subvolume = false then some ⟨[], some Exn.IOErrorException⟩
  else if c.search_init < 0 then some ⟨[], some Exn.BtrfsSendReceiveException⟩
  else Core.process c fuel

/-- The member function `Btrfs::cmpDirs`: whether the fallback `snapper::cmpDirs` was invoked,
and the outcome.  `fallback` is what the fallback comparator does when it is invoked. -/
def Core.cmpDirs (c : Core) (fallback : Outcome) (fuel : Nat) : Option (Bool × Outcome) :=
  match Core.cmpDirs_try c fuel with
  | none => none
  | some core =>
    match core.raised with
    | none => some (false, core)
    | some e =>
      if e.isSnapperException then
        some (true, ⟨core.calls ++ fallback.calls, fallback.raised⟩)
      else some (false, core)

/-- A run in which everything outside the program succeeds: the parser hands `mkfile a;
chmod b; write c/d` to the callbacks in its first call and reports the end of the stream in
its second; the content compare finds the permissions of `b` changed. -/
def exampleCore : Core :=
  { subvolume := true, search_init := 0, ro1 := some true, ro2 := some true, root_id := true,
    pipe := 0, ioctl := 0,
    parser := fun i =>
      if i = 0 then ([Op.mkfile "a", Op.chmod "b", Op.write "c/d"], 0) else ([], 1),
    cmpFiles := exampleCompare, env := exampleEnv }

/-- The run `exampleCore` with a content compare that fails on `b`. -/
def failingCore : Core :=
  { exampleCore with cmpFiles := fun name => if name = "b" then none else some 0 }

/-- What the fallback comparator does in the examples. -/
def exampleFallback : Outcome := ⟨[("/fallback", CREATED)], none⟩

/-- The callback is one of the attribute callbacks. -/
def Op.isAttribute : Op → Bool
  | Op.write _ => true
  | Op.clone _ => true
  | Op.set_xattr _ _ => true
  | Op.remove_xattr _ _ => true
  | Op.truncate _ => true
  | Op.chmod _ => true
  | Op.chown _ => true
  | Op.update_extent _ => true
  | _ => false

/-- The path `p` is `q` or lies beneath `q`. -/
def Path.within (q p : Path) : Bool := decide (p = q) || Path.beneath q p

/-- The callback touches the path `p`: `p` is the path argument of the callback, or `p` is
the source or the destination of a rename or lies beneath one of them.  The callbacks that
leave the tree alone (`subvol`, `snapshot`, `mknod`, `mkfifo`, `mksock`, `utimes`) touch
nothing. -/
def Op.touches : Op → Path → Bool
  | Op.mkfile q, p => decide (p = Path.parse q)
  | Op.mkdir q, p => decide (p = Path.parse q)
  | Op.symlink q _, p => decide (p = Path.parse q)
  | Op.rename src dst, p => Path.within (Path.parse src) p || Path.within (Path.parse dst) p
  | Op.link q _, p => decide (p = Path.parse q)
  | Op.unlink q, p => decide (p = Path.parse q)
  | Op.rmdir q, p => decide (p = Path.parse q)
  | Op.write q, p => decide (p = Path.parse q)
  | Op.clone q, p => decide (p = Path.parse q)
  | Op.set_xattr q _, p => decide (p = Path.parse q)
  | Op.remove_xattr q _, p => decide (p = Path.parse q)
  | Op.truncate q, p => decide (p = Path.parse q)
  | Op.chmod q, p => decide (p = Path.parse q)
  | Op.chown q, p => decide (p = Path.parse q)
  | Op.update_extent q, p => decide (p = Path.parse q)
  | _, _ => false

/-- The status at a path was left alone, apart from a node with status 0 that appeared, or
the node disappearing. -/
def framed (a b : Option Nat) : Prop := b = a ∨ b = some 0 ∨ b = none

/-- The node at `p`, if there is one, carries neither `CREATED` nor `DELETED`. -/
def attrOnlyAt (t : tree_node) (p : Path) : Prop :=
  ∀ s, statusAt t p = some s → s &&& (CREATED ||| DELETED) = 0

/-! # Properties

## Facts about the key order -/

theorem ltChars_irrefl (a : List Char) : ltChars a a = false := by
  induction a with
  | nil => rfl
  | cons c cs ih => simp [ltChars, ih]

theorem ltChars_trans : ∀ (a b c : List Char), ltChars a b = true → ltChars b c = true →
    ltChars a c = true
  | [], [], _, h, _ => by simp [ltChars] at h
  | [], _ :: _, [], _, h => by simp [ltChars] at h
  | [], _ :: _, _ :: _, _, _ => by simp [ltChars]
  | _ :: _, [], _, h, _ => by simp [ltChars] at h
  | _ :: _, _ :: _, [], _, h => by simp [ltChars] at h
  | x :: xs, y :: ys, z :: zs, h1, h2 => by
    simp only [ltChars] at h1 h2 ⊢
    by_cases hxy : x < y
    · by_cases hyz : y < z
      · simp [lt_trans hxy hyz]
      · simp only [hyz, if_false] at h2
        by_cases hzy : z < y
        · simp [hzy] at h2
        · have : y = z := le_antisymm (not_lt.mp hzy) (not_lt.mp hyz)
          subst this
          simp [hxy]
    · simp only [hxy, if_false] at h1
      by_cases hyx : y < x
      · simp [hyx] at h1
      · simp only [hyx, if_false] at h1
        have : x = y := le_antisymm (not_lt.mp hyx) (not_lt.mp hxy)
        subst this
        by_cases hxz : x < z
        · simp [hxz]
        · simp only [hxz, if_false] at h2 ⊢
          by_cases hzx : z < x
          · simp [hzx] at h2
          · simp only [hzx, if_false] at h2 ⊢
            exact ltChars_trans xs ys zs h1 h2

theorem ltChars_total : ∀ (a b : List Char), ltChars a b = false → ltChars b a = false → a = b
  | [], [], _, _ => rfl
  | [], _ :: _, h, _ => by simp [ltChars] at h
  | _ :: _, [], _, h => by simp [ltChars] at h
  | x :: xs, y :: ys, h1, h2 => by
    simp only [ltChars] at h1 h2
    by_cases hxy : x < y
    · simp [hxy] at h1
    · by_cases hyx : y < x
      · simp [hyx] at h2
      · simp only [hxy, hyx, if_false] at h1 h2
        have : x = y := le_antisymm (not_lt.mp hyx) (not_lt.mp hxy)
        rw [this, ltChars_total xs ys h1 h2]

theorem keyLt_irrefl (a : String) : keyLt a a = false := ltChars_irrefl a.data

theorem keyLt_trans {a b c : String} (h1 : keyLt a b = true) (h2 : keyLt b c = true) :
    keyLt a c = true := ltChars_trans _ _ _ h1 h2

theorem keyLt_total {a b : String} (h1 : keyLt a b = false) (h2 : keyLt b a = false) : a = b :=
  String.ext (ltChars_total _ _ h1 h2)

theorem keyLt_ne {a b : String} (h : keyLt a b = true) : a ≠ b := by
  intro e
  subst e
  rw [keyLt_irrefl] at h
  exact Bool.false_ne_true h

theorem keyLt_asymm {a b : String} (h : keyLt a b = true) : keyLt b a = false := by
  cases hba : keyLt b a with
  | false => rfl
  | true =>
    have := keyLt_trans h hba
    rw [keyLt_irrefl] at this
    exact absurd this Bool.false_ne_true

/-! ## Facts about the ordered map -/

section Maps

variable {α : Type}

theorem childs_find_put_self (k : String) (v : α) (l : List (String × α)) :
    childs_find k (childs_put k v l) = some v := by
  induction l with
  | nil => simp [childs_put, childs_find]
  | cons hd tl ih =>
    obtain ⟨k', v'⟩ := hd
    simp only [childs_put]
    by_cases h : k' = k
    · simp [h, childs_find]
    · by_cases h2 : keyLt k k' = true
      · simp [h, h2, childs_find]
      · simp [h, h2, childs_find, ih]

theorem childs_find_put_ne {k k' : String} (h : k' ≠ k) (v : α) (l : List (String × α)) :
    childs_find k' (childs_put k v l) = childs_find k' l := by
  induction l with
  | nil => simp [childs_put, childs_find, Ne.symm h]
  | cons hd tl ih =>
    obtain ⟨k1, v1⟩ := hd
    simp only [childs_put]
    by_cases h1 : k1 = k
    · subst h1
      simp [childs_find, Ne.symm h]
    · by_cases h2 : keyLt k k1 = true
      · simp [h1, h2, childs_find, Ne.symm h]
      · simp [h1, h2, childs_find, ih]

theorem childs_find_put (k k' : String) (v : α) (l : List (String × α)) :
    childs_find k' (childs_put k v l) = if k' = k then some v else childs_find k' l := by
  by_cases h : k' = k
  · subst h
    simp [childs_find_put_self]
  · simp [h, childs_find_put_ne h]

theorem childs_find_erase_ne {k k' : String} (h : k' ≠ k) (l : List (String × α)) :
    childs_find k' (childs_erase k l) = childs_find k' l := by
  induction l with
  | nil => rfl
  | cons hd tl ih =>
    obtain ⟨k1, v1⟩ := hd
    simp only [childs_erase]
    by_cases h1 : k1 = k
    · subst h1
      simp [childs_find, Ne.symm h]
    · simp [h1, childs_find, ih]

theorem keysAscending_cons (k : String) (v : α) (l : List (String × α)) :
    keysAscending ((k, v) :: l) = true ↔ keysAbove k l ∧ keysAscending l = true := by
  induction l generalizing k v with
  | nil => simp [keysAscending, keysAbove]
  | cons hd tl ih =>
    obtain ⟨k1, v1⟩ := hd
    simp only [keysAscending, Bool.and_eq_true]
    constructor
    · rintro ⟨h1, h2⟩
      refine ⟨?_, h2⟩
      intro k' v' hm
      rcases List.mem_cons.mp hm with e | hm
      · cases e
        exact h1
      · exact keyLt_trans h1 (((ih k1 v1).mp h2).1 k' v' hm)
    · rintro ⟨h1, h2⟩
      exact ⟨h1 k1 v1 (List.mem_cons_self _ _), h2⟩

theorem childs_find_none_of_keysAbove {k : String} {l : List (String × α)}
    (h : keysAbove k l) : childs_find k l = none := by
  induction l with
  | nil => rfl
  | cons hd tl ih =>
    obtain ⟨k1, v1⟩ := hd
    have h1 : keyLt k k1 = true := h k1 v1 (List.mem_cons_self _ _)
    have hne : k1 ≠ k := fun e => keyLt_ne h1 e.symm
    simp only [childs_find, hne, if_false]
    exact ih (fun k' v' hm => h k' v' (List.mem_cons_of_mem _ hm))

theorem mem_of_childs_find {k : String} {v : α} {l : List (String × α)}
    (h : childs_find k l = some v) : (k, v) ∈ l := by
  induction l with
  | nil => simp [childs_find] at h
  | cons hd tl ih =>
    obtain ⟨k1, v1⟩ := hd
    simp only [childs_find] at h
    by_cases h1 : k1 = k
    · simp only [h1, if_true, Option.some.injEq] at h
      subst h1
      subst h
      exact List.mem_cons_self _ _
    · simp only [h1, if_false] at h
      exact List.mem_cons_of_mem _ (ih h)

theorem childs_find_of_mem {k : String} {v : α} {l : List (String × α)}
    (hs : keysAscending l = true) (h : (k, v) ∈ l) : childs_find k l = some v := by
  induction l with
  | nil => simp at h
  | cons hd tl ih =>
    obtain ⟨k1, v1⟩ := hd
    have hs' := (keysAscending_cons k1 v1 tl).mp hs
    rcases List.mem_cons.mp h with e | hm
    · cases e
      simp [childs_find]
    · have hne : k1 ≠ k := keyLt_ne (hs'.1 k v hm)
      simp only [childs_find, hne, if_false]
      exact ih hs'.2 hm

theorem mem_childs_put {k k' : String} {v v' : α} {l : List (String × α)}
    (h : (k', v') ∈ childs_put k v l) : (k', v') = (k, v) ∨ (k', v') ∈ l := by
  induction l with
  | nil =>
    simp only [childs_put, List.mem_singleton] at h
    exact Or.inl h
  | cons hd tl ih =>
    obtain ⟨k1, v1⟩ := hd
    simp only [childs_put] at h
    by_cases h1 : k1 = k
    · simp only [h1, if_true] at h
      rcases List.mem_cons.mp h with e | hm
      · exact Or.inl e
      · exact Or.inr (List.mem_cons_of_mem _ hm)
    · simp only [h1, if_false] at h
      by_cases h2 : keyLt k k1 = true
      · simp only [h2, if_true] at h
        rcases List.mem_cons.mp h with e | hm
        · exact Or.inl e
        · exact Or.inr hm
      · simp only [h2] at h
        rcases List.mem_cons.mp h with e | hm
        · exact Or.inr (e ▸ List.mem_cons_self _ _)
        · rcases ih hm with e | hm
          · exact Or.inl e
          · exact Or.inr (List.mem_cons_of_mem _ hm)

theorem mem_childs_erase {k k' : String} {v' : α} {l : List (String × α)}
    (h : (k', v') ∈ childs_erase k l) : (k', v') ∈ l := by
  induction l with
  | nil => simp [childs_erase] at h
  | cons hd tl ih =>
    obtain ⟨k1, v1⟩ := hd
    simp only [childs_erase] at h
    by_cases h1 : k1 = k
    · simp only [h1, if_true] at h
      exact List.mem_cons_of_mem _ h
    · simp only [h1, if_false] at h
      rcases List.mem_cons.mp h with e | hm
      · exact e ▸ List.mem_cons_self _ _
      · exact List.mem_cons_of_mem _ (ih hm)

theorem keysAscending_put (k : String) (v : α) {l : List (String × α)}
    (hs : keysAscending l = true) : keysAscending (childs_put k v l) = true := by
  induction l with
  | nil => simp [childs_put, keysAscending]
  | cons hd tl ih =>
    obtain ⟨k1, v1⟩ := hd
    have hs' := (keysAscending_cons k1 v1 tl).mp hs
    simp only [childs_put]
    by_cases h1 : k1 = k
    · subst h1
      simp only [if_true]
      exact (keysAscending_cons k1 v tl).mpr hs'
    · simp only [h1, if_false]
      by_cases h2 : keyLt k k1 = true
      · simp only [h2, if_true]
        refine (keysAscending_cons k v _).mpr ⟨?_, hs⟩
        intro k' v' hm
        rcases List.mem_cons.mp hm with e | hm
        · cases e
          exact h2
        · exact keyLt_trans h2 (hs'.1 k' v' hm)
      · simp only [h2]
        refine (keysAscending_cons k1 v1 _).mpr ⟨?_, ih hs'.2⟩
        intro k' v' hm
        rcases mem_childs_put hm with e | hm
        · cases e
          cases h3 : keyLt k1 k with
          | true => rfl
          | false =>
            exact absurd (keyLt_total h3 (by simpa using h2)) h1
        · exact hs'.1 k' v' hm

theorem keysAscending_erase (k : String) {l : List (String × α)}
    (hs : keysAscending l = true) : keysAscending (childs_erase k l) = true := by
  induction l with
  | nil => simp [childs_erase, keysAscending]
  | cons hd tl ih =>
    obtain ⟨k1, v1⟩ := hd
    have hs' := (keysAscending_cons k1 v1 tl).mp hs
    simp only [childs_erase]
    by_cases h1 : k1 = k
    · simp only [h1, if_true]
      exact hs'.2
    · simp only [h1, if_false]
      refine (keysAscending_cons k1 v1 _).mpr ⟨?_, ih hs'.2⟩
      intro k' v' hm
      exact hs'.1 k' v' (mem_childs_erase hm)

theorem childs_find_erase_self (k : String) {l : List (String × α)}
    (hs : keysAscending l = true) : childs_find k (childs_erase k l) = none := by
  induction l with
  | nil => rfl
  | cons hd tl ih =>
    obtain ⟨k1, v1⟩ := hd
    have hs' := (keysAscending_cons k1 v1 tl).mp hs
    simp only [childs_erase]
    by_cases h1 : k1 = k
    · subst h1
      simp only [if_true]
      exact childs_find_none_of_keysAbove hs'.1
    · simp only [h1, if_false, childs_find]
      exact ih hs'.2

end Maps

end Snapper

/-! ## Facts about `find`, `insert` and `update` -/

namespace Snapper

@[simp] theorem tree_node.status_mk (s : Nat) (cs : List (String × tree_node)) :
    (tree_node.mk s cs).status = s := rfl

@[simp] theorem tree_node.childs_mk (s : Nat) (cs : List (String × tree_node)) :
    (tree_node.mk s cs).childs = cs := rfl

theorem tree_node.mk_eta (t : tree_node) : tree_node.mk t.status t.childs = t := by
  cases t
  rfl

theorem find_of_childs_nil {t : tree_node} (h : t.childs = []) (p : Path) : tree_node.find t p = none := by
  cases p <;> simp [tree_node.find, h, childs_find]

theorem childs_ne_nil_of_find {t n : tree_node} {p : Path} (h : tree_node.find t p = some n) :
    t.childs ≠ [] := by
  intro e
  rw [find_of_childs_nil e] at h
  exact Option.noConfusion h

theorem find_append (t : tree_node) (p q : Path) :
    tree_node.find t (p.append q) = (tree_node.find t p).bind (fun n => tree_node.find n q) := by
  induction p generalizing t with
  | last a =>
    simp only [Path.append, tree_node.find]
    cases childs_find a t.childs <;> rfl
  | cons a b ih =>
    simp only [Path.append, tree_node.find]
    cases childs_find a t.childs with
    | none => rfl
    | some c => exact ih c

theorem Path.beneath_irrefl (p : Path) : Path.beneath p p = false := by
  induction p with
  | last a => rfl
  | cons a b ih => simp [Path.beneath, ih]

theorem Path.beneath_append (p q : Path) : Path.beneath p (p.append q) = true := by
  induction p with
  | last a => simp [Path.append, Path.beneath]
  | cons a b ih => simp [Path.append, Path.beneath, ih]

theorem Path.exists_append_of_beneath {o n : Path} (h : Path.beneath o n = true) :
    ∃ q, n = o.append q := by
  induction o generalizing n with
  | last a =>
    cases n with
    | last b => simp [Path.beneath] at h
    | cons b n' =>
      simp only [Path.beneath, beq_iff_eq] at h
      exact ⟨n', by rw [h]; rfl⟩
  | cons a o' ih =>
    cases n with
    | last b => simp [Path.beneath] at h
    | cons b n' =>
      simp only [Path.beneath, Bool.and_eq_true, beq_iff_eq] at h
      obtain ⟨q, hq⟩ := ih h.2
      exact ⟨q, by rw [h.1, hq]; rfl⟩

/-- A node that `tree_node.find` locates has all its ancestors located as well. -/
theorem find_isSome_of_beneath {t : tree_node} {o n : Path} (h : Path.beneath o n = true)
    (hn : (tree_node.find t n).isSome = true) : (tree_node.find t o).isSome = true := by
  obtain ⟨q, rfl⟩ := Path.exists_append_of_beneath h
  rw [find_append] at hn
  cases ho : tree_node.find t o with
  | none => simp [ho] at hn
  | some x => rfl

theorem find_insert_self (t : tree_node) (p : Path) (h : tree_node.find t p = none) :
    tree_node.find (tree_node.insert t p) p = some tree_node.empty := by
  induction p generalizing t with
  | last a =>
    simp only [tree_node.find] at h
    simp [tree_node.insert, tree_node.find, h, childs_find_put_self]
  | cons a b ih =>
    simp only [tree_node.find] at h
    cases hc : childs_find a t.childs with
    | none =>
      simp only [tree_node.insert, tree_node.find, hc, tree_node.childs_mk, childs_find_put_self]
      exact ih tree_node.empty (find_of_childs_nil (t := tree_node.empty) rfl b)
    | some c =>
      simp only [hc] at h
      simp only [tree_node.insert, tree_node.find, hc, tree_node.childs_mk, childs_find_put_self]
      exact ih c h

theorem insert_status (t : tree_node) (p : Path) : (tree_node.insert t p).status = t.status := by
  cases p with
  | last a =>
    simp only [tree_node.insert]
    cases childs_find a t.childs <;> rfl
  | cons a b =>
    simp only [tree_node.insert]
    cases childs_find a t.childs <;> rfl

/-- After `tree_node.insert(p)`: a path that was located keeps its status, and the paths that are
newly located are `p` and its ancestors, all with status 0. -/
theorem statusAt_insert (t : tree_node) (p q : Path) :
    statusAt (tree_node.insert t p) q =
      match statusAt t q with
      | some s => some s
      | none => if q = p ∨ Path.beneath q p = true then some 0 else none := by
  induction p generalizing t q with
  | last a =>
    cases hc : childs_find a t.childs with
    | some c =>
      simp only [tree_node.insert, hc]
      cases hq : statusAt t q with
      | some s => rfl
      | none =>
        have : ¬ (q = Path.last a ∨ Path.beneath q (Path.last a) = true) := by
          rintro (e | e)
          · subst e
            simp [statusAt, tree_node.find, hc] at hq
          · cases q <;> simp [Path.beneath] at e
        simp [this]
    | none =>
      simp only [tree_node.insert, hc]
      cases q with
      | last b =>
        simp only [statusAt, tree_node.find, tree_node.childs_mk, childs_find_put, Path.beneath]
        by_cases hb : b = a
        · subst hb
          simp [hc, tree_node.empty]
        · simp only [hb, if_false]
          cases childs_find b t.childs <;> simp [hb]
      | cons b q' =>
        simp only [statusAt, tree_node.find, tree_node.childs_mk, childs_find_put, Path.beneath]
        by_cases hb : b = a
        · subst hb
          simp [hc, tree_node.empty, find_of_childs_nil]
        · simp only [hb, if_false]
          cases childs_find b t.childs with
          | none => simp
          | some c => cases hfc : tree_node.find c q' <;> simp [hfc]
  | cons a b ih =>
    have key : ∀ c : tree_node, childs_find a t.childs = some c ∨
        (childs_find a t.childs = none ∧ c = tree_node.empty) →
        statusAt (tree_node.mk t.status (childs_put a (tree_node.insert c b) t.childs)) q =
          match statusAt t q with
          | some s => some s
          | none => if q = Path.cons a b ∨ Path.beneath q (Path.cons a b) = true then some 0
                    else none := by
      intro c hc
      cases q with
      | last k =>
        simp only [statusAt, tree_node.find, tree_node.childs_mk, childs_find_put, Path.beneath]
        by_cases hk : k = a
        · subst hk
          simp only [if_true, Option.map_some', insert_status]
          rcases hc with hc | ⟨hc, rfl⟩
          · simp [hc]
          · simp [hc, tree_node.empty]
        · simp only [hk, if_false]
          have hk' : ¬ (k == a) = true := by simpa using hk
          cases childs_find k t.childs <;> simp [hk']
      | cons k q' =>
        simp only [statusAt, tree_node.find, tree_node.childs_mk, childs_find_put, Path.beneath]
        by_cases hk : k = a
        · subst hk
          simp only [if_true]
          have := ih c q'
          simp only [statusAt] at this
          rw [this]
          rcases hc with hc | ⟨hc, rfl⟩
          · simp only [hc]
            cases hfc : tree_node.find c q' <;> simp [hfc]
          · simp only [hc, find_of_childs_nil (t := tree_node.empty) rfl q']
            simp
        · simp only [hk, if_false]
          have hk' : ¬ (k == a) = true := by simpa using hk
          cases childs_find k t.childs with
          | none => simp [hk, hk']
          | some c' => cases hfc : tree_node.find c' q' <;> simp [hk, hk', hfc]
    cases hc : childs_find a t.childs with
    | none =>
      simp only [tree_node.insert, hc]
      exact key tree_node.empty (Or.inr ⟨hc, rfl⟩)
    | some c =>
      simp only [tree_node.insert, hc]
      exact key c (Or.inl hc)

theorem update_status (f : tree_node → tree_node) (t : tree_node) (p : Path) :
    (tree_node.update f t p).status = t.status := by
  cases p with
  | last a =>
    simp only [tree_node.update]
    cases childs_find a t.childs <;> rfl
  | cons a b =>
    simp only [tree_node.update]
    cases childs_find a t.childs <;> rfl

theorem find_update_self (f : tree_node → tree_node) (t : tree_node) (p : Path) :
    tree_node.find (tree_node.update f t p) p = (tree_node.find t p).map f := by
  induction p generalizing t with
  | last a =>
    cases hc : childs_find a t.childs with
    | none => simp [tree_node.update, tree_node.find, hc]
    | some c => simp [tree_node.update, tree_node.find, hc, childs_find_put_self]
  | cons a b ih =>
    cases hc : childs_find a t.childs with
    | none => simp [tree_node.update, tree_node.find, hc]
    | some c =>
      simp only [tree_node.update, tree_node.find, hc, tree_node.childs_mk, childs_find_put_self]
      exact ih c

/-- A write through the pointer to the node at `p` that leaves `childs` alone changes the
status at `p` only. -/
theorem statusAt_update (f : tree_node → tree_node) (hf : ∀ x, (f x).childs = x.childs)
    (t : tree_node) (p q : Path) (hq : q ≠ p) :
    statusAt (tree_node.update f t p) q = statusAt t q := by
  induction p generalizing t q with
  | last a =>
    cases hc : childs_find a t.childs with
    | none => simp [tree_node.update, hc]
    | some c =>
      simp only [tree_node.update, hc]
      cases q with
      | last k =>
        have hk : k ≠ a := fun e => hq (by rw [e])
        simp [statusAt, tree_node.find, childs_find_put, hk]
      | cons k q' =>
        simp only [statusAt, tree_node.find, tree_node.childs_mk, childs_find_put]
        by_cases hk : k = a
        · subst hk
          simp only [if_true, hc]
          have : tree_node.find (f c) q' = tree_node.find c q' := by
            cases q' <;> simp [tree_node.find, hf]
          rw [this]
        · simp [hk]
  | cons a b ih =>
    cases hc : childs_find a t.childs with
    | none => simp [tree_node.update, hc]
    | some c =>
      simp only [tree_node.update, hc]
      cases q with
      | last k =>
        simp only [statusAt, tree_node.find, tree_node.childs_mk, childs_find_put]
        by_cases hk : k = a
        · subst hk
          simp [hc, update_status]
        · simp [hk]
      | cons k q' =>
        simp only [statusAt, tree_node.find, tree_node.childs_mk, childs_find_put]
        by_cases hk : k = a
        · subst hk
          simp only [if_true, hc]
          have hq' : q' ≠ b := fun e => hq (by rw [e])
          exact ih c q' hq'
        · simp [hk]

end Snapper

/-! ## Well-formed trees -/

namespace Snapper

theorem WFChilds_iff (cs : List (String × tree_node)) :
    tree_node.WF.WFChilds cs = true ↔ ∀ k c, (k, c) ∈ cs → tree_node.WF c = true := by
  induction cs with
  | nil => simp [tree_node.WF.WFChilds]
  | cons hd tl ih =>
    obtain ⟨k1, c1⟩ := hd
    simp only [tree_node.WF.WFChilds, Bool.and_eq_true, ih]
    constructor
    · rintro ⟨h1, h2⟩ k c hm
      rcases List.mem_cons.mp hm with e | hm
      · cases e
        exact h1
      · exact h2 k c hm
    · intro h
      exact ⟨h k1 c1 (List.mem_cons_self _ _), fun k c hm => h k c (List.mem_cons_of_mem _ hm)⟩

theorem WF_mk_iff (s : Nat) (cs : List (String × tree_node)) :
    tree_node.WF (tree_node.mk s cs) = true ↔
      keysAscending cs = true ∧ ∀ k c, (k, c) ∈ cs → tree_node.WF c = true := by
  simp only [tree_node.WF, Bool.and_eq_true, WFChilds_iff]

theorem WF_iff (t : tree_node) :
    tree_node.WF t = true ↔
      keysAscending t.childs = true ∧ ∀ k c, (k, c) ∈ t.childs → tree_node.WF c = true := by
  cases t
  exact WF_mk_iff _ _

theorem WF_empty : tree_node.WF tree_node.empty = true := by decide

theorem WF_child {t c : tree_node} {k : String} (h : tree_node.WF t = true)
    (hc : childs_find k t.childs = some c) : tree_node.WF c = true :=
  ((WF_iff t).mp h).2 k c (mem_of_childs_find hc)

theorem WF_put {t : tree_node} (h : tree_node.WF t = true) (k : String) {c : tree_node}
    (hc : tree_node.WF c = true) (s : Nat) :
    tree_node.WF (tree_node.mk s (childs_put k c t.childs)) = true := by
  obtain ⟨h1, h2⟩ := (WF_iff t).mp h
  refine (WF_mk_iff _ _).mpr ⟨keysAscending_put k c h1, ?_⟩
  intro k' c' hm
  rcases mem_childs_put hm with e | hm
  · cases e
    exact hc
  · exact h2 k' c' hm

theorem WF_erase_childs {t : tree_node} (h : tree_node.WF t = true) (k : String) (s : Nat) :
    tree_node.WF (tree_node.mk s (childs_erase k t.childs)) = true := by
  obtain ⟨h1, h2⟩ := (WF_iff t).mp h
  exact (WF_mk_iff _ _).mpr ⟨keysAscending_erase k h1, fun k' c' hm => h2 k' c' (mem_childs_erase hm)⟩

theorem WF_of_childs_eq {t : tree_node} (h : tree_node.WF t = true) (s : Nat) :
    tree_node.WF (tree_node.mk s t.childs) = true :=
  (WF_mk_iff _ _).mpr ((WF_iff t).mp h)

theorem WF_find {t n : tree_node} {p : Path} (h : tree_node.WF t = true)
    (hn : tree_node.find t p = some n) : tree_node.WF n = true := by
  induction p generalizing t with
  | last a => exact WF_child h hn
  | cons a b ih =>
    simp only [tree_node.find] at hn
    cases hc : childs_find a t.childs with
    | none => simp [hc] at hn
    | some c =>
      simp only [hc] at hn
      exact ih (WF_child h hc) hn

theorem WF_insert {t : tree_node} (h : tree_node.WF t = true) (p : Path) :
    tree_node.WF (tree_node.insert t p) = true := by
  induction p generalizing t with
  | last a =>
    simp only [tree_node.insert]
    cases hc : childs_find a t.childs with
    | none => exact WF_put h a WF_empty _
    | some c => exact h
  | cons a b ih =>
    simp only [tree_node.insert]
    cases hc : childs_find a t.childs with
    | none => exact WF_put h a (ih WF_empty) _
    | some c => exact WF_put h a (ih (WF_child h hc)) _

theorem WF_update {f : tree_node → tree_node}
    (hf : ∀ x, tree_node.WF x = true → tree_node.WF (f x) = true)
    {t : tree_node} (h : tree_node.WF t = true) (p : Path) :
    tree_node.WF (tree_node.update f t p) = true := by
  induction p generalizing t with
  | last a =>
    simp only [tree_node.update]
    cases hc : childs_find a t.childs with
    | none => exact h
    | some c => exact WF_put h a (hf c (WF_child h hc)) _
  | cons a b ih =>
    simp only [tree_node.update]
    cases hc : childs_find a t.childs with
    | none => exact h
    | some c => exact WF_put h a (ih (WF_child h hc)) _

theorem WF_erase {t : tree_node} (h : tree_node.WF t = true) (p : Path) :
    tree_node.WF (tree_node.erase t p).2 = true := by
  induction p generalizing t with
  | last a =>
    cases hc : childs_find a t.childs with
    | none =>
      simp only [tree_node.erase, hc]
      exact h
    | some c =>
      simp only [tree_node.erase, hc]
      by_cases he : c.childs.isEmpty = true
      · rw [if_pos he]
        exact WF_erase_childs h a _
      · rw [if_neg he]
        exact WF_put h a (WF_of_childs_eq (WF_child h hc) 0) _
  | cons a b ih =>
    cases hc : childs_find a t.childs with
    | none =>
      simp only [tree_node.erase, hc]
      exact h
    | some c =>
      simp only [tree_node.erase, hc]
      by_cases he : (tree_node.erase c b).2.status = 0 ∧
          (tree_node.erase c b).2.childs.isEmpty = true
      · rw [if_pos he]
        exact WF_erase_childs h a _
      · rw [if_neg he]
        exact WF_put h a (ih (WF_child h hc)) _

/-! ## Facts about `erase` -/

theorem erase_last (t : tree_node) (a : String) {c : tree_node}
    (hc : childs_find a t.childs = some c) :
    tree_node.erase t (Path.last a) =
      if c.childs.isEmpty = true then (true, tree_node.mk t.status (childs_erase a t.childs))
      else (true, tree_node.mk t.status (childs_put a (tree_node.mk 0 c.childs) t.childs)) := by
  simp only [tree_node.erase, hc]

theorem erase_cons (t : tree_node) (a : String) (b : Path) {c : tree_node}
    (hc : childs_find a t.childs = some c) :
    tree_node.erase t (Path.cons a b) =
      if (tree_node.erase c b).2.status = 0 ∧ (tree_node.erase c b).2.childs.isEmpty = true then
        (true, tree_node.mk t.status (childs_erase a t.childs))
      else (true, tree_node.mk t.status (childs_put a (tree_node.erase c b).2 t.childs)) := by
  simp only [tree_node.erase, hc]

theorem erase_none_last (t : tree_node) (a : String) (hc : childs_find a t.childs = none) :
    tree_node.erase t (Path.last a) = (false, t) := by
  simp only [tree_node.erase, hc]

theorem erase_none_cons (t : tree_node) (a : String) (b : Path)
    (hc : childs_find a t.childs = none) :
    tree_node.erase t (Path.cons a b) = (false, t) := by
  simp only [tree_node.erase, hc]

theorem erase_status (t : tree_node) (p : Path) : (tree_node.erase t p).2.status = t.status := by
  cases p with
  | last a =>
    cases hc : childs_find a t.childs with
    | none => rw [erase_none_last t a hc]
    | some c =>
      rw [erase_last t a hc]
      split <;> rfl
  | cons a b =>
    cases hc : childs_find a t.childs with
    | none => rw [erase_none_cons t a b hc]
    | some c =>
      rw [erase_cons t a b hc]
      split <;> rfl

theorem erase_fst (t : tree_node) (p : Path) (n : tree_node) (h : tree_node.find t p = some n) :
    (tree_node.erase t p).1 = true := by
  cases p with
  | last a =>
    simp only [tree_node.find] at h
    rw [erase_last t a h]
    split <;> rfl
  | cons a b =>
    simp only [tree_node.find] at h
    cases hc : childs_find a t.childs with
    | none => simp [hc] at h
    | some c =>
      rw [erase_cons t a b hc]
      split <;> rfl

/-- Erasing a node that has children keeps the node, with status 0 and the same children. -/
theorem find_erase_self_inner {t n : tree_node} {p : Path} (h : tree_node.find t p = some n)
    (hn : n.childs ≠ []) :
    tree_node.find (tree_node.erase t p).2 p = some (tree_node.mk 0 n.childs) := by
  induction p generalizing t with
  | last a =>
    simp only [tree_node.find] at h
    have he : ¬ n.childs.isEmpty = true := by simpa using hn
    rw [erase_last t a h, if_neg he]
    simp [tree_node.find, childs_find_put_self]
  | cons a b ih =>
    simp only [tree_node.find] at h
    cases hc : childs_find a t.childs with
    | none => simp [hc] at h
    | some c =>
      simp only [hc] at h
      have h1 := ih h
      have hne : (tree_node.erase c b).2.childs ≠ [] := childs_ne_nil_of_find h1
      have he : ¬ ((tree_node.erase c b).2.status = 0 ∧
          (tree_node.erase c b).2.childs.isEmpty = true) := by
        rintro ⟨_, h2⟩
        exact hne (by simpa using h2)
      rw [erase_cons t a b hc, if_neg he]
      simp only [tree_node.find, tree_node.childs_mk, childs_find_put_self]
      exact h1

/-- Erasing a node without children unlinks it. -/
theorem find_erase_self_leaf {t n : tree_node} {p : Path} (hw : tree_node.WF t = true)
    (h : tree_node.find t p = some n) (hn : n.childs = []) :
    tree_node.find (tree_node.erase t p).2 p = none := by
  induction p generalizing t with
  | last a =>
    simp only [tree_node.find] at h
    have he : n.childs.isEmpty = true := by simp [hn]
    rw [erase_last t a h, if_pos he]
    simp only [tree_node.find, tree_node.childs_mk]
    exact childs_find_erase_self a ((WF_iff t).mp hw).1
  | cons a b ih =>
    simp only [tree_node.find] at h
    cases hc : childs_find a t.childs with
    | none => simp [hc] at h
    | some c =>
      simp only [hc] at h
      have h1 := ih (WF_child hw hc) h
      rw [erase_cons t a b hc]
      split
      · simp only [tree_node.find, tree_node.childs_mk]
        rw [childs_find_erase_self a ((WF_iff t).mp hw).1]
      · simp only [tree_node.find, tree_node.childs_mk, childs_find_put_self]
        exact h1

/-- Erasing `p` leaves every node alone that is neither `p`, nor above `p`, nor beneath `p`. -/
theorem find_erase_off {t : tree_node} (hw : tree_node.WF t = true) (p q : Path) (h1 : q ≠ p)
    (h2 : Path.beneath q p = false) (h3 : Path.beneath p q = false) :
    tree_node.find (tree_node.erase t p).2 q = tree_node.find t q := by
  induction p generalizing t q with
  | last a =>
    cases hc : childs_find a t.childs with
    | none => rw [erase_none_last t a hc]
    | some c =>
      have hk : ∀ k, (q = Path.last k ∨ ∃ q', q = Path.cons k q') → k ≠ a := by
        rintro k (e | ⟨q', e⟩) ha
        · exact h1 (by rw [e, ha])
        · subst e
          simp [Path.beneath, ha] at h3
      rw [erase_last t a hc]
      split
      · cases q with
        | last k =>
          simp only [tree_node.find, tree_node.childs_mk]
          exact childs_find_erase_ne (hk k (Or.inl rfl)) _
        | cons k q' =>
          simp only [tree_node.find, tree_node.childs_mk]
          rw [childs_find_erase_ne (hk k (Or.inr ⟨q', rfl⟩))]
      · cases q with
        | last k =>
          simp only [tree_node.find, tree_node.childs_mk]
          exact childs_find_put_ne (hk k (Or.inl rfl)) _ _
        | cons k q' =>
          simp only [tree_node.find, tree_node.childs_mk]
          rw [childs_find_put_ne (hk k (Or.inr ⟨q', rfl⟩))]
  | cons a b ih =>
    cases hc : childs_find a t.childs with
    | none => rw [erase_none_cons t a b hc]
    | some c =>
      rw [erase_cons t a b hc]
      cases q with
      | last k =>
        have hk : k ≠ a := by
          intro e
          simp [Path.beneath, e] at h2
        split
        · simp only [tree_node.find, tree_node.childs_mk]
          exact childs_find_erase_ne hk _
        · simp only [tree_node.find, tree_node.childs_mk]
          exact childs_find_put_ne hk _ _
      | cons k q' =>
        by_cases hk : k = a
        · subst hk
          have e1 : q' ≠ b := fun e => h1 (by rw [e])
          have e2 : Path.beneath q' b = false := by simpa [Path.beneath] using h2
          have e3 : Path.beneath b q' = false := by simpa [Path.beneath] using h3
          have hih := ih (WF_child hw hc) q' e1 e2 e3
          split
          · rename_i hp
            simp only [tree_node.find, tree_node.childs_mk, hc]
            rw [← hih, find_of_childs_nil (by simpa using hp.2),
              childs_find_erase_self k ((WF_iff t).mp hw).1]
          · simp only [tree_node.find, tree_node.childs_mk, hc, childs_find_put_self]
            exact hih
        · split
          · simp only [tree_node.find, tree_node.childs_mk]
            rw [childs_find_erase_ne hk]
          · simp only [tree_node.find, tree_node.childs_mk]
            rw [childs_find_put_ne hk]

end Snapper

/-! ## Status arithmetic -/

namespace Snapper

theorem testBit_clearBits (s m i : Nat) :
    (clearBits s m).testBit i = (s.testBit i && !m.testBit i) := by
  simp only [clearBits, Nat.testBit_xor, Nat.testBit_and]
  cases s.testBit i <;> cases m.testBit i <;> rfl

theorem clearBits_and_self (s m : Nat) : clearBits s m &&& m = 0 := by
  apply Nat.eq_of_testBit_eq
  intro i
  simp only [Nat.testBit_and, testBit_clearBits, Nat.zero_testBit]
  cases s.testBit i <;> cases m.testBit i <;> rfl

theorem touched_and_created (s : Nat) : touched s &&& CREATED = 0 := by
  apply Nat.eq_of_testBit_eq
  intro i
  simp only [touched, Nat.testBit_and, Nat.testBit_or, testBit_clearBits, Nat.zero_testBit]
  rcases Nat.eq_zero_or_pos i with h | h
  · subst h
    cases s.testBit 0 <;> decide
  · have : CREATED.testBit i = false :=
      Nat.testBit_lt_two_pow (lt_of_lt_of_le (by decide : CREATED < 2 ^ 1)
        (Nat.pow_le_pow_right (by decide) h))
    simp [this]

theorem touched_and_deleted (s : Nat) : touched s &&& DELETED = 0 := by
  apply Nat.eq_of_testBit_eq
  intro i
  simp only [touched, Nat.testBit_and, Nat.testBit_or, testBit_clearBits, Nat.zero_testBit]
  by_cases h0 : i = 0
  · subst h0
    have : DELETED.testBit 0 = false := by decide
    simp [this]
  · by_cases h1 : i = 1
    · subst h1
      cases s.testBit 1 <;> decide
    · have h2 : 2 ≤ i := by omega
      have : DELETED.testBit i = false :=
        Nat.testBit_lt_two_pow (lt_of_lt_of_le (by decide : DELETED < 2 ^ 2)
          (Nat.pow_le_pow_right (by decide) h2))
      simp [this]

theorem touched_deleted : touched DELETED = ATTRS := by decide

theorem touched_created : touched CREATED = ATTRS := by decide

theorem find_congr_childs {t1 t2 : tree_node} (h : t1.childs = t2.childs) (q : Path) :
    tree_node.find t1 q = tree_node.find t2 q := by
  cases q <;> simp [tree_node.find, h]

/-! ## `created` and `deleted` -/

theorem find_created (files : tree_node) (name : String) :
    tree_node.find (StreamProcessor.created files name) (Path.parse name) =
      some (match tree_node.find files (Path.parse name) with
        | none => tree_node.mk CREATED []
        | some n => tree_node.mk (touched n.status) n.childs) := by
  unfold StreamProcessor.created
  cases h : tree_node.find files (Path.parse name) with
  | none =>
    simp only [find_update_self, find_insert_self files _ h]
    rfl
  | some n =>
    simp only [find_update_self, h]
    rfl

theorem find_deleted_of_absent (files : tree_node) (name : String)
    (h : tree_node.find files (Path.parse name) = none) :
    tree_node.find (StreamProcessor.deleted files name) (Path.parse name)
        = some (tree_node.mk DELETED []) := by
  unfold StreamProcessor.deleted
  simp only [h, find_update_self, find_insert_self files _ h]
  rfl

theorem WF_created {files : tree_node} (hw : tree_node.WF files = true) (name : String) :
    tree_node.WF (StreamProcessor.created files name) = true := by
  unfold StreamProcessor.created
  cases tree_node.find files (Path.parse name) with
  | none => exact WF_update (fun x hx => WF_of_childs_eq hx _) (WF_insert hw _) _
  | some n => exact WF_update (fun x hx => WF_of_childs_eq hx _) hw _

theorem WF_deleted {files : tree_node} (hw : tree_node.WF files = true) (name : String) :
    tree_node.WF (StreamProcessor.deleted files name) = true := by
  unfold StreamProcessor.deleted
  cases tree_node.find files (Path.parse name) with
  | none => exact WF_update (fun x hx => WF_of_childs_eq hx _) (WF_insert hw _) _
  | some n => exact WF_erase hw _

end Snapper

/-! ## `rename` -/

namespace Snapper

theorem Path.pushFront_append (c : Char) (p q : Path) :
    (Path.pushFront c p).append q = Path.pushFront c (p.append q) := by
  cases p <;> rfl

theorem Path.parseChars_append (xs ys : List Char) :
    Path.parseChars (xs ++ '/' :: ys) = (Path.parseChars xs).append (Path.parseChars ys) := by
  induction xs with
  | nil => rfl
  | cons c cs ih =>
    have e : (c :: cs) ++ '/' :: ys = c :: (cs ++ '/' :: ys) := rfl
    rw [e]
    simp only [Path.parseChars]
    rw [ih]
    by_cases hc : c = '/'
    · simp only [hc, if_true]
      rfl
    · simp only [hc, if_false, Path.pushFront_append]

/-- Splitting `a + "/" + b` gives the path of `a` followed by the path of `b`. -/
theorem Path.parse_append (a b : String) :
    Path.parse (a ++ "/" ++ b) = (Path.parse a).append (Path.parse b) := by
  simp only [Path.parse, String.data_append]
  rw [List.append_assoc]
  exact Path.parseChars_append a.data b.data

/-- Inserting `p` leaves every node alone that is neither `p` nor above `p`. -/
theorem find_insert_off (t : tree_node) (p q : Path) (h1 : q ≠ p)
    (h2 : Path.beneath q p = false) :
    tree_node.find (tree_node.insert t p) q = tree_node.find t q := by
  induction p generalizing t q with
  | last a =>
    simp only [tree_node.insert]
    cases hc : childs_find a t.childs with
    | some c => rfl
    | none =>
      cases q with
      | last k =>
        have hk : k ≠ a := fun e => h1 (by rw [e])
        simp only [tree_node.find, tree_node.childs_mk]
        exact childs_find_put_ne hk _ _
      | cons k q' =>
        simp only [tree_node.find, tree_node.childs_mk, childs_find_put]
        by_cases hk : k = a
        · subst hk
          simp [hc, find_of_childs_nil (t := tree_node.empty) rfl]
        · simp [hk]
  | cons a b ih =>
    have key : ∀ c : tree_node, childs_find a t.childs = some c ∨
        (childs_find a t.childs = none ∧ c = tree_node.empty) →
        tree_node.find (tree_node.mk t.status (childs_put a (tree_node.insert c b) t.childs)) q
          = tree_node.find t q := by
      intro c hc
      cases q with
      | last k =>
        have hk : k ≠ a := by
          intro e
          simp [Path.beneath, e] at h2
        simp only [tree_node.find, tree_node.childs_mk]
        exact childs_find_put_ne hk _ _
      | cons k q' =>
        simp only [tree_node.find, tree_node.childs_mk, childs_find_put]
        by_cases hk : k = a
        · subst hk
          have e1 : q' ≠ b := fun e => h1 (by rw [e])
          have e2 : Path.beneath q' b = false := by simpa [Path.beneath] using h2
          simp only [if_true]
          rw [ih c q' e1 e2]
          rcases hc with hc | ⟨hc, rfl⟩
          · simp [hc]
          · simp [hc, find_of_childs_nil (t := tree_node.empty) rfl]
        · simp [hk]
    simp only [tree_node.insert]
    cases hc : childs_find a t.childs with
    | none => exact key tree_node.empty (Or.inr ⟨hc, rfl⟩)
    | some c => exact key c (Or.inl hc)

/-- A write through the pointer to the node at `p` leaves every node alone that is neither
`p`, nor above `p`, nor beneath `p`. -/
theorem find_update_off (f : tree_node → tree_node) (t : tree_node) (p q : Path) (h1 : q ≠ p)
    (h2 : Path.beneath q p = false) (h3 : Path.beneath p q = false) :
    tree_node.find (tree_node.update f t p) q = tree_node.find t q := by
  induction p generalizing t q with
  | last a =>
    simp only [tree_node.update]
    cases hc : childs_find a t.childs with
    | none => rfl
    | some c =>
      cases q with
      | last k =>
        have hk : k ≠ a := fun e => h1 (by rw [e])
        simp only [tree_node.find, tree_node.childs_mk]
        exact childs_find_put_ne hk _ _
      | cons k q' =>
        have hk : k ≠ a := by
          intro e
          simp [Path.beneath, e] at h3
        simp only [tree_node.find, tree_node.childs_mk]
        rw [childs_find_put_ne hk]
  | cons a b ih =>
    simp only [tree_node.update]
    cases hc : childs_find a t.childs with
    | none => rfl
    | some c =>
      cases q with
      | last k =>
        have hk : k ≠ a := by
          intro e
          simp [Path.beneath, e] at h2
        simp only [tree_node.find, tree_node.childs_mk]
        exact childs_find_put_ne hk _ _
      | cons k q' =>
        simp only [tree_node.find, tree_node.childs_mk, childs_find_put]
        by_cases hk : k = a
        · subst hk
          have e1 : q' ≠ b := fun e => h1 (by rw [e])
          have e2 : Path.beneath q' b = false := by simpa [Path.beneath] using h2
          have e3 : Path.beneath b q' = false := by simpa [Path.beneath] using h3
          simp only [if_true, hc]
          exact ih c q' e1 e2 e3
        · simp [hk]

/-- The tree `rename` builds when `o` is located, `n` is not, and `n` is not beneath `o`. -/
theorem rename_eq {t : tree_node} {o n : Path} {oo : tree_node}
    (ho : tree_node.find t o = some oo) (hn : tree_node.find t n = none)
    (hb : Path.beneath o n = false) :
    tree_node.rename t o n =
      (true, (tree_node.erase
        (tree_node.update (fun x => tree_node.mk x.status [])
          (tree_node.update (fun _ => tree_node.mk oo.status oo.childs) (tree_node.insert t n) n)
          o) o).2) := by
  have hne : o ≠ n := by
    intro e
    rw [e, hn] at ho
    exact Option.noConfusion ho
  have h1 : tree_node.find (tree_node.insert t n) o = some oo := by
    rw [find_insert_off t n o hne hb]
    exact ho
  have h2 := find_insert_self t n hn
  simp only [tree_node.rename, ho, hn, h1, h2]
  rfl

theorem beneath_false_of_find {t : tree_node} {o n : Path} {oo : tree_node}
    (ho : tree_node.find t o = some oo) (hn : tree_node.find t n = none) :
    Path.beneath n o = false := by
  cases hb : Path.beneath n o with
  | false => rfl
  | true =>
    have := find_isSome_of_beneath (t := t) hb (by rw [ho]; rfl)
    rw [hn] at this
    exact absurd this (by decide)

theorem ne_of_find {t : tree_node} {o n : Path} {oo : tree_node}
    (ho : tree_node.find t o = some oo) (hn : tree_node.find t n = none) : n ≠ o := by
  intro e
  rw [e, ho] at hn
  exact Option.noConfusion hn

/-- What `find` sees after a successful `rename(o, n)`. -/
theorem find_rename {t : tree_node} {o n : Path} {oo : tree_node}
    (hw : tree_node.WF t = true)
    (ho : tree_node.find t o = some oo) (hn : tree_node.find t n = none)
    (hb : Path.beneath o n = false) :
    tree_node.find (tree_node.rename t o n).2 o = none ∧
      tree_node.find (tree_node.rename t o n).2 n = some oo := by
  have hne : n ≠ o := ne_of_find ho hn
  have hb' : Path.beneath n o = false := beneath_false_of_find ho hn
  rw [rename_eq ho hn hb]
  have h1 : tree_node.find (tree_node.insert t n) o = some oo := by
    rw [find_insert_off t n o (Ne.symm hne) hb]
    exact ho
  have h2 : tree_node.find
      (tree_node.update (fun _ => tree_node.mk oo.status oo.childs) (tree_node.insert t n) n) o
      = some oo := by
    rw [find_update_off _ _ n o (Ne.symm hne) hb hb']
    exact h1
  have h3 : tree_node.find
      (tree_node.update (fun _ => tree_node.mk oo.status oo.childs) (tree_node.insert t n) n) n
      = some oo := by
    rw [find_update_self, find_insert_self t n hn]
    simp [tree_node.mk_eta]
  have hw2 : tree_node.WF
      (tree_node.update (fun _ => tree_node.mk oo.status oo.childs) (tree_node.insert t n) n)
      = true :=
    WF_update (fun _ _ => WF_of_childs_eq (WF_find hw ho) _) (WF_insert hw n) n
  have hw3 : tree_node.WF
      (tree_node.update (fun x => tree_node.mk x.status [])
        (tree_node.update (fun _ => tree_node.mk oo.status oo.childs) (tree_node.insert t n) n) o)
      = true :=
    WF_update (fun x _ => (WF_mk_iff x.status []).mpr ⟨rfl, fun _ _ hm => absurd hm (List.not_mem_nil _)⟩) hw2 o
  have h4 : tree_node.find
      (tree_node.update (fun x => tree_node.mk x.status [])
        (tree_node.update (fun _ => tree_node.mk oo.status oo.childs) (tree_node.insert t n) n) o)
      o = some (tree_node.mk oo.status []) := by
    rw [find_update_self, h2]
    rfl
  refine ⟨find_erase_self_leaf hw3 h4 rfl, ?_⟩
  show tree_node.find (tree_node.erase _ o).2 n = some oo
  rw [find_erase_off hw3 o n hne hb' hb, find_update_off _ _ o n hne hb' hb]
  exact h3

end Snapper

/-! ## Invariants of the statuses -/

namespace Snapper

theorem allStatusChilds_iff (P : Nat → Prop) (cs : List (String × tree_node)) :
    allStatus.allStatusChilds P cs ↔ ∀ k c, (k, c) ∈ cs → P c.status ∧ allStatus P c := by
  induction cs with
  | nil => simp [allStatus.allStatusChilds]
  | cons hd tl ih =>
    obtain ⟨k1, c1⟩ := hd
    simp only [allStatus.allStatusChilds, ih]
    constructor
    · rintro ⟨h1, h2, h3⟩ k c hm
      rcases List.mem_cons.mp hm with e | hm
      · cases e
        exact ⟨h1, h2⟩
      · exact h3 k c hm
    · intro h
      exact ⟨(h k1 c1 (List.mem_cons_self _ _)).1, (h k1 c1 (List.mem_cons_self _ _)).2,
        fun k c hm => h k c (List.mem_cons_of_mem _ hm)⟩

theorem allStatus_mk_iff (P : Nat → Prop) (s : Nat) (cs : List (String × tree_node)) :
    allStatus P (tree_node.mk s cs) ↔ ∀ k c, (k, c) ∈ cs → P c.status ∧ allStatus P c := by
  simp only [allStatus, allStatusChilds_iff]

theorem allStatus_iff (P : Nat → Prop) (t : tree_node) :
    allStatus P t ↔ ∀ k c, (k, c) ∈ t.childs → P c.status ∧ allStatus P c := by
  cases t
  exact allStatus_mk_iff P _ _

theorem allStatus_empty (P : Nat → Prop) : allStatus P tree_node.empty :=
  (allStatus_mk_iff P 0 []).mpr (fun _ _ hm => absurd hm (List.not_mem_nil _))

theorem allStatus_nil (P : Nat → Prop) (s : Nat) : allStatus P (tree_node.mk s []) :=
  (allStatus_mk_iff P s []).mpr (fun _ _ hm => absurd hm (List.not_mem_nil _))

theorem allStatus_childs {P : Nat → Prop} {t : tree_node} (h : allStatus P t) (s : Nat) :
    allStatus P (tree_node.mk s t.childs) :=
  (allStatus_mk_iff P s _).mpr ((allStatus_iff P t).mp h)

theorem allStatus_child {P : Nat → Prop} {t c : tree_node} {k : String} (h : allStatus P t)
    (hc : childs_find k t.childs = some c) : P c.status ∧ allStatus P c :=
  (allStatus_iff P t).mp h k c (mem_of_childs_find hc)

theorem allStatus_put {P : Nat → Prop} {t c : tree_node} (h : allStatus P t) (k : String)
    (hc : P c.status ∧ allStatus P c) (s : Nat) :
    allStatus P (tree_node.mk s (childs_put k c t.childs)) := by
  refine (allStatus_mk_iff P s _).mpr ?_
  intro k' c' hm
  rcases mem_childs_put hm with e | hm
  · cases e
    exact hc
  · exact (allStatus_iff P t).mp h k' c' hm

theorem allStatus_erase_childs {P : Nat → Prop} {t : tree_node} (h : allStatus P t)
    (k : String) (s : Nat) : allStatus P (tree_node.mk s (childs_erase k t.childs)) :=
  (allStatus_mk_iff P s _).mpr
    (fun k' c' hm => (allStatus_iff P t).mp h k' c' (mem_childs_erase hm))

theorem allStatus_find {P : Nat → Prop} {t n : tree_node} {p : Path} (h : allStatus P t)
    (hn : tree_node.find t p = some n) : P n.status ∧ allStatus P n := by
  induction p generalizing t with
  | last a => exact allStatus_child h hn
  | cons a b ih =>
    simp only [tree_node.find] at hn
    cases hc : childs_find a t.childs with
    | none => simp [hc] at hn
    | some c =>
      simp only [hc] at hn
      exact ih (allStatus_child h hc).2 hn

theorem allStatus_insert {P : Nat → Prop} (h0 : P 0) {t : tree_node} (h : allStatus P t)
    (p : Path) : allStatus P (tree_node.insert t p) := by
  induction p generalizing t with
  | last a =>
    simp only [tree_node.insert]
    cases hc : childs_find a t.childs with
    | none => exact allStatus_put (c := tree_node.empty) h a ⟨h0, allStatus_empty P⟩ _
    | some c => exact h
  | cons a b ih =>
    simp only [tree_node.insert]
    cases hc : childs_find a t.childs with
    | none =>
      refine allStatus_put h a ⟨?_, ih (allStatus_empty P)⟩ _
      rw [insert_status]
      exact h0
    | some c =>
      refine allStatus_put h a ⟨?_, ih (allStatus_child h hc).2⟩ _
      rw [insert_status]
      exact (allStatus_child h hc).1

theorem allStatus_update {P : Nat → Prop} {f : tree_node → tree_node}
    (hf : ∀ x, P x.status → allStatus P x → P (f x).status ∧ allStatus P (f x))
    {t : tree_node} (h : allStatus P t) (p : Path) :
    allStatus P (tree_node.update f t p) := by
  induction p generalizing t with
  | last a =>
    simp only [tree_node.update]
    cases hc : childs_find a t.childs with
    | none => exact h
    | some c => exact allStatus_put h a (hf c (allStatus_child h hc).1 (allStatus_child h hc).2) _
  | cons a b ih =>
    simp only [tree_node.update]
    cases hc : childs_find a t.childs with
    | none => exact h
    | some c =>
      refine allStatus_put h a ⟨?_, ih (allStatus_child h hc).2⟩ _
      rw [update_status]
      exact (allStatus_child h hc).1

theorem allStatus_erase {P : Nat → Prop} (h0 : P 0) {t : tree_node} (h : allStatus P t)
    (p : Path) : allStatus P (tree_node.erase t p).2 := by
  induction p generalizing t with
  | last a =>
    cases hc : childs_find a t.childs with
    | none =>
      rw [erase_none_last t a hc]
      exact h
    | some c =>
      rw [erase_last t a hc]
      split
      · exact allStatus_erase_childs h a _
      · exact allStatus_put (c := tree_node.mk 0 c.childs) h a
          ⟨h0, allStatus_childs (allStatus_child h hc).2 0⟩ _
  | cons a b ih =>
    cases hc : childs_find a t.childs with
    | none =>
      rw [erase_none_cons t a b hc]
      exact h
    | some c =>
      rw [erase_cons t a b hc]
      split
      · exact allStatus_erase_childs h a _
      · refine allStatus_put h a ⟨?_, ih (allStatus_child h hc).2⟩ _
        rw [erase_status]
        exact (allStatus_child h hc).1

theorem allStatus_rename {P : Nat → Prop} (h0 : P 0) {t : tree_node} (h : allStatus P t)
    (o n : Path) : allStatus P (tree_node.rename t o n).2 := by
  unfold tree_node.rename
  cases ho : tree_node.find t o with
  | none => exact h
  | some oo0 =>
    cases hn : tree_node.find t n with
    | some nn0 => exact h
    | none =>
      have h1 := allStatus_insert h0 h n
      simp only []
      cases ho1 : tree_node.find (tree_node.insert t n) o with
      | none => exact h1
      | some oo =>
        cases hn1 : tree_node.find (tree_node.insert t n) n with
        | none => exact h1
        | some nn =>
          simp only []
          have hoo := allStatus_find h1 ho1
          have hnn := allStatus_find h1 hn1
          refine allStatus_erase h0
            (allStatus_update (f := fun x => tree_node.mk x.status nn.childs) ?_
              (allStatus_update (f := fun _ => tree_node.mk oo.status oo.childs) ?_ h1 n) o) o
          · intro x hx1 _
            exact ⟨hx1, allStatus_childs hnn.2 _⟩
          · intro x _ _
            exact ⟨hoo.1, allStatus_childs hoo.2 _⟩

theorem allStatus_created {P : Nat → Prop} (h0 : P 0) (hc : P CREATED)
    (ht : ∀ s, P s → P (touched s)) {t : tree_node} (h : allStatus P t) (name : String) :
    allStatus P (StreamProcessor.created t name) := by
  unfold StreamProcessor.created
  cases tree_node.find t (Path.parse name) with
  | none =>
    exact allStatus_update (f := fun x => tree_node.mk CREATED x.childs)
      (fun x _ hx => ⟨hc, allStatus_childs hx _⟩) (allStatus_insert h0 h _) _
  | some n =>
    exact allStatus_update (f := fun x => tree_node.mk (touched x.status) x.childs)
      (fun x hs hx => ⟨ht _ hs, allStatus_childs hx _⟩) h _

theorem allStatus_deleted {P : Nat → Prop} (h0 : P 0) (hd : P DELETED)
    {t : tree_node} (h : allStatus P t) (name : String) :
    allStatus P (StreamProcessor.deleted t name) := by
  unfold StreamProcessor.deleted
  cases tree_node.find t (Path.parse name) with
  | none =>
    exact allStatus_update (f := fun x => tree_node.mk DELETED x.childs)
      (fun x _ hx => ⟨hd, allStatus_childs hx _⟩) (allStatus_insert h0 h _) _
  | some n => exact allStatus_erase h0 h _

theorem allStatus_touch {P : Nat → Prop} (h0 : P 0) {flags : Nat}
    (hf : ∀ s, P s → P (s ||| flags)) {t : tree_node} (h : allStatus P t) (path : String) :
    allStatus P (touch t path flags) := by
  unfold touch
  exact allStatus_update (f := fun x => tree_node.mk (x.status ||| flags) x.childs)
    (fun x hs hx => ⟨hf _ hs, allStatus_childs hx _⟩) (allStatus_insert h0 h _) _

theorem allStatus_mergeEntry {P : Nat → Prop} (h0 : P 0) (ht : ∀ s, P s → P (touched s))
    {files c : tree_node} (h : allStatus P files) (hc : P c.status) (dst pre k : String) :
    allStatus P (mergeEntry files dst pre k c).2 := by
  unfold mergeEntry
  simp only []
  split
  · exact allStatus_update (f := fun y => tree_node.mk c.status y.childs)
      (fun x _ hx => ⟨hc, allStatus_childs hx _⟩) (allStatus_insert h0 h _) _
  · exact allStatus_update (f := fun y => tree_node.mk (touched y.status) y.childs)
      (fun x hs hx => ⟨ht _ hs, allStatus_childs hx _⟩) h _

mutual

theorem allStatus_merge {P : Nat → Prop} (h0 : P 0) (ht : ∀ s, P s → P (touched s)) :
    ∀ (tmp files : tree_node) (dst pre : String), allStatus P files → allStatus P tmp →
      allStatus P (merge files tmp dst pre)
  | tree_node.mk _ cs, files, dst, pre, hf, htmp => by
    unfold merge
    exact allStatus_mergeChilds h0 ht cs files dst pre hf
      ((allStatus_mk_iff P _ cs).mp htmp)

theorem allStatus_mergeChilds {P : Nat → Prop} (h0 : P 0) (ht : ∀ s, P s → P (touched s)) :
    ∀ (cs : List (String × tree_node)) (files : tree_node) (dst pre : String),
      allStatus P files → (∀ k c, (k, c) ∈ cs → P c.status ∧ allStatus P c) →
      allStatus P (merge.mergeChilds files cs dst pre)
  | [], files, _, _, hf, _ => by
    unfold merge.mergeChilds
    exact hf
  | (k, c) :: rest, files, dst, pre, hf, hcs => by
    unfold merge.mergeChilds
    have hc := hcs k c (List.mem_cons_self _ _)
    exact allStatus_mergeChilds h0 ht rest _ dst pre
      (allStatus_merge h0 ht c _ dst _ (allStatus_mergeEntry h0 ht hf hc.1 dst pre k) hc.2)
      (fun k' c' hm => hcs k' c' (List.mem_cons_of_mem _ hm))

end

theorem allStatus_process_rename {P : Nat → Prop} (h0 : P 0) (hc : P CREATED) (hd : P DELETED)
    (ht : ∀ s, P s → P (touched s)) {t : tree_node} (h : allStatus P t)
    (entries : List String) (src dst : String) :
    allStatus P (process_rename t entries src dst) := by
  unfold process_rename
  cases h1 : tree_node.find t (Path.parse src) with
  | none =>
    simp only []
    have step : ∀ (es : List String) (fs : tree_node), allStatus P fs →
        allStatus P (es.foldl
          (fun fs e => StreamProcessor.created (StreamProcessor.deleted fs (src ++ "/" ++ e))
            (dst ++ "/" ++ e)) fs) := by
      intro es
      induction es with
      | nil => intro fs hfs; exact hfs
      | cons e es ih =>
        intro fs hfs
        exact ih _ (allStatus_created h0 hc ht (allStatus_deleted h0 hd hfs _) _)
    exact step entries _ (allStatus_created h0 hc ht (allStatus_deleted h0 hd h _) _)
  | some it1 =>
    cases h2 : tree_node.find t (Path.parse dst) with
    | none => exact allStatus_rename h0 h _ _
    | some it2 =>
      simp only []
      have hit := allStatus_find h h1
      refine allStatus_merge h0 ht _ _ dst "" ?_ (allStatus_childs hit.2 0)
      refine allStatus_created h0 hc ht (allStatus_deleted h0 hd ?_ _) _
      exact allStatus_update (f := fun x => tree_node.mk x.status [])
        (fun x hs _ => ⟨hs, allStatus_nil P _⟩) h _

theorem allStatus_process {P : Nat → Prop} (h0 : P 0) (hc : P CREATED) (hd : P DELETED)
    (ht : ∀ s, P s → P (touched s))
    (hf : ∀ s f, P s → f &&& (CREATED ||| DELETED) = 0 → P (s ||| f))
    (env : Env) {t : tree_node} (h : allStatus P t) (op : Op) :
    allStatus P (process env t op) := by
  have hx : ∀ name, ∀ s, P s → P (s ||| xattrFlags env name) := by
    intro name s hs
    refine hf s _ hs ?_
    unfold xattrFlags
    split <;> decide
  cases op with
  | subvol path => exact h
  | snapshot path => exact h
  | mkfile path => exact allStatus_created h0 hc ht h _
  | mkdir path => exact allStatus_created h0 hc ht h _
  | mknod path => exact h
  | mkfifo path => exact h
  | mksock path => exact h
  | symlink path lnk => exact allStatus_created h0 hc ht h _
  | rename src dst => exact allStatus_process_rename h0 hc hd ht h _ _ _
  | link path lnk => exact allStatus_created h0 hc ht h _
  | unlink path => exact allStatus_deleted h0 hd h _
  | rmdir path => exact allStatus_deleted h0 hd h _
  | write path => exact allStatus_touch h0 (fun s hs => hf s _ hs (by decide)) h _
  | clone path => exact allStatus_touch h0 (fun s hs => hf s _ hs (by decide)) h _
  | set_xattr path name =>
    simp only [process]
    split
    · exact allStatus_touch h0 (hx name) h _
    · exact h
  | remove_xattr path name =>
    simp only [process]
    split
    · exact allStatus_touch h0 (hx name) h _
    · exact h
  | truncate path => exact allStatus_touch h0 (fun s hs => hf s _ hs (by decide)) h _
  | chmod path => exact allStatus_touch h0 (fun s hs => hf s _ hs (by decide)) h _
  | chown path => exact allStatus_touch h0 (fun s hs => hf s _ hs (by decide)) h _
  | utimes path => exact h
  | update_extent path => exact allStatus_touch h0 (fun s hs => hf s _ hs (by decide)) h _

theorem allStatus_processAll {P : Nat → Prop} (h0 : P 0) (hc : P CREATED) (hd : P DELETED)
    (ht : ∀ s, P s → P (touched s))
    (hf : ∀ s f, P s → f &&& (CREATED ||| DELETED) = 0 → P (s ||| f))
    (env : Env) (ops : List Op) {t : tree_node} (h : allStatus P t) :
    allStatus P (processAll env t ops) := by
  induction ops generalizing t with
  | nil => exact h
  | cons op ops ih => exact ih (allStatus_process h0 hc hd ht hf env h op)

theorem and_of_or_and_zero (s f m : Nat) (h : f &&& m = 0) : (s ||| f) &&& m = s &&& m := by
  rw [Nat.and_distrib_right, h, Nat.or_zero]

theorem and_zero_of_and_or_zero_left {f a b : Nat} (h : f &&& (a ||| b) = 0) : f &&& a = 0 := by
  apply Nat.eq_of_testBit_eq
  intro i
  have := congrArg (fun x => x.testBit i) h
  simp only [Nat.testBit_and, Nat.testBit_or, Nat.zero_testBit] at this ⊢
  cases hf : f.testBit i <;> cases ha : a.testBit i <;> simp_all

theorem and_zero_of_and_or_zero_right {f a b : Nat} (h : f &&& (a ||| b) = 0) : f &&& b = 0 := by
  apply Nat.eq_of_testBit_eq
  intro i
  have := congrArg (fun x => x.testBit i) h
  simp only [Nat.testBit_and, Nat.testBit_or, Nat.zero_testBit] at this ⊢
  cases hf : f.testBit i <;> cases hb : b.testBit i <;> simp_all

theorem exclusive_zero : exclusive 0 := by
  unfold exclusive
  decide

theorem exclusive_created : exclusive CREATED := by
  unfold exclusive
  decide

theorem exclusive_deleted : exclusive DELETED := by
  unfold exclusive
  decide

theorem exclusive_touched (s : Nat) : exclusive (touched s) := by
  intro h
  exact h.1 (touched_and_created s)

theorem exclusive_or (s f : Nat) (hs : exclusive s) (hf : f &&& (CREATED ||| DELETED) = 0) :
    exclusive (s ||| f) := by
  unfold exclusive
  rw [and_of_or_and_zero s f CREATED (and_zero_of_and_or_zero_left hf),
    and_of_or_and_zero s f DELETED (and_zero_of_and_or_zero_right hf)]
  exact hs

end Snapper

/-! ## Nodes with status 0 and no children -/

namespace Snapper

/-- Induction over a tree: a property holds for a node if it holds for all its children. -/
theorem tree_node.induct {motive : tree_node → Prop}
    (h : ∀ s cs, (∀ k c, (k, c) ∈ cs → motive c) → motive (tree_node.mk s cs)) :
    ∀ t, motive t :=
  @tree_node.rec motive (fun cs => ∀ k c, (k, c) ∈ cs → motive c) (fun kc => motive kc.2)
    (fun s cs ih => h s cs ih)
    (fun _ _ hm => absurd hm (List.not_mem_nil _))
    (fun hd tl ih1 ih2 k c hm => by
      rcases List.mem_cons.mp hm with e | hm
      · rw [← e] at ih1
        exact ih1
      · exact ih2 k c hm)
    (fun _ _ ih => ih)

theorem noZeroLeafChilds_iff (cs : List (String × tree_node)) :
    noZeroLeaf.noZeroLeafChilds cs ↔ ∀ k c, (k, c) ∈ cs → notZeroLeaf c ∧ noZeroLeaf c := by
  induction cs with
  | nil => simp [noZeroLeaf.noZeroLeafChilds]
  | cons hd tl ih =>
    obtain ⟨k1, c1⟩ := hd
    simp only [noZeroLeaf.noZeroLeafChilds, ih]
    constructor
    · rintro ⟨h1, h2, h3⟩ k c hm
      rcases List.mem_cons.mp hm with e | hm
      · cases e
        exact ⟨h1, h2⟩
      · exact h3 k c hm
    · intro h
      exact ⟨(h k1 c1 (List.mem_cons_self _ _)).1, (h k1 c1 (List.mem_cons_self _ _)).2,
        fun k c hm => h k c (List.mem_cons_of_mem _ hm)⟩

theorem noZeroLeaf_mk_iff (s : Nat) (cs : List (String × tree_node)) :
    noZeroLeaf (tree_node.mk s cs) ↔ ∀ k c, (k, c) ∈ cs → notZeroLeaf c ∧ noZeroLeaf c := by
  simp only [noZeroLeaf, noZeroLeafChilds_iff]

theorem noZeroLeaf_iff (t : tree_node) :
    noZeroLeaf t ↔ ∀ k c, (k, c) ∈ t.childs → notZeroLeaf c ∧ noZeroLeaf c := by
  cases t
  exact noZeroLeaf_mk_iff _ _

theorem noZeroLeaf_nil (s : Nat) : noZeroLeaf (tree_node.mk s []) :=
  (noZeroLeaf_mk_iff s []).mpr (fun _ _ hm => absurd hm (List.not_mem_nil _))

theorem noZeroLeaf_childs {t : tree_node} (h : noZeroLeaf t) (s : Nat) :
    noZeroLeaf (tree_node.mk s t.childs) :=
  (noZeroLeaf_mk_iff s _).mpr ((noZeroLeaf_iff t).mp h)

theorem noZeroLeaf_child {t c : tree_node} {k : String} (h : noZeroLeaf t)
    (hc : childs_find k t.childs = some c) : notZeroLeaf c ∧ noZeroLeaf c :=
  (noZeroLeaf_iff t).mp h k c (mem_of_childs_find hc)

theorem noZeroLeaf_find {t n : tree_node} {p : Path} (h : noZeroLeaf t)
    (hn : tree_node.find t p = some n) : notZeroLeaf n ∧ noZeroLeaf n := by
  induction p generalizing t with
  | last a => exact noZeroLeaf_child h hn
  | cons a b ih =>
    simp only [tree_node.find] at hn
    cases hc : childs_find a t.childs with
    | none => simp [hc] at hn
    | some c =>
      simp only [hc] at hn
      exact ih (noZeroLeaf_child h hc).2 hn

theorem noZeroLeaf_put {t c : tree_node} (h : noZeroLeaf t) (k : String)
    (hc : notZeroLeaf c ∧ noZeroLeaf c) (s : Nat) :
    noZeroLeaf (tree_node.mk s (childs_put k c t.childs)) := by
  refine (noZeroLeaf_mk_iff s _).mpr ?_
  intro k' c' hm
  rcases mem_childs_put hm with e | hm
  · cases e
    exact hc
  · exact (noZeroLeaf_iff t).mp h k' c' hm

theorem noZeroLeaf_erase_childs {t : tree_node} (h : noZeroLeaf t) (k : String) (s : Nat) :
    noZeroLeaf (tree_node.mk s (childs_erase k t.childs)) :=
  (noZeroLeaf_mk_iff s _).mpr
    (fun k' c' hm => (noZeroLeaf_iff t).mp h k' c' (mem_childs_erase hm))

theorem childs_put_ne_nil {α : Type} (k : String) (v : α) (l : List (String × α)) :
    childs_put k v l ≠ [] := by
  cases l with
  | nil => simp [childs_put]
  | cons hd tl =>
    obtain ⟨k1, v1⟩ := hd
    simp only [childs_put]
    split
    · simp
    · split <;> simp

theorem childs_put_put {α : Type} (k : String) (v w : α) (l : List (String × α)) :
    childs_put k v (childs_put k w l) = childs_put k v l := by
  induction l with
  | nil => simp [childs_put]
  | cons hd tl ih =>
    obtain ⟨k1, v1⟩ := hd
    simp only [childs_put]
    by_cases h1 : k1 = k
    · simp [h1, childs_put]
    · by_cases h2 : keyLt k k1 = true
      · simp [h1, h2, childs_put]
      · simp [h1, h2, childs_put, ih]

theorem mem_erase_put {α : Type} {k k' : String} {v v' : α} {l : List (String × α)}
    (h : (k', v') ∈ childs_erase k (childs_put k v l)) : (k', v') ∈ l := by
  induction l with
  | nil => simp [childs_put, childs_erase] at h
  | cons hd tl ih =>
    obtain ⟨k1, v1⟩ := hd
    simp only [childs_put] at h
    by_cases h1 : k1 = k
    · simp only [h1, if_true, childs_erase] at h
      exact List.mem_cons_of_mem _ h
    · by_cases h2 : keyLt k k1 = true
      · simp only [h1, h2, if_true, if_false, childs_erase] at h
        exact h
      · simp only [h1, h2, if_false, childs_erase] at h
        rcases List.mem_cons.mp h with e | hm
        · exact e ▸ List.mem_cons_self _ _
        · exact List.mem_cons_of_mem _ (ih hm)

/-- The tree after `insert(p)` followed by a write through the returned pointer. -/
theorem upsert_last (f : tree_node → tree_node) (t : tree_node) (a : String) :
    tree_node.update f (tree_node.insert t (Path.last a)) (Path.last a) =
      tree_node.mk t.status
        (childs_put a (f ((childs_find a t.childs).getD tree_node.empty)) t.childs) := by
  cases hc : childs_find a t.childs with
  | none =>
    simp [tree_node.insert, tree_node.update, hc, childs_find_put_self, childs_put_put]
  | some c =>
    simp [tree_node.insert, tree_node.update, hc]

theorem upsert_cons (f : tree_node → tree_node) (t : tree_node) (a : String) (b : Path) :
    tree_node.update f (tree_node.insert t (Path.cons a b)) (Path.cons a b) =
      tree_node.mk t.status
        (childs_put a
          (tree_node.update f
            (tree_node.insert ((childs_find a t.childs).getD tree_node.empty) b) b)
          t.childs) := by
  cases hc : childs_find a t.childs with
  | none =>
    simp [tree_node.insert, tree_node.update, hc, childs_find_put_self, childs_put_put]
  | some c =>
    simp [tree_node.insert, tree_node.update, hc, childs_find_put_self, childs_put_put]

theorem upsert_childs_ne_nil (f : tree_node → tree_node) (t : tree_node) (p : Path) :
    (tree_node.update f (tree_node.insert t p) p).childs ≠ [] := by
  cases p with
  | last a =>
    rw [upsert_last]
    exact childs_put_ne_nil _ _ _
  | cons a b =>
    rw [upsert_cons]
    exact childs_put_ne_nil _ _ _

theorem noZeroLeaf_upsert {f : tree_node → tree_node}
    (hf : ∀ c, noZeroLeaf c → notZeroLeaf (f c) ∧ noZeroLeaf (f c))
    {t : tree_node} (h : noZeroLeaf t) (p : Path) :
    noZeroLeaf (tree_node.update f (tree_node.insert t p) p) := by
  induction p generalizing t with
  | last a =>
    rw [upsert_last]
    refine noZeroLeaf_put h a (hf _ ?_) _
    cases hc : childs_find a t.childs with
    | none => exact noZeroLeaf_nil 0
    | some c => exact (noZeroLeaf_child h hc).2
  | cons a b ih =>
    rw [upsert_cons]
    refine noZeroLeaf_put h a ⟨fun _ => upsert_childs_ne_nil f _ b, ih ?_⟩ _
    cases hc : childs_find a t.childs with
    | none => exact noZeroLeaf_nil 0
    | some c => exact (noZeroLeaf_child h hc).2

theorem noZeroLeaf_erase {t : tree_node} (h : noZeroLeaf t) (p : Path) :
    noZeroLeaf (tree_node.erase t p).2 := by
  induction p generalizing t with
  | last a =>
    cases hc : childs_find a t.childs with
    | none =>
      rw [erase_none_last t a hc]
      exact h
    | some c =>
      rw [erase_last t a hc]
      by_cases he : c.childs.isEmpty = true
      · rw [if_pos he]
        exact noZeroLeaf_erase_childs h a _
      · rw [if_neg he]
        refine noZeroLeaf_put (c := tree_node.mk 0 c.childs) h a
          ⟨fun _ => by simpa using he, noZeroLeaf_childs (noZeroLeaf_child h hc).2 0⟩ _
  | cons a b ih =>
    cases hc : childs_find a t.childs with
    | none =>
      rw [erase_none_cons t a b hc]
      exact h
    | some c =>
      rw [erase_cons t a b hc]
      by_cases he : (tree_node.erase c b).2.status = 0 ∧
          (tree_node.erase c b).2.childs.isEmpty = true
      · rw [if_pos he]
        exact noZeroLeaf_erase_childs h a _
      · rw [if_neg he]
        refine noZeroLeaf_put h a ⟨?_, ih (noZeroLeaf_child h hc).2⟩ _
        intro hs hn
        exact he ⟨hs, by simp [hn]⟩

/-- Emptying the children of the node at `o` and erasing it keeps the tree free of childless
status-0 nodes. -/
theorem noZeroLeaf_detach {t : tree_node} (h : noZeroLeaf t) (o : Path) :
    noZeroLeaf (tree_node.erase
      (tree_node.update (fun x => tree_node.mk x.status []) t o) o).2 := by
  induction o generalizing t with
  | last a =>
    cases hc : childs_find a t.childs with
    | none =>
      simp only [tree_node.update, hc]
      rw [erase_none_last t a hc]
      exact h
    | some c =>
      simp only [tree_node.update, hc]
      rw [erase_last (c := tree_node.mk c.status []) _ a
        (by simp [childs_find_put_self])]
      simp only [tree_node.childs_mk, List.isEmpty_nil, if_true, tree_node.status_mk]
      exact (noZeroLeaf_mk_iff _ _).mpr
        (fun k' c' hm => (noZeroLeaf_iff t).mp h k' c' (mem_erase_put hm))
  | cons a b ih =>
    cases hc : childs_find a t.childs with
    | none =>
      simp only [tree_node.update, hc]
      rw [erase_none_cons t a b hc]
      exact h
    | some c =>
      simp only [tree_node.update, hc]
      rw [erase_cons (c := tree_node.update (fun x => tree_node.mk x.status []) c b) _ a b
        (by simp [childs_find_put_self])]
      simp only [tree_node.childs_mk, tree_node.status_mk]
      have hih := ih (noZeroLeaf_child h hc).2
      split
      · exact (noZeroLeaf_mk_iff _ _).mpr
          (fun k' c' hm => (noZeroLeaf_iff t).mp h k' c' (mem_erase_put hm))
      · rename_i he
        rw [childs_put_put]
        refine noZeroLeaf_put h a ⟨?_, hih⟩ _
        intro hs hn
        exact he ⟨hs, by simp [hn]⟩

theorem noZeroLeaf_rename {t : tree_node} (h : noZeroLeaf t) {o n : Path}
    (hb : Path.beneath o n = false) : noZeroLeaf (tree_node.rename t o n).2 := by
  cases ho : tree_node.find t o with
  | none => simp only [tree_node.rename, ho]; exact h
  | some oo =>
    cases hn : tree_node.find t n with
    | some nn => simp only [tree_node.rename, ho, hn]; exact h
    | none =>
      rw [rename_eq ho hn hb]
      have hoo := noZeroLeaf_find h ho
      refine noZeroLeaf_detach
        (noZeroLeaf_upsert (f := fun _ => tree_node.mk oo.status oo.childs) ?_ h n) o
      intro c _
      rw [tree_node.mk_eta]
      exact hoo

theorem or_ne_zero (s : Nat) {f : Nat} (hf : f ≠ 0) : s ||| f ≠ 0 := by
  intro h
  apply hf
  apply Nat.eq_of_testBit_eq
  intro i
  have := congrArg (fun x => x.testBit i) h
  simp only [Nat.testBit_or, Nat.zero_testBit, Bool.or_eq_false_iff] at this
  simp [this.2]

theorem touched_ne_zero (s : Nat) : touched s ≠ 0 :=
  or_ne_zero _ (by decide)

theorem notZeroLeaf_update (f : tree_node → tree_node) {c : tree_node}
    (h : notZeroLeaf c) (p : Path) : notZeroLeaf (tree_node.update f c p) := by
  cases p with
  | last a =>
    simp only [tree_node.update]
    cases childs_find a c.childs with
    | none => exact h
    | some x => exact fun _ => childs_put_ne_nil _ _ _
  | cons a b =>
    simp only [tree_node.update]
    cases childs_find a c.childs with
    | none => exact h
    | some x => exact fun _ => childs_put_ne_nil _ _ _

theorem noZeroLeaf_update {f : tree_node → tree_node}
    (hf : ∀ c, notZeroLeaf c → noZeroLeaf c → notZeroLeaf (f c) ∧ noZeroLeaf (f c))
    {t : tree_node} (h : noZeroLeaf t) (p : Path) :
    noZeroLeaf (tree_node.update f t p) := by
  induction p generalizing t with
  | last a =>
    simp only [tree_node.update]
    cases hc : childs_find a t.childs with
    | none => exact h
    | some c =>
      exact noZeroLeaf_put h a (hf c (noZeroLeaf_child h hc).1 (noZeroLeaf_child h hc).2) _
  | cons a b ih =>
    simp only [tree_node.update]
    cases hc : childs_find a t.childs with
    | none => exact h
    | some c =>
      exact noZeroLeaf_put h a
        ⟨notZeroLeaf_update f (noZeroLeaf_child h hc).1 b, ih (noZeroLeaf_child h hc).2⟩ _

theorem notZeroLeaf_of_status {s : Nat} (hs : s ≠ 0) (cs : List (String × tree_node)) :
    notZeroLeaf (tree_node.mk s cs) :=
  fun h0 => absurd h0 hs

theorem noZeroLeaf_created {t : tree_node} (h : noZeroLeaf t) (name : String) :
    noZeroLeaf (StreamProcessor.created t name) := by
  unfold StreamProcessor.created
  cases tree_node.find t (Path.parse name) with
  | none =>
    exact noZeroLeaf_upsert (f := fun x => tree_node.mk CREATED x.childs)
      (fun c hc => ⟨notZeroLeaf_of_status (by decide) _, noZeroLeaf_childs hc _⟩) h _
  | some n =>
    exact noZeroLeaf_update (f := fun x => tree_node.mk (touched x.status) x.childs)
      (fun c _ hc => ⟨notZeroLeaf_of_status (touched_ne_zero _) _, noZeroLeaf_childs hc _⟩) h _

theorem noZeroLeaf_deleted {t : tree_node} (h : noZeroLeaf t) (name : String) :
    noZeroLeaf (StreamProcessor.deleted t name) := by
  unfold StreamProcessor.deleted
  cases tree_node.find t (Path.parse name) with
  | none =>
    exact noZeroLeaf_upsert (f := fun x => tree_node.mk DELETED x.childs)
      (fun c hc => ⟨notZeroLeaf_of_status (by decide) _, noZeroLeaf_childs hc _⟩) h _
  | some n => exact noZeroLeaf_erase h _

theorem noZeroLeaf_touch {t : tree_node} (h : noZeroLeaf t) (path : String) {flags : Nat}
    (hf : flags ≠ 0) : noZeroLeaf (touch t path flags) := by
  unfold touch
  exact noZeroLeaf_upsert (f := fun x => tree_node.mk (x.status ||| flags) x.childs)
    (fun c hc => ⟨notZeroLeaf_of_status (or_ne_zero _ hf) _, noZeroLeaf_childs hc _⟩) h _

theorem noZeroLeaf_process_rename {t : tree_node} (h : noZeroLeaf t) (entries : List String)
    {src dst : String} (hb : Path.beneath (Path.parse src) (Path.parse dst) = false)
    (hm : ¬ ((tree_node.find t (Path.parse src)).isSome = true ∧
        (tree_node.find t (Path.parse dst)).isSome = true)) :
    noZeroLeaf (process_rename t entries src dst) := by
  unfold process_rename
  cases h1 : tree_node.find t (Path.parse src) with
  | none =>
    simp only []
    have step : ∀ (es : List String) (fs : tree_node), noZeroLeaf fs →
        noZeroLeaf (es.foldl
          (fun fs e => StreamProcessor.created (StreamProcessor.deleted fs (src ++ "/" ++ e))
            (dst ++ "/" ++ e)) fs) := by
      intro es
      induction es with
      | nil => intro fs hfs; exact hfs
      | cons e es ih =>
        intro fs hfs
        exact ih _ (noZeroLeaf_created (noZeroLeaf_deleted hfs _) _)
    exact step entries _ (noZeroLeaf_created (noZeroLeaf_deleted h _) _)
  | some it1 =>
    cases h2 : tree_node.find t (Path.parse dst) with
    | none => exact noZeroLeaf_rename h hb
    | some it2 =>
      rw [h1, h2] at hm
      exact absurd ⟨rfl, rfl⟩ hm

theorem xattrFlags_ne_zero (env : Env) (name : String) : xattrFlags env name ≠ 0 := by
  unfold xattrFlags
  split <;> decide

theorem noZeroLeaf_process (env : Env) {t : tree_node} (h : noZeroLeaf t) (op : Op)
    (hb : Op.renamesBeneath op = false)
    (hm : ∀ src dst, op = Op.rename src dst →
      ¬ ((tree_node.find t (Path.parse src)).isSome = true ∧
        (tree_node.find t (Path.parse dst)).isSome = true)) :
    noZeroLeaf (process env t op) := by
  cases op with
  | subvol path => exact h
  | snapshot path => exact h
  | mkfile path => exact noZeroLeaf_created h _
  | mkdir path => exact noZeroLeaf_created h _
  | mknod path => exact h
  | mkfifo path => exact h
  | mksock path => exact h
  | symlink path lnk => exact noZeroLeaf_created h _
  | rename src dst => exact noZeroLeaf_process_rename h _ hb (hm src dst rfl)
  | link path lnk => exact noZeroLeaf_created h _
  | unlink path => exact noZeroLeaf_deleted h _
  | rmdir path => exact noZeroLeaf_deleted h _
  | write path => exact noZeroLeaf_touch h _ (by decide)
  | clone path => exact noZeroLeaf_touch h _ (by decide)
  | set_xattr path name =>
    simp only [process]
    split
    · exact noZeroLeaf_touch h _ (xattrFlags_ne_zero env name)
    · exact h
  | remove_xattr path name =>
    simp only [process]
    split
    · exact noZeroLeaf_touch h _ (xattrFlags_ne_zero env name)
    · exact h
  | truncate path => exact noZeroLeaf_touch h _ (by decide)
  | chmod path => exact noZeroLeaf_touch h _ (by decide)
  | chown path => exact noZeroLeaf_touch h _ (by decide)
  | utimes path => exact h
  | update_extent path => exact noZeroLeaf_touch h _ (by decide)

theorem noZeroLeaf_processAll (env : Env) (ops : List Op) {t : tree_node} (h : noZeroLeaf t)
    (hb : ∀ op ∈ ops, Op.renamesBeneath op = false) (hm : mergeFree env t ops) :
    noZeroLeaf (processAll env t ops) := by
  induction ops generalizing t with
  | nil => exact h
  | cons op ops ih =>
    exact ih (noZeroLeaf_process env h op (hb op (List.mem_cons_self _ _)) hm.1)
      (fun o ho => hb o (List.mem_cons_of_mem _ ho)) hm.2

/-- A tree with children and without childless status-0 nodes has a node with non-zero
status. -/
theorem exists_nonzero_of_noZeroLeaf :
    ∀ t : tree_node, noZeroLeaf t → t.childs ≠ [] →
      ∃ r m, tree_node.find t r = some m ∧ m.status ≠ 0 := by
  refine tree_node.induct ?_
  intro s cs ih h hne
  cases cs with
  | nil => exact absurd rfl hne
  | cons hd tl =>
    obtain ⟨k, c⟩ := hd
    have hc := (noZeroLeaf_mk_iff s _).mp h k c (List.mem_cons_self _ _)
    by_cases hs : c.status = 0
    · obtain ⟨r, m, hr, hm⟩ := ih k c (List.mem_cons_self _ _) hc.2 (hc.1 hs)
      refine ⟨Path.cons k r, m, ?_, hm⟩
      simp [tree_node.find, childs_find, hr]
    · refine ⟨Path.last k, c, ?_, hs⟩
      simp [tree_node.find, childs_find]

theorem noDanglingZero_of_noZeroLeaf {t : tree_node} (h : noZeroLeaf t) : noDanglingZero t := by
  intro q n hq hs
  have hn := noZeroLeaf_find h hq
  exact exists_nonzero_of_noZeroLeaf n hn.2 (hn.1 hs)

/-- P4 holds on the code as long as `merge` is not reached: starting from the empty tree,
after any sequence of stream callbacks without a rename whose destination lies beneath its
source and without a rename that finds both its source and its destination in the tree,
every node with status 0 has a descendant with non-zero status. -/
theorem noDanglingZero_of_mergeFree (env : Env) (ops : List Op)
    (hb : ∀ op ∈ ops, Op.renamesBeneath op = false)
    (hm : mergeFree env tree_node.empty ops) :
    noDanglingZero (processAll env tree_node.empty ops) :=
  noDanglingZero_of_noZeroLeaf (noZeroLeaf_processAll env ops (noZeroLeaf_nil 0) hb hm)

end Snapper

/-! ## Trees are determined by their non-zero statuses -/

namespace Snapper

theorem childs_ext {α : Type} :
    ∀ (l1 l2 : List (String × α)), keysAscending l1 = true → keysAscending l2 = true →
      (∀ k, childs_find k l1 = childs_find k l2) → l1 = l2
  | [], [], _, _, _ => rfl
  | [], (k, v) :: _, _, _, h => by
    have := h k
    simp [childs_find] at this
  | (k, v) :: _, [], _, _, h => by
    have := h k
    simp [childs_find] at this
  | (k1, v1) :: r1, (k2, v2) :: r2, h1, h2, h => by
    have s1 := (keysAscending_cons k1 v1 r1).mp h1
    have s2 := (keysAscending_cons k2 v2 r2).mp h2
    have e1 : childs_find k1 ((k2, v2) :: r2) = some v1 := by
      rw [← h k1]
      simp [childs_find]
    have e2 : childs_find k2 ((k1, v1) :: r1) = some v2 := by
      rw [h k2]
      simp [childs_find]
    have hk : k1 = k2 := by
      by_contra hne
      have m1 := mem_of_childs_find e1
      have m2 := mem_of_childs_find e2
      rcases List.mem_cons.mp m1 with e | m1
      · exact hne (congrArg Prod.fst e)
      · rcases List.mem_cons.mp m2 with e | m2
        · exact hne (congrArg Prod.fst e).symm
        · have a := s2.1 k1 v1 m1
          have b := s1.1 k2 v2 m2
          rw [keyLt_asymm a] at b
          exact Bool.false_ne_true b
    subst hk
    have hv : v1 = v2 := by
      simp only [childs_find, if_true, Option.some.injEq] at e1
      exact e1.symm
    subst hv
    have ht : r1 = r2 := by
      refine childs_ext r1 r2 s1.2 s2.2 ?_
      intro k
      by_cases hk : k1 = k
      · subst hk
        rw [childs_find_none_of_keysAbove s1.1, childs_find_none_of_keysAbove s2.1]
      · have := h k
        simpa [childs_find, hk] using this
    rw [ht]

/-- The node stored under `k` has itself a non-zero status or a descendant with one. -/
theorem exists_status_ne_zero {t c : tree_node} {k : String} (hz : noZeroLeaf t)
    (hc : childs_find k t.childs = some c) :
    ∃ q s, s ≠ 0 ∧ statusAt t q = some s ∧ (q = Path.last k ∨ ∃ r, q = Path.cons k r) := by
  have hcz := noZeroLeaf_child hz hc
  by_cases hs : c.status = 0
  · obtain ⟨r, m, hr, hm⟩ := exists_nonzero_of_noZeroLeaf c hcz.2 (hcz.1 hs)
    refine ⟨Path.cons k r, m.status, hm, ?_, Or.inr ⟨r, rfl⟩⟩
    simp [statusAt, tree_node.find, hc, hr]
  · refine ⟨Path.last k, c.status, hs, ?_, Or.inl rfl⟩
    simp [statusAt, tree_node.find, hc]

theorem childs_find_isSome_of_statusAt {t : tree_node} {k : String} {q : Path} {s : Nat}
    (h : statusAt t q = some s) (hq : q = Path.last k ∨ ∃ r, q = Path.cons k r) :
    ∃ c, childs_find k t.childs = some c := by
  rcases hq with rfl | ⟨r, rfl⟩
  · simp only [statusAt, tree_node.find] at h
    cases hc : childs_find k t.childs with
    | none => simp [hc] at h
    | some c => exact ⟨c, rfl⟩
  · simp only [statusAt, tree_node.find] at h
    cases hc : childs_find k t.childs with
    | none => simp [hc] at h
    | some c => exact ⟨c, rfl⟩

/-- Two trees of ordered maps without childless status-0 nodes that report the same non-zero
statuses at the same paths have the same children. -/
theorem childs_eq_of_statusAt :
    ∀ t1 : tree_node, ∀ t2 : tree_node, tree_node.WF t1 = true → tree_node.WF t2 = true →
      noZeroLeaf t1 → noZeroLeaf t2 →
      (∀ q s, s ≠ 0 → (statusAt t1 q = some s ↔ statusAt t2 q = some s)) →
      t1.childs = t2.childs := by
  refine tree_node.induct ?_
  intro s1 cs ih t2 hw1 hw2 hz1 hz2 hs
  refine childs_ext _ _ ((WF_iff _).mp hw1).1 ((WF_iff _).mp hw2).1 ?_
  intro k
  simp only [tree_node.childs_mk]
  cases h1 : childs_find k cs with
  | none =>
    cases h2 : childs_find k t2.childs with
    | none => rfl
    | some c2 =>
      obtain ⟨q, s, hs0, hq, hk⟩ := exists_status_ne_zero hz2 h2
      obtain ⟨c, hc⟩ := childs_find_isSome_of_statusAt ((hs q s hs0).mpr hq) hk
      simp only [tree_node.childs_mk] at hc
      rw [h1] at hc
      exact Option.noConfusion hc
  | some c1 =>
    have h1' : childs_find k (tree_node.mk s1 cs).childs = some c1 := h1
    obtain ⟨q, s, hs0, hq, hk⟩ := exists_status_ne_zero hz1 h1'
    obtain ⟨c2, h2⟩ := childs_find_isSome_of_statusAt ((hs q s hs0).mp hq) hk
    rw [h2]
    have hst : c1.status = c2.status := by
      by_cases hz : c1.status = 0
      · by_cases hz' : c2.status = 0
        · rw [hz, hz']
        · have : statusAt t2 (Path.last k) = some c2.status := by
            simp [statusAt, tree_node.find, h2]
          have := (hs _ _ hz').mpr this
          simp only [statusAt, tree_node.find, tree_node.childs_mk, h1, Option.map_some',
            Option.some.injEq] at this
          exact this
      · have : statusAt (tree_node.mk s1 cs) (Path.last k) = some c1.status := by
          simp [statusAt, tree_node.find, h1]
        have := (hs _ _ hz).mp this
        simp only [statusAt, tree_node.find, h2, Option.map_some', Option.some.injEq] at this
        exact this.symm
    have hch : c1.childs = c2.childs := by
      refine ih k c1 (mem_of_childs_find h1) c2 (WF_child hw1 h1') (WF_child hw2 h2)
        (noZeroLeaf_child hz1 h1').2 (noZeroLeaf_child hz2 h2).2 ?_
      intro q s hs0
      have := hs (Path.cons k q) s hs0
      simpa [statusAt, tree_node.find, h1, h2] using this
    cases c1
    cases c2
    simp only [tree_node.status_mk, tree_node.childs_mk] at hst hch
    rw [hst, hch]

theorem tree_eq_of_statusAt {t1 t2 : tree_node} (hw1 : tree_node.WF t1 = true)
    (hw2 : tree_node.WF t2 = true) (hz1 : noZeroLeaf t1) (hz2 : noZeroLeaf t2)
    (hst : t1.status = t2.status)
    (hs : ∀ q s, s ≠ 0 → (statusAt t1 q = some s ↔ statusAt t2 q = some s)) : t1 = t2 := by
  have hch := childs_eq_of_statusAt t1 t2 hw1 hw2 hz1 hz2 hs
  cases t1
  cases t2
  simp only [tree_node.status_mk, tree_node.childs_mk] at hst hch
  rw [hst, hch]

end Snapper

/-! ## `rename` there and back -/

namespace Snapper

/-- A write through the pointer to the node at `p` leaves the status alone at every path
that is neither `p` nor beneath `p`. -/
theorem statusAt_update_off (f : tree_node → tree_node) (t : tree_node) (p q : Path)
    (h1 : q ≠ p) (h2 : Path.beneath p q = false) :
    statusAt (tree_node.update f t p) q = statusAt t q := by
  induction p generalizing t q with
  | last a =>
    cases hc : childs_find a t.childs with
    | none => simp [tree_node.update, hc]
    | some c =>
      simp only [tree_node.update, hc]
      cases q with
      | last k =>
        have hk : k ≠ a := fun e => h1 (by rw [e])
        simp [statusAt, tree_node.find, childs_find_put, hk]
      | cons k q' =>
        have hk : k ≠ a := by
          intro e
          simp [Path.beneath, e] at h2
        simp [statusAt, tree_node.find, childs_find_put, hk]
  | cons a b ih =>
    cases hc : childs_find a t.childs with
    | none => simp [tree_node.update, hc]
    | some c =>
      simp only [tree_node.update, hc]
      cases q with
      | last k =>
        simp only [statusAt, tree_node.find, tree_node.childs_mk, childs_find_put]
        by_cases hk : k = a
        · subst hk
          simp [hc, update_status]
        · simp [hk]
      | cons k q' =>
        simp only [statusAt, tree_node.find, tree_node.childs_mk, childs_find_put]
        by_cases hk : k = a
        · subst hk
          have e1 : q' ≠ b := fun e => h1 (by rw [e])
          have e2 : Path.beneath b q' = false := by simpa [Path.beneath] using h2
          simp only [if_true, hc]
          exact ih c q' e1 e2
        · simp [hk]

/-- Erasing `p` leaves the status alone at every path that is neither `p` nor beneath `p`,
except that a node with status 0 may disappear. -/
theorem statusAt_erase_off {t : tree_node} (hw : tree_node.WF t = true) (p q : Path)
    (h1 : q ≠ p) (h2 : Path.beneath p q = false) :
    statusAt (tree_node.erase t p).2 q = statusAt t q ∨
      (statusAt (tree_node.erase t p).2 q = none ∧ statusAt t q = some 0) := by
  induction p generalizing t q with
  | last a =>
    left
    cases hc : childs_find a t.childs with
    | none => rw [erase_none_last t a hc]
    | some c =>
      have hk : ∀ k, (q = Path.last k ∨ ∃ q', q = Path.cons k q') → k ≠ a := by
        rintro k (e | ⟨q', e⟩) ha
        · exact h1 (by rw [e, ha])
        · subst e
          simp [Path.beneath, ha] at h2
      rw [erase_last t a hc]
      split
      · cases q with
        | last k =>
          simp [statusAt, tree_node.find, childs_find_erase_ne (hk k (Or.inl rfl))]
        | cons k q' =>
          simp [statusAt, tree_node.find, childs_find_erase_ne (hk k (Or.inr ⟨q', rfl⟩))]
      · cases q with
        | last k =>
          simp [statusAt, tree_node.find, childs_find_put_ne (hk k (Or.inl rfl))]
        | cons k q' =>
          simp [statusAt, tree_node.find, childs_find_put_ne (hk k (Or.inr ⟨q', rfl⟩))]
  | cons a b ih =>
    cases hc : childs_find a t.childs with
    | none =>
      left
      rw [erase_none_cons t a b hc]
    | some c =>
      rw [erase_cons t a b hc]
      have hs := ((WF_iff t).mp hw).1
      cases q with
      | last k =>
        by_cases hk : k = a
        · subst hk
          split
          · rename_i hp
            right
            rw [erase_status] at hp
            simp [statusAt, tree_node.find, childs_find_erase_self k hs, hc, hp.1]
          · left
            simp [statusAt, tree_node.find, childs_find_put_self, hc, erase_status]
        · left
          split
          · simp [statusAt, tree_node.find, childs_find_erase_ne hk]
          · simp [statusAt, tree_node.find, childs_find_put_ne hk]
      | cons k q' =>
        by_cases hk : k = a
        · subst hk
          have e1 : q' ≠ b := fun e => h1 (by rw [e])
          have e2 : Path.beneath b q' = false := by simpa [Path.beneath] using h2
          have hih := ih (WF_child hw hc) q' e1 e2
          split
          · rename_i hp
            have hnone : statusAt (tree_node.erase c b).2 q' = none := by
              simp [statusAt, find_of_childs_nil (t := (tree_node.erase c b).2)
                (by simpa using hp.2) q']
            rw [hnone] at hih
            have e : statusAt (tree_node.mk t.status (childs_erase k t.childs))
                (Path.cons k q') = none := by
              simp [statusAt, tree_node.find, childs_find_erase_self k hs]
            have e' : statusAt t (Path.cons k q') = statusAt c q' := by
              simp [statusAt, tree_node.find, hc]
            rw [e, e']
            rcases hih with hih | hih
            · left
              exact hih
            · right
              exact ⟨rfl, hih.2⟩
          · have e : statusAt (tree_node.mk t.status
                (childs_put k (tree_node.erase c b).2 t.childs)) (Path.cons k q')
                = statusAt (tree_node.erase c b).2 q' := by
              simp [statusAt, tree_node.find, childs_find_put_self]
            have e' : statusAt t (Path.cons k q') = statusAt c q' := by
              simp [statusAt, tree_node.find, hc]
            rw [e, e']
            exact hih
        · left
          split
          · simp [statusAt, tree_node.find, childs_find_erase_ne hk]
          · simp [statusAt, tree_node.find, childs_find_put_ne hk]

theorem rename_status (t : tree_node) (o n : Path) :
    (tree_node.rename t o n).2.status = t.status := by
  unfold tree_node.rename
  cases tree_node.find t o with
  | none => rfl
  | some oo0 =>
    cases tree_node.find t n with
    | some nn0 => rfl
    | none =>
      simp only []
      split
      · simp only [erase_status, update_status, insert_status]
      · simp only [insert_status]

theorem WF_rename {t : tree_node} (hw : tree_node.WF t = true) (o n : Path) :
    tree_node.WF (tree_node.rename t o n).2 = true := by
  unfold tree_node.rename
  cases tree_node.find t o with
  | none => exact hw
  | some oo0 =>
    cases tree_node.find t n with
    | some nn0 => exact hw
    | none =>
      have h1 := WF_insert hw n
      simp only []
      cases ho1 : tree_node.find (tree_node.insert t n) o with
      | none => exact h1
      | some oo =>
        cases hn1 : tree_node.find (tree_node.insert t n) n with
        | none => exact h1
        | some nn =>
          simp only []
          refine WF_erase (WF_update (f := fun x => tree_node.mk x.status nn.childs) ?_
            (WF_update (f := fun _ => tree_node.mk oo.status oo.childs) ?_ h1 n) o) o
          · intro x _
            exact WF_of_childs_eq (WF_find h1 hn1) _
          · intro x _
            exact WF_of_childs_eq (WF_find h1 ho1) _

/-- Outside the subtrees at `o` and at `n`, a successful `rename(o, n)` leaves the non-zero
statuses as they were. -/
theorem statusAt_rename_off {t : tree_node} {o n : Path} {oo : tree_node}
    (hw : tree_node.WF t = true)
    (ho : tree_node.find t o = some oo) (hn : tree_node.find t n = none)
    (hb : Path.beneath o n = false) (q : Path)
    (hqo : q ≠ o) (hqo' : Path.beneath o q = false)
    (hqn : q ≠ n) (hqn' : Path.beneath n q = false) (s : Nat) (hs : s ≠ 0) :
    statusAt (tree_node.rename t o n).2 q = some s ↔ statusAt t q = some s := by
  rw [rename_eq ho hn hb]
  have hw2 : tree_node.WF
      (tree_node.update (fun x => tree_node.mk x.status [])
        (tree_node.update (fun _ => tree_node.mk oo.status oo.childs) (tree_node.insert t n) n) o)
      = true :=
    WF_update (fun x _ => (WF_mk_iff x.status []).mpr
        ⟨rfl, fun _ _ hm => absurd hm (List.not_mem_nil _)⟩)
      (WF_update (fun _ _ => WF_of_childs_eq (WF_find hw ho) _) (WF_insert hw n) n) o
  have e3 : statusAt (tree_node.update (fun x => tree_node.mk x.status [])
        (tree_node.update (fun _ => tree_node.mk oo.status oo.childs) (tree_node.insert t n) n) o)
        q = statusAt (tree_node.insert t n) q := by
    rw [statusAt_update_off _ _ o q hqo hqo', statusAt_update_off _ _ n q hqn hqn']
  have e4 : statusAt (tree_node.insert t n) q = some s ↔ statusAt t q = some s := by
    rw [statusAt_insert]
    cases hq : statusAt t q with
    | some s' => simp
    | none =>
      simp only []
      split
      · constructor
        · intro h
          exact absurd (Option.some.inj h).symm hs
        · intro h
          exact Option.noConfusion h
      · simp
  rcases statusAt_erase_off hw2 o q hqo hqo' with h | ⟨h1, h2⟩
  · show statusAt (tree_node.erase _ o).2 q = some s ↔ _
    rw [h, e3]
    exact e4
  · show statusAt (tree_node.erase _ o).2 q = some s ↔ _
    rw [h1]
    rw [e3] at h2
    constructor
    · intro h
      exact Option.noConfusion h
    · intro h
      have := e4.mpr h
      rw [h2] at this
      exact absurd (Option.some.inj this) (Ne.symm hs)

/-- P6 on trees of ordered maps without childless status-0 nodes: when `o` is located, `n`
is not, and `n` does not lie beneath `o`, `rename(o, n)` followed by `rename(n, o)` both
succeed and give back the tree. -/
theorem rename_there_and_back (t : tree_node) (o n : Path) (oo : tree_node)
    (hw : tree_node.WF t = true) (hz : noZeroLeaf t)
    (ho : tree_node.find t o = some oo) (hn : tree_node.find t n = none)
    (hb : Path.beneath o n = false) :
    (tree_node.rename t o n).1 = true ∧
      (tree_node.rename (tree_node.rename t o n).2 n o).1 = true ∧
      (tree_node.rename (tree_node.rename t o n).2 n o).2 = t := by
  have hb' : Path.beneath n o = false := beneath_false_of_find ho hn
  have hne : n ≠ o := ne_of_find ho hn
  obtain ⟨f1, f2⟩ := find_rename hw ho hn hb
  have hw1 : tree_node.WF (tree_node.rename t o n).2 = true := WF_rename hw o n
  have hz1 : noZeroLeaf (tree_node.rename t o n).2 := noZeroLeaf_rename hz hb
  obtain ⟨g1, g2⟩ := find_rename hw1 f2 f1 hb'
  have hw2 := WF_rename hw1 n o
  have hz2 := noZeroLeaf_rename hz1 hb'
  refine ⟨by rw [rename_eq ho hn hb], by rw [rename_eq f2 f1 hb'], ?_⟩
  refine tree_eq_of_statusAt hw2 hw hz2 hz (by rw [rename_status, rename_status]) ?_
  intro q s hs
  by_cases hqo : q = o
  · subst hqo
    simp only [statusAt, g2, ho]
  · cases hbo : Path.beneath o q with
    | true =>
      obtain ⟨r, rfl⟩ := Path.exists_append_of_beneath hbo
      simp only [statusAt, find_append, g2, ho]
    | false =>
      by_cases hqn : q = n
      · subst hqn
        simp only [statusAt, g1, hn]
      · cases hbn : Path.beneath n q with
        | true =>
          obtain ⟨r, rfl⟩ := Path.exists_append_of_beneath hbn
          simp only [statusAt, find_append, g1, hn]
        | false =>
          rw [statusAt_rename_off hw1 f2 f1 hb' q hqn hbn hqo hbo s hs]
          exact statusAt_rename_off hw ho hn hb q hqo hbo hqn hbn s hs

theorem rename_there_and_back_example :
    (tree_node.rename exampleDir (Path.parse "d/x") (Path.parse "e/y")).1 = true ∧
      (tree_node.rename
        (tree_node.rename exampleDir (Path.parse "d/x") (Path.parse "e/y")).2
        (Path.parse "e/y") (Path.parse "d/x")).1 = true ∧
      (tree_node.rename
        (tree_node.rename exampleDir (Path.parse "d/x") (Path.parse "e/y")).2
        (Path.parse "e/y") (Path.parse "d/x")).2 = exampleDir :=
  rename_there_and_back exampleDir (Path.parse "d/x") (Path.parse "e/y") (tree_node.mk CREATED [])
    (by decide)
    (noZeroLeaf_processAll exampleEnv _ (noZeroLeaf_nil 0) (by decide)
      ⟨fun _ _ h => Op.noConfusion h, fun _ _ h => Op.noConfusion h, trivial⟩)
    rfl rfl rfl

end Snapper

/-! ## The pointers of `rename` and the status of the root -/

namespace Snapper

theorem find_insert_isSome (t : tree_node) (p q : Path)
    (h : (tree_node.find t q).isSome = true ∨ q = p) :
    (tree_node.find (tree_node.insert t p) q).isSome = true := by
  have hs := statusAt_insert t p q
  cases hq : tree_node.find t q with
  | some x =>
    simp only [statusAt, hq, Option.map_some'] at hs
    cases hf : tree_node.find (tree_node.insert t p) q with
    | none => simp [hf] at hs
    | some y => rfl
  | none =>
    rcases h with h | h
    · rw [hq] at h
      exact absurd h (by decide)
    · subst h
      simp only [statusAt, hq, Option.map_none', true_or, if_true] at hs
      cases hf : tree_node.find (tree_node.insert t q) q with
      | none =>
        rw [hf] at hs
        exact Option.noConfusion hs
      | some y => rfl

/-- In `rename`, once both checks have passed, the pointers `oo` and `nn` are valid after
`insert(n)`: the last alternative of the embedding is never taken. -/
theorem rename_pointers (t : tree_node) (o n : Path)
    (ho : (tree_node.find t o).isSome = true) (hn : tree_node.find t n = none) :
    ∃ oo nn, tree_node.find (tree_node.insert t n) o = some oo ∧
      tree_node.find (tree_node.insert t n) n = some nn ∧
      tree_node.rename t o n =
        (true, (tree_node.erase
          (tree_node.update (fun x => tree_node.mk x.status nn.childs)
            (tree_node.update (fun _ => tree_node.mk oo.status oo.childs)
              (tree_node.insert t n) n) o) o).2) := by
  have h1 := find_insert_isSome t n o (Or.inl ho)
  have h2 := find_insert_isSome t n n (Or.inr rfl)
  cases e1 : tree_node.find (tree_node.insert t n) o with
  | none => rw [e1] at h1; exact absurd h1 (by decide)
  | some oo =>
    cases e2 : tree_node.find (tree_node.insert t n) n with
    | none => rw [e2] at h2; exact absurd h2 (by decide)
    | some nn =>
      refine ⟨oo, nn, rfl, rfl, ?_⟩
      cases e0 : tree_node.find t o with
      | none => rw [e0] at ho; exact absurd ho (by decide)
      | some oo0 => simp only [tree_node.rename, e0, hn, e1, e2]

theorem created_status (t : tree_node) (name : String) :
    (StreamProcessor.created t name).status = t.status := by
  unfold StreamProcessor.created
  cases tree_node.find t (Path.parse name) <;> simp only [update_status, insert_status]

theorem deleted_status (t : tree_node) (name : String) :
    (StreamProcessor.deleted t name).status = t.status := by
  unfold StreamProcessor.deleted
  cases tree_node.find t (Path.parse name) <;>
    simp only [update_status, insert_status, erase_status]

theorem touch_status (t : tree_node) (path : String) (flags : Nat) :
    (touch t path flags).status = t.status := by
  simp only [touch, update_status, insert_status]

theorem mergeEntry_status (files : tree_node) (dst pre k : String) (c : tree_node) :
    (mergeEntry files dst pre k c).2.status = files.status := by
  unfold mergeEntry
  simp only []
  split <;> simp only [update_status, insert_status]

mutual

theorem merge_status : ∀ (tmp files : tree_node) (dst pre : String),
    (merge files tmp dst pre).status = files.status
  | tree_node.mk _ cs, files, dst, pre => by
    unfold merge
    exact mergeChilds_status cs files dst pre

theorem mergeChilds_status : ∀ (cs : List (String × tree_node)) (files : tree_node)
    (dst pre : String), (merge.mergeChilds files cs dst pre).status = files.status
  | [], files, _, _ => by
    unfold merge.mergeChilds
    rfl
  | (k, c) :: rest, files, dst, pre => by
    unfold merge.mergeChilds
    rw [mergeChilds_status rest _ dst pre, merge_status c _ dst _, mergeEntry_status]

end

theorem process_rename_status (t : tree_node) (entries : List String) (src dst : String) :
    (process_rename t entries src dst).status = t.status := by
  unfold process_rename
  cases tree_node.find t (Path.parse src) with
  | none =>
    simp only []
    have step : ∀ (es : List String) (fs : tree_node),
        (es.foldl
          (fun fs e => StreamProcessor.created (StreamProcessor.deleted fs (src ++ "/" ++ e))
            (dst ++ "/" ++ e)) fs).status = fs.status := by
      intro es
      induction es with
      | nil => intro fs; rfl
      | cons e es ih =>
        intro fs
        simp only [List.foldl_cons]
        rw [ih, created_status, deleted_status]
    rw [step, created_status, deleted_status]
  | some it1 =>
    cases tree_node.find t (Path.parse dst) with
    | none => exact rename_status t _ _
    | some it2 =>
      simp only []
      rw [merge_status, created_status, deleted_status, update_status]

theorem process_status (env : Env) (t : tree_node) (op : Op) :
    (process env t op).status = t.status := by
  cases op <;>
    first
    | rfl
    | exact created_status t _
    | exact deleted_status t _
    | exact touch_status t _ _
    | exact process_rename_status t _ _ _
    | (simp only [process]; split <;> first | exact touch_status t _ _ | rfl)

theorem processAll_status (env : Env) (ops : List Op) (t : tree_node) :
    (processAll env t ops).status = t.status := by
  induction ops generalizing t with
  | nil => rfl
  | cons op ops ih =>
    show (processAll env (process env t op) ops).status = t.status
    rw [ih, process_status]

end Snapper

/-! ## The attribute callbacks, `insert` and `erase` -/

namespace Snapper

theorem find_insert_of_some {t n : tree_node} {p : Path} (h : tree_node.find t p = some n) :
    tree_node.find (tree_node.insert t p) p = some n := by
  induction p generalizing t with
  | last a =>
    simp only [tree_node.find] at h
    simp only [tree_node.insert, h]
    exact h
  | cons a b ih =>
    simp only [tree_node.find] at h
    cases hc : childs_find a t.childs with
    | none => simp [hc] at h
    | some c =>
      simp only [hc] at h
      simp only [tree_node.insert, hc, tree_node.find, tree_node.childs_mk, childs_find_put_self]
      exact ih h

theorem find_insert_self_eq (t : tree_node) (p : Path) :
    tree_node.find (tree_node.insert t p) p
      = some ((tree_node.find t p).getD tree_node.empty) := by
  cases h : tree_node.find t p with
  | none => exact find_insert_self t p h
  | some n => exact find_insert_of_some h

theorem childs_put_eq_self {α : Type} {k : String} {v : α} {l : List (String × α)}
    (hs : keysAscending l = true) (h : childs_find k l = some v) : childs_put k v l = l := by
  induction l with
  | nil => simp [childs_find] at h
  | cons hd tl ih =>
    obtain ⟨k1, v1⟩ := hd
    have hs' := (keysAscending_cons k1 v1 tl).mp hs
    simp only [childs_find] at h
    simp only [childs_put]
    by_cases h1 : k1 = k
    · simp only [h1, if_true, Option.some.injEq] at h
      simp [h1, h]
    · simp only [h1, if_false] at h
      have hlt : keyLt k k1 = false := keyLt_asymm (hs'.1 k v (mem_of_childs_find h))
      simp [h1, hlt, ih hs'.2 h]

theorem insert_eq_self {t n : tree_node} {p : Path} (hw : tree_node.WF t = true)
    (h : tree_node.find t p = some n) : tree_node.insert t p = t := by
  induction p generalizing t with
  | last a =>
    simp only [tree_node.find] at h
    simp only [tree_node.insert, h]
  | cons a b ih =>
    simp only [tree_node.find] at h
    cases hc : childs_find a t.childs with
    | none => simp [hc] at h
    | some c =>
      simp only [hc] at h
      simp only [tree_node.insert, hc]
      rw [ih (WF_child hw hc) h, childs_put_eq_self ((WF_iff t).mp hw).1 hc, tree_node.mk_eta]

theorem update_update (f g : tree_node → tree_node) (t : tree_node) (p : Path) :
    tree_node.update g (tree_node.update f t p) p = tree_node.update (fun x => g (f x)) t p := by
  induction p generalizing t with
  | last a =>
    cases hc : childs_find a t.childs with
    | none => simp [tree_node.update, hc]
    | some c => simp [tree_node.update, hc, childs_find_put_self, childs_put_put]
  | cons a b ih =>
    cases hc : childs_find a t.childs with
    | none => simp [tree_node.update, hc]
    | some c => simp [tree_node.update, hc, childs_find_put_self, childs_put_put, ih]

/-- What `insert(path)` followed by `status |= flags` does to the tree. -/
theorem orsFlags_touch (files : tree_node) (path : String) (flags : Nat) :
    orsFlags files path flags (0, touch files path flags) := by
  refine ⟨rfl, ?_, ?_⟩
  · simp only [touch, find_update_self, find_insert_self_eq, Option.map_some']
    cases tree_node.find files (Path.parse path) <;> rfl
  · intro q hq
    simp only [touch]
    rw [statusAt_update (fun x => tree_node.mk (x.status ||| flags) x.childs) (fun x => rfl)
      _ _ _ hq, statusAt_insert]
    cases statusAt files q <;> simp [hq]

theorem process_xattr_eq (env : Env) (files : tree_node) (path name : String) :
    process_xattr env files path name =
      (0, if env.enable_xattrs = true then touch files path (xattrFlags env name) else files) := by
  unfold process_xattr xattrFlags
  by_cases h1 : env.enable_xattrs = true
  · by_cases h2 : env.is_acl_signature name = true
    · simp only [h1, h2, if_true, touch, update_update, tree_node.status_mk,
        tree_node.childs_mk, Nat.or_assoc]
    · simp only [h1, h2, if_true]
      rfl
  · simp only [h1]
    rfl

/-- The function `process` used for whole streams applies these callbacks. -/
theorem process_attribute_ops (env : Env) (files : tree_node) (path name : String) :
    process env files (Op.write path) = (process_write files path).2 ∧
      process env files (Op.clone path) = (process_clone files path).2 ∧
      process env files (Op.truncate path) = (process_truncate files path).2 ∧
      process env files (Op.update_extent path) = (process_update_extent files path).2 ∧
      process env files (Op.chmod path) = (process_chmod files path).2 ∧
      process env files (Op.chown path) = (process_chown files path).2 ∧
      process env files (Op.set_xattr path name) = (process_set_xattr env files path name).2 ∧
      process env files (Op.remove_xattr path name)
        = (process_remove_xattr env files path name).2 := by
  refine ⟨rfl, rfl, rfl, rfl, rfl, rfl, ?_, ?_⟩
  · simp only [process, process_set_xattr, process_xattr_eq]
  · simp only [process, process_remove_xattr, process_xattr_eq]

theorem spec_mark_entries_eq (src dst : String) (es : List String) (t : tree_node) :
    es.foldl (fun fs e => StreamProcessor.created
        (StreamProcessor.deleted fs (src ++ "/" ++ e)) (dst ++ "/" ++ e)) t
      = spec_mark_entries src dst t es := by
  induction es generalizing t with
  | nil => rfl
  | cons e es ih => exact ih _

theorem erase_fst_iff (t : tree_node) (p : Path) :
    (tree_node.erase t p).1 = true ↔
      match p with
      | Path.last a => (childs_find a t.childs).isSome = true
      | Path.cons a _ => (childs_find a t.childs).isSome = true := by
  cases p with
  | last a =>
    cases hc : childs_find a t.childs with
    | none => simp [erase_none_last t a hc, hc]
    | some c =>
      rw [erase_last t a hc]
      split <;> simp [hc]
  | cons a b =>
    cases hc : childs_find a t.childs with
    | none => simp [erase_none_cons t a b hc, hc]
    | some c =>
      rw [erase_cons t a b hc]
      split <;> simp [hc]

end Snapper

/-! ## The result walk -/

namespace Snapper

theorem walk_mk (s : Nat) (cs : List (String × tree_node)) :
    walk (tree_node.mk s cs) = walk.walkChilds cs := by
  simp only [walk]

theorem walk_eq (t : tree_node) : walk t = walk.walkChilds t.childs := by
  cases t
  exact walk_mk _ _

theorem result_eq (t : tree_node) (pre : String) :
    tree_node.result t pre = tree_node.result.resultChilds t.childs pre := by
  cases t
  simp only [tree_node.result, tree_node.childs_mk]

/-- The callback invocations of `result` are the nodes of the walk with non-zero status, each
with the name `emitName` computes for it. -/
theorem result_eq_walk : ∀ (t : tree_node) (pre : String),
    tree_node.result t pre =
      ((walk t).filter (fun x => decide (x.2 ≠ 0))).map (fun x => (emitName pre x.1, x.2)) := by
  refine tree_node.induct ?_
  intro s cs ih pre
  rw [result_eq, walk_mk, tree_node.childs_mk]
  induction cs with
  | nil => rfl
  | cons hd tl ihl =>
    obtain ⟨k, c⟩ := hd
    have ihc := ih k c (List.mem_cons_self _ _)
    have iht := ihl (fun k' c' hm => ih k' c' (List.mem_cons_of_mem _ hm))
    simp only [tree_node.result.resultChilds, walk.walkChilds]
    rw [iht]
    by_cases hp : pre = ""
    · subst hp
      simp only [if_true]
      rw [ihc k]
      by_cases hs : c.status = 0
      · simp [hs, List.filter_cons, List.filter_append, List.filter_map, List.map_map,
          Function.comp_def, emitName]
      · simp [hs, List.filter_cons, List.filter_append, List.filter_map, List.map_map,
          Function.comp_def, emitName]
    · simp only [hp, if_false]
      rw [ihc (pre ++ "/" ++ k)]
      by_cases hs : c.status = 0
      · simp [hs, hp, List.filter_cons, List.filter_append, List.filter_map, List.map_map,
          Function.comp_def, emitName]
      · simp [hs, hp, List.filter_cons, List.filter_append, List.filter_map, List.map_map,
          Function.comp_def, emitName]

theorem emitName_of_ne (pre : String) (hp : pre ≠ "") (p : Path) :
    emitName pre p = "/" ++ pre ++ "/" ++ Path.render p := by
  induction p generalizing pre with
  | last k => simp [emitName, hp, Path.render]
  | cons k q ih =>
    have hne : pre ++ "/" ++ k ≠ "" := by
      intro h
      have := congrArg String.data h
      simp at this
    simp only [emitName, hp, if_false, Path.render]
    rw [ih _ hne]
    simp only [String.append_assoc]

/-- With a non-empty first segment, the emitted name is `"/"` followed by the segments joined
with `"/"`. -/
theorem emitName_eq_render (p : Path) (hp : Path.head p ≠ "") :
    emitName "" p = "/" ++ Path.render p := by
  cases p with
  | last k => simp [emitName, Path.render]
  | cons k q =>
    simp only [Path.head] at hp
    simp only [emitName, if_true, Path.render]
    rw [emitName_of_ne k hp q]
    simp only [String.append_assoc]

theorem Path.lt_of_head {p q : Path} (h : keyLt (Path.head p) (Path.head q) = true) :
    Path.lt p q = true := by
  cases p <;> cases q <;> simp_all [Path.lt, Path.head]

theorem Path.lt_irrefl (p : Path) : Path.lt p p = false := by
  induction p with
  | last a => simp [Path.lt, keyLt_irrefl]
  | cons a b ih => simp [Path.lt, keyLt_irrefl, ih]

/-- A path comes before every path beneath it. -/
theorem Path.lt_of_beneath {p q : Path} (h : Path.beneath p q = true) : Path.lt p q = true := by
  induction p generalizing q with
  | last a =>
    cases q with
    | last b => simp [Path.beneath] at h
    | cons b q' =>
      simp only [Path.beneath] at h
      simp [Path.lt, h]
  | cons a p' ih =>
    cases q with
    | last b => simp [Path.beneath] at h
    | cons b q' =>
      simp only [Path.beneath, Bool.and_eq_true] at h
      simp [Path.lt, h.1, ih h.2]

theorem head_of_mem_walkChilds {cs : List (String × tree_node)} {x : Path × Nat}
    (h : x ∈ walk.walkChilds cs) : ∃ c, (Path.head x.1, c) ∈ cs := by
  induction cs with
  | nil => simp [walk.walkChilds] at h
  | cons hd tl ih =>
    obtain ⟨k, c⟩ := hd
    simp only [walk.walkChilds, List.mem_cons, List.mem_append, List.mem_map] at h
    rcases h with h | ⟨y, _, h⟩ | h
    · subst h
      exact ⟨c, List.mem_cons_self _ _⟩
    · subst h
      exact ⟨c, List.mem_cons_self _ _⟩
    · obtain ⟨c', hc'⟩ := ih h
      exact ⟨c', List.mem_cons_of_mem _ hc'⟩

/-- In a tree of ordered maps the walk visits the paths in strictly ascending pre-order. -/
theorem walk_sorted : ∀ t : tree_node, tree_node.WF t = true →
    (walk t).Pairwise (fun x y => Path.lt x.1 y.1 = true) := by
  refine tree_node.induct ?_
  intro s cs ih hw
  rw [walk_mk]
  obtain ⟨hs, hc⟩ := (WF_mk_iff s cs).mp hw
  clear hw
  induction cs with
  | nil => simp [walk.walkChilds]
  | cons hd tl ihl =>
    obtain ⟨k, c⟩ := hd
    have hs' := (keysAscending_cons k c tl).mp hs
    have hwc := hc k c (List.mem_cons_self _ _)
    have ihc := ih k c (List.mem_cons_self _ _) hwc
    have iht := ihl (fun k' c' hm => ih k' c' (List.mem_cons_of_mem _ hm)) hs'.2
      (fun k' c' hm => hc k' c' (List.mem_cons_of_mem _ hm))
    have hrest : ∀ y ∈ walk.walkChilds tl, keyLt k (Path.head y.1) = true := by
      intro y hy
      obtain ⟨c', hc'⟩ := head_of_mem_walkChilds hy
      exact hs'.1 _ c' hc'
    simp only [walk.walkChilds]
    rw [List.pairwise_cons, List.pairwise_append]
    refine ⟨?_, ?_, iht, ?_⟩
    · intro y hy
      rcases List.mem_append.mp hy with hy | hy
      · obtain ⟨x, _, rfl⟩ := List.mem_map.mp hy
        simp [Path.lt]
      · exact Path.lt_of_head (hrest y hy)
    · refine List.Pairwise.map _ ?_ ihc
      intro a b hab
      simp [Path.lt, keyLt_irrefl, hab]
    · intro x hx y hy
      obtain ⟨x', _, rfl⟩ := List.mem_map.mp hx
      exact Path.lt_of_head (hrest y hy)

theorem walk_nodup (t : tree_node) (hw : tree_node.WF t = true) :
    ((walk t).map Prod.fst).Nodup := by
  have h := walk_sorted t hw
  have h2 : ((walk t).map Prod.fst).Pairwise (fun p q => Path.lt p q = true) :=
    List.pairwise_map.mpr h
  refine List.Pairwise.imp ?_ h2
  intro a b hab e
  rw [e, Path.lt_irrefl] at hab
  exact Bool.false_ne_true hab

theorem mem_walkChilds_iff (cs : List (String × tree_node)) (q : Path) (s : Nat) :
    (q, s) ∈ walk.walkChilds cs ↔
      ∃ k c, (k, c) ∈ cs ∧
        ((q = Path.last k ∧ s = c.status) ∨ ∃ q', q = Path.cons k q' ∧ (q', s) ∈ walk c) := by
  induction cs with
  | nil => simp [walk.walkChilds]
  | cons hd tl ih =>
    obtain ⟨k, c⟩ := hd
    simp only [walk.walkChilds, List.mem_cons, List.mem_append, List.mem_map, ih]
    constructor
    · rintro (h | ⟨y, hy, h⟩ | ⟨k', c', hm, h⟩)
      · cases h
        exact ⟨k, c, Or.inl rfl, Or.inl ⟨rfl, rfl⟩⟩
      · cases h
        exact ⟨k, c, Or.inl rfl, Or.inr ⟨y.1, rfl, hy⟩⟩
      · exact ⟨k', c', Or.inr hm, h⟩
    · rintro ⟨k', c', hm | hm, h⟩
      · cases hm
        rcases h with ⟨rfl, rfl⟩ | ⟨q', rfl, hq'⟩
        · exact Or.inl rfl
        · exact Or.inr (Or.inl ⟨(q', s), hq', rfl⟩)
      · exact Or.inr (Or.inr ⟨k', c', hm, h⟩)

/-- In a tree of ordered maps the walk lists exactly the nodes `find` locates. -/
theorem mem_walk_iff (t : tree_node) (hw : tree_node.WF t = true) (q : Path) (s : Nat) :
    (q, s) ∈ walk t ↔ statusAt t q = some s := by
  induction q generalizing t with
  | last a =>
    rw [walk_eq, mem_walkChilds_iff]
    simp only [statusAt, tree_node.find]
    constructor
    · rintro ⟨k, c, hm, ⟨h1, h2⟩ | ⟨q', h1, _⟩⟩
      · cases h1
        rw [childs_find_of_mem ((WF_iff t).mp hw).1 hm, h2]
        rfl
      · exact Path.noConfusion h1
    · intro h
      cases hc : childs_find a t.childs with
      | none => simp [hc] at h
      | some c =>
        simp only [hc, Option.map_some', Option.some.injEq] at h
        exact ⟨a, c, mem_of_childs_find hc, Or.inl ⟨rfl, h.symm⟩⟩
  | cons a b ih =>
    rw [walk_eq, mem_walkChilds_iff]
    simp only [statusAt, tree_node.find]
    constructor
    · rintro ⟨k, c, hm, ⟨h1, _⟩ | ⟨q', h1, h2⟩⟩
      · exact Path.noConfusion h1
      · cases h1
        have hc := childs_find_of_mem ((WF_iff t).mp hw).1 hm
        rw [hc]
        exact (ih c (WF_child hw hc)).mp h2
    · intro h
      cases hc : childs_find a t.childs with
      | none => simp [hc] at h
      | some c =>
        simp only [hc] at h
        exact ⟨a, c, mem_of_childs_find hc, Or.inr ⟨b, rfl, (ih c (WF_child hw hc)).mpr h⟩⟩

theorem Path.parseChars_of_slashFree (cs : List Char) (h : cs.contains '/' = false) :
    Path.parseChars cs = Path.last ⟨cs⟩ := by
  induction cs with
  | nil => rfl
  | cons c cs ih =>
    simp only [List.contains_cons, Bool.or_eq_false_iff, beq_eq_false_iff_ne, ne_eq] at h
    have hc : c ≠ '/' := fun e => h.1 e.symm
    simp only [Path.parseChars, hc, if_false, ih h.2, Path.pushFront]

/-- Splitting the joined segments gives the path back. -/
theorem Path.parse_render (p : Path) (h : Path.slashFree p = true) :
    Path.parse (Path.render p) = p := by
  induction p with
  | last a =>
    simp only [Path.slashFree, Bool.not_eq_true'] at h
    simp only [Path.render, Path.parse, Path.parseChars_of_slashFree _ h]
  | cons a b ih =>
    simp only [Path.slashFree, Bool.and_eq_true, Bool.not_eq_true'] at h
    simp only [Path.render]
    rw [Path.parse_append, ih h.2]
    simp only [Path.parse, Path.parseChars_of_slashFree _ h.1]
    rfl

theorem keysSplitChilds_iff (cs : List (String × tree_node)) :
    keysSplit.keysSplitChilds cs = true ↔
      ∀ k c, (k, c) ∈ cs → k.data.contains '/' = false ∧ keysSplit c = true := by
  induction cs with
  | nil => simp [keysSplit.keysSplitChilds]
  | cons hd tl ih =>
    obtain ⟨k1, c1⟩ := hd
    simp only [keysSplit.keysSplitChilds, Bool.and_eq_true, Bool.not_eq_true', ih]
    constructor
    · rintro ⟨⟨h1, h2⟩, h3⟩ k c hm
      rcases List.mem_cons.mp hm with e | hm
      · cases e
        exact ⟨h1, h2⟩
      · exact h3 k c hm
    · intro h
      exact ⟨h k1 c1 (List.mem_cons_self _ _), fun k c hm => h k c (List.mem_cons_of_mem _ hm)⟩

theorem keysSplit_mk_iff (s : Nat) (cs : List (String × tree_node)) :
    keysSplit (tree_node.mk s cs) = true ↔
      ∀ k c, (k, c) ∈ cs → k.data.contains '/' = false ∧ keysSplit c = true := by
  simp only [keysSplit, keysSplitChilds_iff]

/-- The paths of the walk through a tree of split keys have no `'/'` in their segments. -/
theorem slashFree_of_mem_walk : ∀ t : tree_node, keysSplit t = true →
    ∀ x ∈ walk t, Path.slashFree x.1 = true := by
  refine tree_node.induct ?_
  intro s cs ih hk x hx
  rw [walk_mk] at hx
  obtain ⟨q, s'⟩ := x
  obtain ⟨k, c, hm, h⟩ := (mem_walkChilds_iff cs q s').mp hx
  have hkc := (keysSplit_mk_iff s cs).mp hk k c hm
  rcases h with ⟨rfl, _⟩ | ⟨q', rfl, hq'⟩
  · simp only [Path.slashFree, hkc.1, Bool.not_false]
  · have := ih k c hm hkc.2 (q', s') hq'
    simp only at this
    simp only [Path.slashFree, hkc.1, this, Bool.not_false, Bool.and_self]

theorem head_ne_of_mem_walk {t : tree_node} (ht : topNonempty t = true) {x : Path × Nat}
    (hx : x ∈ walk t) : Path.head x.1 ≠ "" := by
  rw [walk_eq] at hx
  obtain ⟨c, hc⟩ := head_of_mem_walkChilds hx
  simp only [topNonempty, List.all_eq_true, decide_eq_true_eq] at ht
  exact ht _ hc

theorem Path.lt_cons_cons (a : String) (p q : Path) :
    Path.lt (Path.cons a p) (Path.cons a q) = Path.lt p q := by
  simp [Path.lt, keyLt_irrefl]

/-- Beneath a common node the order is that of the remaining segments. -/
theorem Path.lt_append (r p q : Path) : Path.lt (r.append p) (r.append q) = Path.lt p q := by
  induction r with
  | last a => simp only [Path.append, Path.lt_cons_cons]
  | cons a b ih => simp only [Path.append, Path.lt_cons_cons, ih]

/-- Two trees of ordered maps in which `find` locates the same paths with the same statuses
have the same children. -/
theorem childs_eq_of_statusAt_all :
    ∀ t1 : tree_node, ∀ t2 : tree_node, tree_node.WF t1 = true → tree_node.WF t2 = true →
      (∀ q, statusAt t1 q = statusAt t2 q) → t1.childs = t2.childs := by
  refine tree_node.induct ?_
  intro s1 cs ih t2 hw1 hw2 hs
  refine childs_ext _ _ ((WF_iff _).mp hw1).1 ((WF_iff _).mp hw2).1 ?_
  intro k
  have hk := hs (Path.last k)
  simp only [statusAt, tree_node.find, tree_node.childs_mk] at hk ⊢
  cases h1 : childs_find k cs with
  | none =>
    cases h2 : childs_find k t2.childs with
    | none => rfl
    | some c2 => simp [h1, h2] at hk
  | some c1 =>
    cases h2 : childs_find k t2.childs with
    | none => simp [h1, h2] at hk
    | some c2 =>
      simp only [h1, h2, Option.map_some', Option.some.injEq] at hk
      have h1' : childs_find k (tree_node.mk s1 cs).childs = some c1 := h1
      have hch : c1.childs = c2.childs := by
        refine ih k c1 (mem_of_childs_find h1) c2 (WF_child hw1 h1') (WF_child hw2 h2) ?_
        intro q
        have := hs (Path.cons k q)
        simpa [statusAt, tree_node.find, h1, h2] using this
      cases c1
      cases c2
      simp only [tree_node.status_mk, tree_node.childs_mk] at hk hch
      rw [hk, hch]

theorem string_append_left_cancel {a b c : String} (h : a ++ b = a ++ c) : b = c := by
  apply String.ext
  have := congrArg String.data h
  simpa using this

theorem render_injective {p q : Path} (hp : Path.slashFree p = true)
    (hq : Path.slashFree q = true) (h : Path.render p = Path.render q) : p = q := by
  rw [← Path.parse_render p hp, ← Path.parse_render q hq, h]

end Snapper

/-! ## The post-pass -/

namespace Snapper

theorem check_status_eq (cmpFiles : String → Option Nat) (name : String) (s : Nat) :
    tree_node.check_status cmpFiles name s =
      if needsCompare s = true then
        (cmpFiles name).map (fun m => ([name], clearBits s ATTRS ||| m))
      else some ([], collapsed s) := by
  unfold tree_node.check_status needsCompare collapsed
  by_cases hc : s &&& CREATED = 0
  · by_cases hd : s &&& DELETED = 0
    · by_cases ha : s &&& ATTRS = 0
      · simp [hc, hd, ha]
      · simp only [hc, hd, ha, ne_eq, not_true_eq_false, if_false, not_false_eq_true, if_true,
          decide_True, decide_not, Bool.not_false, Bool.and_self]
        cases cmpFiles name <;> rfl
    · have h2 : DELETED &&& ATTRS = 0 := by decide
      simp [hc, hd, h2]
  · have h1 : CREATED &&& DELETED = 0 := by decide
    have h2 : CREATED &&& ATTRS = 0 := by decide
    simp [hc, h1, h2]

theorem check_eq (cmpFiles : String → Option Nat) (t : tree_node) (pre : String) :
    tree_node.check cmpFiles t pre =
      (tree_node.check.checkChilds cmpFiles t.childs pre).map
        (fun r => (r.1, tree_node.mk t.status r.2)) := by
  cases t
  simp only [tree_node.check, tree_node.childs_mk, tree_node.status_mk]
  cases tree_node.check.checkChilds cmpFiles _ pre <;> rfl

/-- The post-pass keeps the nodes of the tree; each node gets the status `check` computes for
it from its former status, and the content compare is invoked, in the order of the walk, on
the nodes whose status needs it. -/
theorem walk_check (cmpFiles : String → Option Nat) :
    ∀ (t : tree_node) (pre : String) (r : List String × tree_node),
      tree_node.check cmpFiles t pre = some r →
      (walk r.2).map (fun x => (x.1, some x.2))
          = (walk t).map (fun x =>
              (x.1, (tree_node.check_status cmpFiles (checkName pre x.1) x.2).map Prod.snd)) ∧
        r.1 = ((walk t).filter (fun x => needsCompare x.2)).map (fun x => checkName pre x.1) := by
  refine tree_node.induct ?_
  intro s cs ih pre r hr
  rw [check_eq] at hr
  simp only [tree_node.childs_mk, tree_node.status_mk] at hr
  cases hcs : tree_node.check.checkChilds cmpFiles cs pre with
  | none => simp [hcs] at hr
  | some rc =>
    simp only [hcs, Option.map_some', Option.some.injEq] at hr
    subst hr
    simp only [walk_mk]
    clear s
    induction cs generalizing rc with
    | nil =>
      simp only [tree_node.check.checkChilds, Option.some.injEq] at hcs
      subst hcs
      simp [walk.walkChilds]
    | cons hd tl ihl =>
      obtain ⟨k, c⟩ := hd
      simp only [tree_node.check.checkChilds] at hcs
      cases h1 : tree_node.check_status cmpFiles (if pre = "" then k else pre ++ "/" ++ k)
          c.status with
      | none => simp [h1] at hcs
      | some r1 =>
        cases h2 : tree_node.check cmpFiles c (if pre = "" then k else pre ++ "/" ++ k) with
        | none => simp [h1, h2] at hcs
        | some r2 =>
          cases h3 : tree_node.check.checkChilds cmpFiles tl pre with
          | none => simp [h1, h2, h3] at hcs
          | some r3 =>
            simp only [h1, h2, h3, Option.some.injEq] at hcs
            subst hcs
            obtain ⟨e1, e2⟩ := ih k c (List.mem_cons_self _ _) _ r2 h2
            obtain ⟨e3, e4⟩ := ihl (fun k' c' hm => ih k' c' (List.mem_cons_of_mem _ hm)) r3 h3
            have hw : walk (tree_node.mk r1.2 r2.2.childs) = walk r2.2 := by
              rw [walk_mk, walk_eq]
            have hcalls : r1.1 = if needsCompare c.status = true then
                [if pre = "" then k else pre ++ "/" ++ k] else [] := by
              rw [check_status_eq] at h1
              by_cases hn : needsCompare c.status = true
              · simp only [hn, if_true] at h1 ⊢
                cases hcmp : cmpFiles (if pre = "" then k else pre ++ "/" ++ k) with
                | none => simp [hcmp] at h1
                | some m =>
                  simp only [hcmp, Option.map_some', Option.some.injEq] at h1
                  rw [← h1]
              · simp only [hn] at h1 ⊢
                simp only [Bool.false_eq_true, if_false, Option.some.injEq] at h1 ⊢
                rw [← h1]
            constructor
            · simp only [walk.walkChilds, List.map_cons, List.map_append, List.map_map, hw,
                tree_node.status_mk, checkName, h1, Option.map_some']
              refine congrArg₂ List.cons rfl (congrArg₂ HAppend.hAppend ?_ e3)
              have := congrArg (List.map (fun x : Path × Option Nat => (Path.cons k x.1, x.2))) e1
              simpa [List.map_map, Function.comp_def, checkName] using this
            · simp only [walk.walkChilds, List.filter_cons, List.filter_append, List.filter_map,
                List.map_append, List.map_map, e2, e4, hcalls]
              by_cases hn : needsCompare c.status = true
              · simp [hn, checkName, Function.comp_def]
              · simp [hn, checkName, Function.comp_def]

theorem checkName_of_ne (pre : String) (hp : pre ≠ "") (p : Path) :
    checkName pre p = pre ++ "/" ++ Path.render p := by
  induction p generalizing pre with
  | last k => simp [checkName, hp, Path.render]
  | cons k q ih =>
    have hne : pre ++ "/" ++ k ≠ "" := by
      intro h
      have := congrArg String.data h
      simp at this
    simp only [checkName, hp, if_false, Path.render]
    rw [ih _ hne]
    simp only [String.append_assoc]

/-- With a non-empty first segment, the name handed to the content compare is the path of
the node, its segments joined with `"/"`. -/
theorem checkName_eq_render (p : Path) (hp : Path.head p ≠ "") :
    checkName "" p = Path.render p := by
  cases p with
  | last k => simp [checkName, Path.render]
  | cons k q =>
    simp only [Path.head] at hp
    simp only [checkName, if_true, Path.render]
    rw [checkName_of_ne k hp q]

theorem check_status_isSome_iff (cmpFiles : String → Option Nat) (name : String) (s : Nat) :
    (tree_node.check_status cmpFiles name s).isSome = true ↔
      (needsCompare s = true → (cmpFiles name).isSome = true) := by
  rw [check_status_eq]
  by_cases hn : needsCompare s = true
  · simp only [hn, if_true, Option.isSome_map', true_implies]
  · simp [hn]

/-- The post-pass returns normally exactly when every content compare it invokes does. -/
theorem check_isSome_iff (cmpFiles : String → Option Nat) :
    ∀ (t : tree_node) (pre : String),
      (tree_node.check cmpFiles t pre).isSome = true ↔
        ∀ x ∈ walk t, needsCompare x.2 = true → (cmpFiles (checkName pre x.1)).isSome = true := by
  refine tree_node.induct ?_
  intro s cs ih pre
  rw [check_eq, walk_mk]
  simp only [tree_node.childs_mk, Option.isSome_map']
  clear s
  induction cs with
  | nil => simp [tree_node.check.checkChilds, walk.walkChilds]
  | cons hd tl ihl =>
    obtain ⟨k, c⟩ := hd
    have ihc := ih k c (List.mem_cons_self _ _) (if pre = "" then k else pre ++ "/" ++ k)
    have iht := ihl (fun k' c' hm => ih k' c' (List.mem_cons_of_mem _ hm))
    have h1 := check_status_isSome_iff cmpFiles (if pre = "" then k else pre ++ "/" ++ k) c.status
    simp only [tree_node.check.checkChilds, walk.walkChilds, List.mem_cons, List.mem_append,
      List.mem_map]
    constructor
    · intro h
      cases e1 : tree_node.check_status cmpFiles (if pre = "" then k else pre ++ "/" ++ k)
          c.status with
      | none => simp [e1] at h
      | some r1 =>
        cases e2 : tree_node.check cmpFiles c (if pre = "" then k else pre ++ "/" ++ k) with
        | none => simp [e1, e2] at h
        | some r2 =>
          cases e3 : tree_node.check.checkChilds cmpFiles tl pre with
          | none => simp [e1, e2, e3] at h
          | some r3 =>
            rintro x (rfl | ⟨y, hy, rfl⟩ | hx) hn
            · exact h1.mp (by rw [e1]; rfl) hn
            · exact ihc.mp (by rw [e2]; rfl) y hy hn
            · exact iht.mp (by rw [e3]; rfl) x hx hn
    · intro h
      have a1 := h1.mpr (fun hn => h (Path.last k, c.status) (Or.inl rfl) hn)
      have a2 := ihc.mpr (fun y hy hn => h (Path.cons k y.1, y.2) (Or.inr (Or.inl ⟨y, hy, rfl⟩)) hn)
      have a3 := iht.mpr (fun x hx hn => h x (Or.inr (Or.inr hx)) hn)
      cases e1 : tree_node.check_status cmpFiles (if pre = "" then k else pre ++ "/" ++ k)
          c.status with
      | none => simp [e1] at a1
      | some r1 =>
        cases e2 : tree_node.check cmpFiles c (if pre = "" then k else pre ++ "/" ++ k) with
        | none => simp [e2] at a2
        | some r2 =>
          cases e3 : tree_node.check.checkChilds cmpFiles tl pre with
          | none => simp [e3] at a3
          | some r3 => rfl

theorem allStatus_walk {P : Nat → Prop} : ∀ t : tree_node, allStatus P t →
    ∀ x ∈ walk t, P x.2 := by
  refine tree_node.induct ?_
  intro s cs ih h x hx
  rw [walk_mk] at hx
  obtain ⟨q, s'⟩ := x
  obtain ⟨k, c, hm, hq⟩ := (mem_walkChilds_iff cs q s').mp hx
  have hc := (allStatus_mk_iff P s cs).mp h k c hm
  rcases hq with ⟨_, rfl⟩ | ⟨q', _, hq'⟩
  · exact hc.1
  · exact ih k c hm hc.2 (q', s') hq'

theorem allStatus_result {P : Nat → Prop} {t : tree_node} (h : allStatus P t) (pre : String) :
    ∀ x ∈ tree_node.result t pre, P x.2 ∧ x.2 ≠ 0 := by
  intro x hx
  rw [result_eq_walk] at hx
  obtain ⟨y, hy, rfl⟩ := List.mem_map.mp hx
  have hy' := List.mem_filter.mp hy
  exact ⟨allStatus_walk t h y hy'.1, by simpa using hy'.2⟩

theorem allStatus_check {P Q : Nat → Prop} (cmpFiles : String → Option Nat)
    (hpq : ∀ name s r, P s → tree_node.check_status cmpFiles name s = some r → Q r.2) :
    ∀ (t : tree_node) (pre : String) (r : List String × tree_node), allStatus P t →
      tree_node.check cmpFiles t pre = some r → allStatus Q r.2 := by
  refine tree_node.induct ?_
  intro s cs ih pre r h hr
  rw [check_eq] at hr
  simp only [tree_node.childs_mk, tree_node.status_mk] at hr
  cases hcs : tree_node.check.checkChilds cmpFiles cs pre with
  | none => simp [hcs] at hr
  | some rc =>
    simp only [hcs, Option.map_some', Option.some.injEq] at hr
    subst hr
    have hall := (allStatus_mk_iff P s cs).mp h
    refine (allStatus_mk_iff Q s rc.2).mpr ?_
    clear h s
    induction cs generalizing rc with
    | nil =>
      simp only [tree_node.check.checkChilds, Option.some.injEq] at hcs
      subst hcs
      exact fun _ _ hm => absurd hm (List.not_mem_nil _)
    | cons hd tl ihl =>
      obtain ⟨k, c⟩ := hd
      simp only [tree_node.check.checkChilds] at hcs
      cases h1 : tree_node.check_status cmpFiles (if pre = "" then k else pre ++ "/" ++ k)
          c.status with
      | none => simp [h1] at hcs
      | some r1 =>
        cases h2 : tree_node.check cmpFiles c (if pre = "" then k else pre ++ "/" ++ k) with
        | none => simp [h1, h2] at hcs
        | some r2 =>
          cases h3 : tree_node.check.checkChilds cmpFiles tl pre with
          | none => simp [h1, h2, h3] at hcs
          | some r3 =>
            simp only [h1, h2, h3, Option.some.injEq] at hcs
            subst hcs
            have hc := hall k c (List.mem_cons_self _ _)
            have a2 := ih k c (List.mem_cons_self _ _) _ r2 hc.2 h2
            have a3 := ihl (fun k' c' hm => ih k' c' (List.mem_cons_of_mem _ hm)) r3 h3
              (fun k' c' hm => hall k' c' (List.mem_cons_of_mem _ hm))
            intro k' c' hm
            rcases List.mem_cons.mp hm with e | hm
            · cases e
              exact ⟨hpq _ _ r1 hc.1 h1, allStatus_childs a2 _⟩
            · exact a3 k' c' hm

theorem and_eq_self_of_or {s a b : Nat} (h1 : s &&& (a ||| b) = s) (h2 : s &&& a = 0) :
    s &&& b = s := by
  apply Nat.eq_of_testBit_eq
  intro i
  have e1 := congrArg (fun x => x.testBit i) h1
  have e2 := congrArg (fun x => x.testBit i) h2
  simp only [Nat.testBit_and, Nat.testBit_or, Nat.zero_testBit] at e1 e2 ⊢
  cases hs : s.testBit i <;> cases ha : a.testBit i <;> cases hb : b.testBit i <;> simp_all

theorem clearBits_of_subset {s m : Nat} (h : s &&& m = s) : clearBits s m = 0 := by
  unfold clearBits
  rw [h, Nat.xor_self]

/-- The status `check` computes from a status within the eight flags, when the content
compare returns attribute flags only, is 0 or a mask the report may carry. -/
theorem check_status_reportable (cmpFiles : String → Option Nat)
    (hc : ∀ name m, cmpFiles name = some m → m &&& ATTRS = m)
    (name : String) (s : Nat) (r : List String × Nat) (hu : inUniverse s)
    (hr : tree_node.check_status cmpFiles name s = some r) : r.2 = 0 ∨ reportable r.2 := by
  rw [check_status_eq] at hr
  by_cases hn : needsCompare s = true
  · simp only [hn, if_true] at hr
    cases hcmp : cmpFiles name with
    | none => simp [hcmp] at hr
    | some m =>
      simp only [hcmp, Option.map_some', Option.some.injEq] at hr
      subst hr
      simp only [needsCompare, Bool.and_eq_true, decide_eq_true_eq] at hn
      have h1 : s &&& ATTRS = s := and_eq_self_of_or (and_eq_self_of_or hu hn.1.2) hn.2
      simp only [clearBits_of_subset h1, Nat.zero_or]
      by_cases hm : m = 0
      · exact Or.inl hm
      · exact Or.inr (Or.inr (Or.inr ⟨hm, hc name m hcmp⟩))
  · simp only [hn, Bool.false_eq_true, if_false, Option.some.injEq] at hr
    subst hr
    simp only [collapsed]
    by_cases h1 : s &&& CREATED = 0
    · by_cases h2 : s &&& DELETED = 0
      · have h3 : s &&& ATTRS = s := and_eq_self_of_or (and_eq_self_of_or hu h1) h2
        simp only [needsCompare, h1, h2, decide_True, Bool.and_true, decide_eq_true_eq,
          Decidable.not_not] at hn
        left
        simp only [h1, h2, ne_eq, not_true_eq_false, if_false]
        rw [← h3, hn]
      · right
        simp [h1, h2, reportable]
    · right
      simp [h1, reportable]

theorem allStatus_process_flags {P : Nat → Prop} (F : Nat → Prop) (h0 : P 0) (hc : P CREATED)
    (hd : P DELETED) (ht : ∀ s, P s → P (touched s))
    (hf : ∀ s f, P s → F f → P (s ||| f))
    (hF : F CONTENT ∧ F PERMISSIONS ∧ F (OWNER ||| GROUP) ∧ F XATTRS ∧ F (XATTRS ||| ACL))
    (env : Env) {t : tree_node} (h : allStatus P t) (op : Op) :
    allStatus P (process env t op) := by
  have hx : ∀ name, ∀ s, P s → P (s ||| xattrFlags env name) := by
    intro name s hs
    refine hf s _ hs ?_
    unfold xattrFlags
    split
    · exact hF.2.2.2.2
    · exact hF.2.2.2.1
  cases op with
  | subvol path => exact h
  | snapshot path => exact h
  | mkfile path => exact allStatus_created h0 hc ht h _
  | mkdir path => exact allStatus_created h0 hc ht h _
  | mknod path => exact h
  | mkfifo path => exact h
  | mksock path => exact h
  | symlink path lnk => exact allStatus_created h0 hc ht h _
  | rename src dst => exact allStatus_process_rename h0 hc hd ht h _ _ _
  | link path lnk => exact allStatus_created h0 hc ht h _
  | unlink path => exact allStatus_deleted h0 hd h _
  | rmdir path => exact allStatus_deleted h0 hd h _
  | write path => exact allStatus_touch h0 (fun s hs => hf s _ hs hF.1) h _
  | clone path => exact allStatus_touch h0 (fun s hs => hf s _ hs hF.1) h _
  | set_xattr path name =>
    simp only [process]
    split
    · exact allStatus_touch h0 (hx name) h _
    · exact h
  | remove_xattr path name =>
    simp only [process]
    split
    · exact allStatus_touch h0 (hx name) h _
    · exact h
  | truncate path => exact allStatus_touch h0 (fun s hs => hf s _ hs hF.1) h _
  | chmod path => exact allStatus_touch h0 (fun s hs => hf s _ hs hF.2.1) h _
  | chown path => exact allStatus_touch h0 (fun s hs => hf s _ hs hF.2.2.1) h _
  | utimes path => exact h
  | update_extent path => exact allStatus_touch h0 (fun s hs => hf s _ hs hF.1) h _

theorem inUniverse_or {a b : Nat} (ha : inUniverse a) (hb : inUniverse b) :
    inUniverse (a ||| b) := by
  unfold inUniverse at *
  rw [Nat.and_distrib_right, ha, hb]

theorem inUniverse_clearBits {s : Nat} (hs : inUniverse s) (m : Nat) :
    inUniverse (clearBits s m) := by
  unfold inUniverse at *
  apply Nat.eq_of_testBit_eq
  intro i
  have e := congrArg (fun x => x.testBit i) hs
  simp only [Nat.testBit_and, testBit_clearBits] at e ⊢
  cases h1 : s.testBit i <;> cases h2 : m.testBit i <;> simp_all

theorem inUniverse_of_attrs {f : Nat} (hf : f &&& ATTRS = f) : inUniverse f := by
  unfold inUniverse
  have e : ATTRS &&& (CREATED ||| (DELETED ||| ATTRS)) = ATTRS := by decide
  rw [← hf, Nat.and_assoc, e]

/-- Every status in a tree built by stream callbacks is a set over the eight flags. -/
theorem inUniverse_processAll (env : Env) (ops : List Op) :
    allStatus inUniverse (processAll env tree_node.empty ops) := by
  have h0 : inUniverse 0 := by simp [inUniverse]
  have hc : inUniverse CREATED := by unfold inUniverse; decide
  have hd : inUniverse DELETED := by unfold inUniverse; decide
  have ha : inUniverse ATTRS := inUniverse_of_attrs (by decide)
  have step : ∀ (t : tree_node) (op : Op), allStatus inUniverse t →
      allStatus inUniverse (process env t op) := fun t op h =>
    allStatus_process_flags (fun f => f &&& ATTRS = f) h0 hc hd
      (fun s hs => inUniverse_or (inUniverse_clearBits hs _) ha)
      (fun s f hs hf => inUniverse_or hs (inUniverse_of_attrs hf))
      ⟨by decide, by decide, by decide, by decide, by decide⟩ env h op
  have all : ∀ (l : List Op) (t : tree_node), allStatus inUniverse t →
      allStatus inUniverse (processAll env t l) := by
    intro l
    induction l with
    | nil => exact fun t h => h
    | cons op l ih => exact fun t h => ih _ (step t op h)
  exact all ops _ (allStatus_empty _)

/-! ## Invariants of the trees the callbacks build -/

theorem WF_mk_nil (s : Nat) : tree_node.WF (tree_node.mk s []) = true := rfl

theorem WF_touch {files : tree_node} (hw : tree_node.WF files = true) (path : String)
    (flags : Nat) : tree_node.WF (touch files path flags) = true := by
  unfold touch
  exact WF_update (fun x hx => WF_of_childs_eq hx _) (WF_insert hw _) _

theorem WF_mergeEntry {files : tree_node} (hw : tree_node.WF files = true)
    (dst pre k : String) (c : tree_node) :
    tree_node.WF (mergeEntry files dst pre k c).2 = true := by
  unfold mergeEntry
  simp only []
  split
  · exact WF_update (fun x hx => WF_of_childs_eq hx _) (WF_insert hw _) _
  · exact WF_update (fun x hx => WF_of_childs_eq hx _) hw _

mutual

theorem WF_merge : ∀ (tmp files : tree_node) (dst pre : String),
    tree_node.WF files = true → tree_node.WF (merge files tmp dst pre) = true
  | tree_node.mk _ cs, files, dst, pre, hf => by
    unfold merge
    exact WF_mergeChilds cs files dst pre hf

theorem WF_mergeChilds : ∀ (cs : List (String × tree_node)) (files : tree_node)
    (dst pre : String),
    tree_node.WF files = true → tree_node.WF (merge.mergeChilds files cs dst pre) = true
  | [], files, _, _, hf => by
    unfold merge.mergeChilds
    exact hf
  | (k, c) :: rest, files, dst, pre, hf => by
    unfold merge.mergeChilds
    exact WF_mergeChilds rest _ dst pre (WF_merge c _ dst _ (WF_mergeEntry hf dst pre k c))

end

theorem WF_process_rename {t : tree_node} (h : tree_node.WF t = true)
    (entries : List String) (src dst : String) :
    tree_node.WF (process_rename t entries src dst) = true := by
  unfold process_rename
  cases h1 : tree_node.find t (Path.parse src) with
  | none =>
    simp only []
    have step : ∀ (es : List String) (fs : tree_node), tree_node.WF fs = true →
        tree_node.WF (es.foldl
          (fun fs e => StreamProcessor.created (StreamProcessor.deleted fs (src ++ "/" ++ e))
            (dst ++ "/" ++ e)) fs) = true := by
      intro es
      induction es with
      | nil => intro fs hfs; exact hfs
      | cons e es ih =>
        intro fs hfs
        exact ih _ (WF_created (WF_deleted hfs _) _)
    exact step entries _ (WF_created (WF_deleted h _) _)
  | some it1 =>
    cases h2 : tree_node.find t (Path.parse dst) with
    | none => exact WF_rename h _ _
    | some it2 =>
      simp only []
      refine WF_merge _ _ dst "" (WF_created (WF_deleted ?_ _) _)
      exact WF_update (fun x _ => WF_mk_nil _) h _

theorem WF_process (env : Env) {t : tree_node} (h : tree_node.WF t = true) (op : Op) :
    tree_node.WF (process env t op) = true := by
  cases op with
  | subvol path => exact h
  | snapshot path => exact h
  | mkfile path => exact WF_created h _
  | mkdir path => exact WF_created h _
  | mknod path => exact h
  | mkfifo path => exact h
  | mksock path => exact h
  | symlink path lnk => exact WF_created h _
  | rename src dst => exact WF_process_rename h _ _ _
  | link path lnk => exact WF_created h _
  | unlink path => exact WF_deleted h _
  | rmdir path => exact WF_deleted h _
  | write path => exact WF_touch h _ _
  | clone path => exact WF_touch h _ _
  | set_xattr path name =>
    simp only [process]
    split
    · exact WF_touch h _ _
    · exact h
  | remove_xattr path name =>
    simp only [process]
    split
    · exact WF_touch h _ _
    · exact h
  | truncate path => exact WF_touch h _ _
  | chmod path => exact WF_touch h _ _
  | chown path => exact WF_touch h _ _
  | utimes path => exact h
  | update_extent path => exact WF_touch h _ _

/-- Every tree the callbacks build from a tree with ascending keys has ascending keys: the
hypothesis `WF` of the theorems below holds for every tree a stream produces. -/
theorem WF_processAll (env : Env) (ops : List Op) {t : tree_node}
    (h : tree_node.WF t = true) : tree_node.WF (processAll env t ops) = true := by
  induction ops generalizing t with
  | nil => exact h
  | cons op ops ih => exact ih (WF_process env h op)

/-! ## The keys of the trees the callbacks build -/

theorem Path.slashFree_pushFront (c : Char) (hc : c ≠ '/') (p : Path)
    (h : Path.slashFree p = true) : Path.slashFree (Path.pushFront c p) = true := by
  have hc' : ('/' == c) = false := by
    simp only [beq_eq_false_iff_ne, ne_eq]
    exact fun e => hc e.symm
  cases p with
  | last a =>
    simp only [Path.slashFree, Bool.not_eq_true'] at h
    simp only [Path.pushFront, Path.slashFree, List.contains_cons, hc', h, Bool.or_self,
      Bool.not_false]
  | cons a b =>
    simp only [Path.slashFree, Bool.and_eq_true, Bool.not_eq_true'] at h
    simp only [Path.pushFront, Path.slashFree, List.contains_cons, hc', h.1, h.2, Bool.or_self,
      Bool.not_false, Bool.and_self]

theorem Path.slashFree_parseChars (cs : List Char) :
    Path.slashFree (Path.parseChars cs) = true := by
  induction cs with
  | nil => rfl
  | cons c cs ih =>
    simp only [Path.parseChars]
    by_cases hc : c = '/'
    · simp only [hc, if_true, Path.slashFree, Bool.and_eq_true]
      exact ⟨rfl, ih⟩
    · simp only [hc, if_false]
      exact Path.slashFree_pushFront c hc _ ih

/-- The segments `Path.parse` produces contain no `'/'`. -/
theorem Path.slashFree_parse (name : String) : Path.slashFree (Path.parse name) = true :=
  Path.slashFree_parseChars name.data

theorem keysSplit_iff (t : tree_node) :
    keysSplit t = true ↔
      ∀ k c, (k, c) ∈ t.childs → k.data.contains '/' = false ∧ keysSplit c = true := by
  cases t
  exact keysSplit_mk_iff _ _

theorem keysSplit_empty : keysSplit tree_node.empty = true := rfl

theorem keysSplit_mk_nil (s : Nat) : keysSplit (tree_node.mk s []) = true := rfl

theorem keysSplit_child {t c : tree_node} {k : String} (h : keysSplit t = true)
    (hc : childs_find k t.childs = some c) :
    k.data.contains '/' = false ∧ keysSplit c = true :=
  (keysSplit_iff t).mp h k c (mem_of_childs_find hc)

theorem keysSplit_put {t : tree_node} (h : keysSplit t = true) (k : String)
    (hk : k.data.contains '/' = false) {c : tree_node} (hc : keysSplit c = true) (s : Nat) :
    keysSplit (tree_node.mk s (childs_put k c t.childs)) = true := by
  refine (keysSplit_mk_iff _ _).mpr ?_
  intro k' c' hm
  rcases mem_childs_put hm with e | hm
  · cases e
    exact ⟨hk, hc⟩
  · exact (keysSplit_iff t).mp h k' c' hm

theorem keysSplit_erase_childs {t : tree_node} (h : keysSplit t = true) (k : String) (s : Nat) :
    keysSplit (tree_node.mk s (childs_erase k t.childs)) = true :=
  (keysSplit_mk_iff _ _).mpr (fun k' c' hm => (keysSplit_iff t).mp h k' c' (mem_childs_erase hm))

theorem keysSplit_of_childs_eq {t : tree_node} (h : keysSplit t = true) (s : Nat) :
    keysSplit (tree_node.mk s t.childs) = true :=
  (keysSplit_mk_iff _ _).mpr ((keysSplit_iff t).mp h)

theorem keysSplit_find {t n : tree_node} {p : Path} (h : keysSplit t = true)
    (hn : tree_node.find t p = some n) : keysSplit n = true := by
  induction p generalizing t with
  | last a => exact (keysSplit_child h hn).2
  | cons a b ih =>
    simp only [tree_node.find] at hn
    cases hc : childs_find a t.childs with
    | none => simp [hc] at hn
    | some c =>
      simp only [hc] at hn
      exact ih (keysSplit_child h hc).2 hn

theorem keysSplit_insert {t : tree_node} (h : keysSplit t = true) (p : Path)
    (hp : Path.slashFree p = true) : keysSplit (tree_node.insert t p) = true := by
  induction p generalizing t with
  | last a =>
    simp only [Path.slashFree, Bool.not_eq_true'] at hp
    simp only [tree_node.insert]
    cases hc : childs_find a t.childs with
    | none => exact keysSplit_put h a hp keysSplit_empty _
    | some c => exact h
  | cons a b ih =>
    simp only [Path.slashFree, Bool.and_eq_true, Bool.not_eq_true'] at hp
    simp only [tree_node.insert]
    cases hc : childs_find a t.childs with
    | none => exact keysSplit_put h a hp.1 (ih keysSplit_empty hp.2) _
    | some c => exact keysSplit_put h a hp.1 (ih (keysSplit_child h hc).2 hp.2) _

theorem keysSplit_update {f : tree_node → tree_node}
    (hf : ∀ x, keysSplit x = true → keysSplit (f x) = true)
    {t : tree_node} (h : keysSplit t = true) (p : Path) :
    keysSplit (tree_node.update f t p) = true := by
  induction p generalizing t with
  | last a =>
    simp only [tree_node.update]
    cases hc : childs_find a t.childs with
    | none => exact h
    | some c => exact keysSplit_put h a (keysSplit_child h hc).1 (hf c (keysSplit_child h hc).2) _
  | cons a b ih =>
    simp only [tree_node.update]
    cases hc : childs_find a t.childs with
    | none => exact h
    | some c => exact keysSplit_put h a (keysSplit_child h hc).1 (ih (keysSplit_child h hc).2) _

theorem keysSplit_erase {t : tree_node} (h : keysSplit t = true) (p : Path) :
    keysSplit (tree_node.erase t p).2 = true := by
  induction p generalizing t with
  | last a =>
    cases hc : childs_find a t.childs with
    | none =>
      simp only [tree_node.erase, hc]
      exact h
    | some c =>
      simp only [tree_node.erase, hc]
      by_cases he : c.childs.isEmpty = true
      · rw [if_pos he]
        exact keysSplit_erase_childs h a _
      · rw [if_neg he]
        exact keysSplit_put h a (keysSplit_child h hc).1
          (keysSplit_of_childs_eq (keysSplit_child h hc).2 0) _
  | cons a b ih =>
    cases hc : childs_find a t.childs with
    | none =>
      simp only [tree_node.erase, hc]
      exact h
    | some c =>
      simp only [tree_node.erase, hc]
      by_cases he : (tree_node.erase c b).2.status = 0 ∧
          (tree_node.erase c b).2.childs.isEmpty = true
      · rw [if_pos he]
        exact keysSplit_erase_childs h a _
      · rw [if_neg he]
        exact keysSplit_put h a (keysSplit_child h hc).1 (ih (keysSplit_child h hc).2) _

theorem keysSplit_rename {t : tree_node} (hw : keysSplit t = true) (o n : Path)
    (hn : Path.slashFree n = true) : keysSplit (tree_node.rename t o n).2 = true := by
  unfold tree_node.rename
  cases tree_node.find t o with
  | none => exact hw
  | some oo0 =>
    cases tree_node.find t n with
    | some nn0 => exact hw
    | none =>
      have h1 := keysSplit_insert hw n hn
      simp only []
      cases ho1 : tree_node.find (tree_node.insert t n) o with
      | none => exact h1
      | some oo =>
        cases hn1 : tree_node.find (tree_node.insert t n) n with
        | none => exact h1
        | some nn =>
          simp only []
          refine keysSplit_erase (keysSplit_update (f := fun x => tree_node.mk x.status nn.childs) ?_
            (keysSplit_update (f := fun _ => tree_node.mk oo.status oo.childs) ?_ h1 n) o) o
          · intro x _
            exact keysSplit_of_childs_eq (keysSplit_find h1 hn1) _
          · intro x _
            exact keysSplit_of_childs_eq (keysSplit_find h1 ho1) _

theorem keysSplit_created {files : tree_node} (hw : keysSplit files = true) (name : String) :
    keysSplit (StreamProcessor.created files name) = true := by
  unfold StreamProcessor.created
  cases tree_node.find files (Path.parse name) with
  | none =>
    exact keysSplit_update (fun x hx => keysSplit_of_childs_eq hx _)
      (keysSplit_insert hw _ (Path.slashFree_parse name)) _
  | some n => exact keysSplit_update (fun x hx => keysSplit_of_childs_eq hx _) hw _

theorem keysSplit_deleted {files : tree_node} (hw : keysSplit files = true) (name : String) :
    keysSplit (StreamProcessor.deleted files name) = true := by
  unfold StreamProcessor.deleted
  cases tree_node.find files (Path.parse name) with
  | none =>
    exact keysSplit_update (fun x hx => keysSplit_of_childs_eq hx _)
      (keysSplit_insert hw _ (Path.slashFree_parse name)) _
  | some n => exact keysSplit_erase hw _

theorem keysSplit_touch {files : tree_node} (hw : keysSplit files = true) (path : String)
    (flags : Nat) : keysSplit (touch files path flags) = true := by
  unfold touch
  exact keysSplit_update (fun x hx => keysSplit_of_childs_eq hx _)
    (keysSplit_insert hw _ (Path.slashFree_parse path)) _

theorem keysSplit_mergeEntry {files : tree_node} (hw : keysSplit files = true)
    (dst pre k : String) (c : tree_node) :
    keysSplit (mergeEntry files dst pre k c).2 = true := by
  unfold mergeEntry
  simp only []
  split
  · exact keysSplit_update (fun x hx => keysSplit_of_childs_eq hx _)
      (keysSplit_insert hw _ (Path.slashFree_parse _)) _
  · exact keysSplit_update (fun x hx => keysSplit_of_childs_eq hx _) hw _

mutual

theorem keysSplit_merge : ∀ (tmp files : tree_node) (dst pre : String),
    keysSplit files = true → keysSplit (merge files tmp dst pre) = true
  | tree_node.mk _ cs, files, dst, pre, hf => by
    unfold merge
    exact keysSplit_mergeChilds cs files dst pre hf

theorem keysSplit_mergeChilds : ∀ (cs : List (String × tree_node)) (files : tree_node)
    (dst pre : String),
    keysSplit files = true → keysSplit (merge.mergeChilds files cs dst pre) = true
  | [], files, _, _, hf => by
    unfold merge.mergeChilds
    exact hf
  | (k, c) :: rest, files, dst, pre, hf => by
    unfold merge.mergeChilds
    exact keysSplit_mergeChilds rest _ dst pre
      (keysSplit_merge c _ dst _ (keysSplit_mergeEntry hf dst pre k c))

end

theorem keysSplit_process_rename {t : tree_node} (h : keysSplit t = true)
    (entries : List String) (src dst : String) :
    keysSplit (process_rename t entries src dst) = true := by
  unfold process_rename
  cases h1 : tree_node.find t (Path.parse src) with
  | none =>
    simp only []
    have step : ∀ (es : List String) (fs : tree_node), keysSplit fs = true →
        keysSplit (es.foldl
          (fun fs e => StreamProcessor.created (StreamProcessor.deleted fs (src ++ "/" ++ e))
            (dst ++ "/" ++ e)) fs) = true := by
      intro es
      induction es with
      | nil => intro fs hfs; exact hfs
      | cons e es ih =>
        intro fs hfs
        exact ih _ (keysSplit_created (keysSplit_deleted hfs _) _)
    exact step entries _ (keysSplit_created (keysSplit_deleted h _) _)
  | some it1 =>
    cases h2 : tree_node.find t (Path.parse dst) with
    | none => exact keysSplit_rename h _ _ (Path.slashFree_parse dst)
    | some it2 =>
      simp only []
      refine keysSplit_merge _ _ dst "" (keysSplit_created (keysSplit_deleted ?_ _) _)
      exact keysSplit_update (fun x _ => keysSplit_mk_nil _) h _

theorem keysSplit_process (env : Env) {t : tree_node} (h : keysSplit t = true) (op : Op) :
    keysSplit (process env t op) = true := by
  cases op with
  | subvol path => exact h
  | snapshot path => exact h
  | mkfile path => exact keysSplit_created h _
  | mkdir path => exact keysSplit_created h _
  | mknod path => exact h
  | mkfifo path => exact h
  | mksock path => exact h
  | symlink path lnk => exact keysSplit_created h _
  | rename src dst => exact keysSplit_process_rename h _ _ _
  | link path lnk => exact keysSplit_created h _
  | unlink path => exact keysSplit_deleted h _
  | rmdir path => exact keysSplit_deleted h _
  | write path => exact keysSplit_touch h _ _
  | clone path => exact keysSplit_touch h _ _
  | set_xattr path name =>
    simp only [process]
    split
    · exact keysSplit_touch h _ _
    · exact h
  | remove_xattr path name =>
    simp only [process]
    split
    · exact keysSplit_touch h _ _
    · exact h
  | truncate path => exact keysSplit_touch h _ _
  | chmod path => exact keysSplit_touch h _ _
  | chown path => exact keysSplit_touch h _ _
  | utimes path => exact h
  | update_extent path => exact keysSplit_touch h _ _

/-- No key of a tree the callbacks build contains a `'/'`: the hypothesis `keysSplit` holds
for every tree a stream produces. -/
theorem keysSplit_processAll (env : Env) (ops : List Op) {t : tree_node}
    (h : keysSplit t = true) : keysSplit (processAll env t ops) = true := by
  induction ops generalizing t with
  | nil => exact h
  | cons op ops ih => exact ih (keysSplit_process env h op)

/-! ## `merge` outside the destination -/

theorem Path.append_assoc (p a b : Path) : (p.append a).append b = p.append (a.append b) := by
  induction p with
  | last k => rfl
  | cons k p ih => simp only [Path.append, ih]

/-- A path above `p + "/" + r` is `p`, above `p` or beneath `p`. -/
theorem Path.beneath_append_cases {q p : Path} (r : Path)
    (h : Path.beneath q (p.append r) = true) :
    q = p ∨ Path.beneath q p = true ∨ Path.beneath p q = true := by
  induction p generalizing q with
  | last a =>
    cases q with
    | last b =>
      simp only [Path.append, Path.beneath, beq_iff_eq] at h
      exact Or.inl (by rw [h])
    | cons b q' =>
      simp only [Path.append, Path.beneath, Bool.and_eq_true, beq_iff_eq] at h
      refine Or.inr (Or.inr ?_)
      simp only [Path.beneath, beq_iff_eq, h.1]
  | cons a p' ih =>
    cases q with
    | last b =>
      simp only [Path.append, Path.beneath, beq_iff_eq] at h
      refine Or.inr (Or.inl ?_)
      simp only [Path.beneath, beq_iff_eq, h]
    | cons b q' =>
      simp only [Path.append, Path.beneath, Bool.and_eq_true, beq_iff_eq] at h
      rcases ih h.2 with e | e | e
      · exact Or.inl (by rw [h.1, e])
      · refine Or.inr (Or.inl ?_)
        simp only [Path.beneath, Bool.and_eq_true, beq_iff_eq]
        exact ⟨h.1, e⟩
      · refine Or.inr (Or.inr ?_)
        simp only [Path.beneath, Bool.and_eq_true, beq_iff_eq]
        exact ⟨h.1.symm, e⟩

/-- The path `x` that `merge` builds for an entry lies beneath `to`. -/
theorem mergeEntry_path (dst pre k : String) :
    ∃ r : Path, Path.parse (if pre = "" then dst ++ "/" ++ k else dst ++ "/" ++ pre ++ "/" ++ k)
      = (Path.parse dst).append r := by
  by_cases hp : pre = ""
  · exact ⟨Path.parse k, by rw [if_pos hp, Path.parse_append]⟩
  · exact ⟨(Path.parse pre).append (Path.parse k), by
      rw [if_neg hp, Path.parse_append, Path.parse_append, Path.append_assoc]⟩

theorem isSome_find_of_statusAt_eq {a b : tree_node} {p : Path}
    (h : statusAt a p = statusAt b p) (hb : (tree_node.find b p).isSome = true) :
    (tree_node.find a p).isSome = true := by
  unfold statusAt at h
  cases ha : tree_node.find a p with
  | some x => rfl
  | none =>
    cases hb' : tree_node.find b p with
    | none => simp [hb'] at hb
    | some y => simp [ha, hb'] at h

/-- One upsert of `merge` changes no status outside the subtree beneath `to`. -/
theorem statusAt_mergeEntry_off {files : tree_node} (dst pre k : String) (c : tree_node)
    (hd : (tree_node.find files (Path.parse dst)).isSome = true) (q : Path)
    (hq : Path.beneath (Path.parse dst) q = false) :
    statusAt (mergeEntry files dst pre k c).2 q = statusAt files q := by
  obtain ⟨r, hr⟩ := mergeEntry_path dst pre k
  unfold mergeEntry
  simp only []
  rw [hr]
  have hne : q ≠ (Path.parse dst).append r := by
    intro e
    rw [e, Path.beneath_append] at hq
    exact Bool.noConfusion hq
  split
  · show statusAt (tree_node.update (fun y => tree_node.mk c.status y.childs)
      (tree_node.insert files ((Path.parse dst).append r)) ((Path.parse dst).append r)) q = _
    rw [statusAt_update (fun y => tree_node.mk c.status y.childs) (fun _ => rfl) _ _ _ hne,
      statusAt_insert]
    cases hs : statusAt files q with
    | some s => rfl
    | none =>
      have hnone : tree_node.find files q = none := by
        unfold statusAt at hs
        cases hf : tree_node.find files q with
        | none => rfl
        | some x => simp [hf] at hs
      have : ¬ (q = (Path.parse dst).append r ∨
          Path.beneath q ((Path.parse dst).append r) = true) := by
        rintro (e | e)
        · exact hne e
        · rcases Path.beneath_append_cases r e with e1 | e1 | e1
          · rw [e1] at hnone
            rw [hnone] at hd
            exact Bool.noConfusion hd
          · have := find_isSome_of_beneath e1 hd
            rw [hnone] at this
            exact Bool.noConfusion this
          · rw [e1] at hq
            exact Bool.noConfusion hq
      simp only [this, if_false]
  · exact statusAt_update (fun y => tree_node.mk (touched y.status) y.childs) (fun _ => rfl)
      _ _ _ hne

mutual

/-- The function `merge` changes no status outside the subtree beneath `to`. -/
theorem statusAt_merge_off : ∀ (tmp files : tree_node) (dst pre : String),
    (tree_node.find files (Path.parse dst)).isSome = true →
    ∀ q : Path, Path.beneath (Path.parse dst) q = false →
      statusAt (merge files tmp dst pre) q = statusAt files q
  | tree_node.mk _ cs, files, dst, pre, hd, q, hq => by
    unfold merge
    exact statusAt_mergeChilds_off cs files dst pre hd q hq

theorem statusAt_mergeChilds_off : ∀ (cs : List (String × tree_node)) (files : tree_node)
    (dst pre : String),
    (tree_node.find files (Path.parse dst)).isSome = true →
    ∀ q : Path, Path.beneath (Path.parse dst) q = false →
      statusAt (merge.mergeChilds files cs dst pre) q = statusAt files q
  | [], files, _, _, _, _, _ => by
    unfold merge.mergeChilds
    rfl
  | (k, c) :: rest, files, dst, pre, hd, q, hq => by
    unfold merge.mergeChilds
    have hd1 : (tree_node.find (mergeEntry files dst pre k c).2 (Path.parse dst)).isSome = true :=
      isSome_find_of_statusAt_eq
        (statusAt_mergeEntry_off dst pre k c hd _ (Path.beneath_irrefl _)) hd
    have hd2 : (tree_node.find (merge (mergeEntry files dst pre k c).2 c dst
        (mergeEntry files dst pre k c).1) (Path.parse dst)).isSome = true :=
      isSome_find_of_statusAt_eq
        (statusAt_merge_off c _ dst _ hd1 _ (Path.beneath_irrefl _)) hd1
    simp only []
    rw [statusAt_mergeChilds_off rest _ dst pre hd2 q hq,
      statusAt_merge_off c _ dst _ hd1 q hq,
      statusAt_mergeEntry_off dst pre k c hd q hq]

end

/-- The part of the rename of a present source onto a present destination that holds on the
code: afterwards `find(from)` fails, and the status of `to` is its old status with `CREATED`
and `DELETED` cleared, united with the six attribute flags. -/
theorem rename_both_present {files it1 it2 : tree_node} (entries : List String)
    {src dst : String} (hw : tree_node.WF files = true)
    (h1 : tree_node.find files (Path.parse src) = some it1)
    (h2 : tree_node.find files (Path.parse dst) = some it2)
    (hne : Path.parse src ≠ Path.parse dst)
    (hb1 : Path.beneath (Path.parse src) (Path.parse dst) = false)
    (hb2 : Path.beneath (Path.parse dst) (Path.parse src) = false) :
    tree_node.find (process_rename files entries src dst) (Path.parse src) = none ∧
      statusAt (process_rename files entries src dst) (Path.parse dst)
        = some (touched it2.status) := by
  have hfin : process_rename files entries src dst
      = merge (StreamProcessor.created (StreamProcessor.deleted
          (tree_node.update (fun x => tree_node.mk x.status []) files (Path.parse src)) src) dst)
          (tree_node.mk 0 it1.childs) dst "" := by
    unfold process_rename
    simp only [h1, h2]
  rw [hfin]
  have hw1 : tree_node.WF (tree_node.update (fun x => tree_node.mk x.status []) files
      (Path.parse src)) = true :=
    WF_update (f := fun x => tree_node.mk x.status []) (fun x _ => rfl) hw _
  have f1s : tree_node.find (tree_node.update (fun x => tree_node.mk x.status []) files
      (Path.parse src)) (Path.parse src) = some (tree_node.mk it1.status []) := by
    rw [find_update_self, h1]
    rfl
  have f1d : tree_node.find (tree_node.update (fun x => tree_node.mk x.status []) files
      (Path.parse src)) (Path.parse dst) = some it2 := by
    rw [find_update_off _ _ _ _ (Ne.symm hne) hb2 hb1, h2]
  have e2 : StreamProcessor.deleted (tree_node.update (fun x => tree_node.mk x.status []) files
      (Path.parse src)) src
      = (tree_node.erase (tree_node.update (fun x => tree_node.mk x.status []) files
          (Path.parse src)) (Path.parse src)).2 := by
    unfold StreamProcessor.deleted
    rw [f1s]
  have f2s := find_erase_self_leaf hw1 f1s rfl
  have f2d := find_erase_off hw1 (Path.parse src) (Path.parse dst) (Ne.symm hne) hb2 hb1
  rw [f1d] at f2d
  rw [← e2] at f2s f2d
  generalize StreamProcessor.deleted (tree_node.update (fun x => tree_node.mk x.status []) files
      (Path.parse src)) src = files2 at f2s f2d ⊢
  have e3 : StreamProcessor.created files2 dst
      = tree_node.update (fun x => tree_node.mk (touched x.status) x.childs) files2
          (Path.parse dst) := by
    unfold StreamProcessor.created
    rw [f2d]
  have f3d : tree_node.find (StreamProcessor.created files2 dst) (Path.parse dst)
      = some (tree_node.mk (touched it2.status) it2.childs) := by
    rw [e3, find_update_self, f2d]
    rfl
  have f3s : tree_node.find (StreamProcessor.created files2 dst) (Path.parse src) = none := by
    rw [e3, find_update_off _ _ _ _ hne hb1 hb2, f2s]
  have hd : (tree_node.find (StreamProcessor.created files2 dst) (Path.parse dst)).isSome
      = true := by rw [f3d]; rfl
  constructor
  · have h := statusAt_merge_off (tree_node.mk 0 it1.childs) _ dst "" hd (Path.parse src) hb2
    unfold statusAt at h
    rw [f3s] at h
    cases hf : tree_node.find (merge (StreamProcessor.created files2 dst)
        (tree_node.mk 0 it1.childs) dst "") (Path.parse src) with
    | none => rfl
    | some x => simp [hf] at h
  · rw [statusAt_merge_off (tree_node.mk 0 it1.childs) _ dst "" hd (Path.parse dst)
      (Path.beneath_irrefl _)]
    unfold statusAt
    rw [f3d]
    rfl

/-! ## The send pipeline and the driver -/

theorem processAll_append (env : Env) (files : tree_node) (a b : List Op) :
    processAll env files (a ++ b) = processAll env (processAll env files a) b := by
  unfold processAll
  exact List.foldl_append _ _ _ _

/-- The loop of `dumper` ends at the first call of the parser that returns a non-zero value:
with `k` zero results before it, `k + 1` passes suffice, the flag tells whether the value is
positive, and `files` has seen the commands of all the calls. -/
theorem dumper_eq (c : Core) : ∀ (k i fuel : Nat) (files : tree_node),
    (∀ j, j < k → (c.parser (i + j)).2 = 0) → (c.parser (i + k)).2 ≠ 0 → k < fuel →
    Core.dumper c fuel i files
      = some (decide (0 < (c.parser (i + k)).2), processAll c.env files (Core.commands c i k)) := by
  intro k
  induction k with
  | zero =>
    intro i fuel files _ hk hf
    obtain ⟨f, rfl⟩ : ∃ f, fuel = f + 1 := ⟨fuel - 1, by omega⟩
    simp only [Nat.add_zero] at hk
    simp only [Core.dumper, Core.commands, Nat.add_zero]
    by_cases hneg : (c.parser i).2 < 0
    · have : ¬ (0 < (c.parser i).2) := by omega
      simp only [hneg, if_true, this, decide_False]
    · have : 0 < (c.parser i).2 := by omega
      simp only [hneg, if_false, hk, ne_eq, not_false_eq_true, if_true, this, decide_True]
  | succ k ih =>
    intro i fuel files h0 hk hf
    obtain ⟨f, rfl⟩ : ∃ f, fuel = f + 1 := ⟨fuel - 1, by omega⟩
    have hz : (c.parser i).2 = 0 := by simpa using h0 0 (Nat.succ_pos k)
    have e : i + (k + 1) = i + 1 + k := by omega
    simp only [Core.dumper, Core.commands, hz, lt_self_iff_false, if_false, ne_eq,
      not_true_eq_false, processAll_append]
    rw [ih (i + 1) f _ (fun j hj => by
      have := h0 (j + 1) (by omega)
      rwa [show i + (j + 1) = i + 1 + j by omega] at this) (by rwa [e] at hk) (by omega), e]

/-- The value of `do_send` when the parser returns its first non-zero value at call `n`. -/
theorem do_send_eq (c : Core) (n fuel : Nat) (files : tree_node)
    (h0 : ∀ j, j < n → (c.parser j).2 = 0) (hn : (c.parser n).2 ≠ 0) (hf : n < fuel) :
    Core.do_send c fuel files =
      some (if c.pipe < 0 ∨ c.ioctl < 0 ∨ ¬ 0 < (c.parser n).2
        then Except.error Exn.BtrfsSendReceiveException
        else Except.ok (processAll c.env files (Core.commands c 0 n))) := by
  unfold Core.do_send
  by_cases hp : c.pipe < 0
  · simp only [hp, if_true, true_or]
  · rw [if_neg hp, dumper_eq c n 0 fuel files (fun j hj => by simpa using h0 j hj)
      (by simpa using hn) hf]
    simp only [Nat.zero_add, hp, false_or, decide_eq_false_iff_not]
    by_cases hi : c.ioctl < 0
    · simp only [hi, true_or, if_true]
    · simp only [hi, false_or]
      split <;> rfl

theorem process_eq (c : Core) (n fuel : Nat)
    (h0 : ∀ j, j < n → (c.parser j).2 = 0) (hn : (c.parser n).2 ≠ 0) (hf : n < fuel) :
    Core.process c fuel = some
      (match c.ro1 with
      | none => ⟨[], some Exn.IOErrorException⟩
      | some false => ⟨[], some Exn.BtrfsSendReceiveException⟩
      | some true =>
        match c.ro2 with
        | none => ⟨[], some Exn.IOErrorException⟩
        | some false => ⟨[], some Exn.BtrfsSendReceiveException⟩
        | some true =>
          if c.root_id = false ∨ c.pipe < 0 ∨ c.ioctl < 0 ∨ ¬ 0 < (c.parser n).2 then
            ⟨[], some Exn.BtrfsSendReceiveException⟩
          else
            match tree_node.check c.cmpFiles
                (processAll c.env tree_node.empty (Core.commands c 0 n)) "" with
            | none => ⟨[], some Exn.IOErrorException⟩
            | some r => ⟨tree_node.result r.2 "", none⟩) := by
  unfold Core.process
  rw [do_send_eq c n fuel _ h0 hn hf]
  cases c.ro1 with
  | none => rfl
  | some b1 =>
    cases b1 with
    | false => rfl
    | true =>
      cases c.ro2 with
      | none => rfl
      | some b2 =>
        cases b2 with
        | false => rfl
        | true =>
          simp only []
          cases c.root_id with
          | false => simp
          | true =>
            by_cases hx : c.pipe < 0 ∨ c.ioctl < 0 ∨ ¬ 0 < (c.parser n).2
            · simp only [Bool.true_eq_false, false_or, if_pos hx, if_false]
            · simp only [Bool.true_eq_false, false_or, if_neg hx, if_false]
              cases tree_node.check c.cmpFiles
                (processAll c.env tree_node.empty (Core.commands c 0 n)) "" <;> rfl

theorem cmpDirs_of_raised {c : Core} {fuel : Nat} {core : Outcome} (fallback : Outcome)
    (h : Core.cmpDirs_try c fuel = some core) (hc : core.calls = []) {e : Exn}
    (he : core.raised = some e) (hs : e.isSnapperException = true) :
    Core.cmpDirs c fallback fuel = some (true, fallback) := by
  unfold Core.cmpDirs
  rw [h]
  simp only [he, hs, if_true, hc, List.nil_append]

theorem cmpDirs_of_ok {c : Core} {fuel : Nat} {core : Outcome} (fallback : Outcome)
    (h : Core.cmpDirs_try c fuel = some core) (he : core.raised = none) :
    Core.cmpDirs c fallback fuel = some (false, core) := by
  unfold Core.cmpDirs
  rw [h]
  simp only [he]

/-- The `try` block of `cmpDirs` either raises a `SnapperException` without having invoked
the callback, or completes with the report of the checked tree. -/
theorem cmpDirs_try_cases (c : Core) (n fuel : Nat)
    (h0 : ∀ j, j < n → (c.parser j).2 = 0) (hn : (c.parser n).2 ≠ 0) (hf : n < fuel) :
    (∃ e, Core.cmpDirs_try c fuel = some ⟨[], some e⟩ ∧ e.isSnapperException = true ∧
        ¬ (c.subvolume = true ∧ 0 ≤ c.search_init ∧ c.ro1 = some true ∧ c.ro2 = some true ∧
          c.root_id = true ∧ 0 ≤ c.pipe ∧ 0 ≤ c.ioctl ∧ 0 < (c.parser n).2 ∧
          (tree_node.check c.cmpFiles
            (processAll c.env tree_node.empty (Core.commands c 0 n)) "").isSome = true)) ∨
      (∃ r, tree_node.check c.cmpFiles
            (processAll c.env tree_node.empty (Core.commands c 0 n)) "" = some r ∧
          Core.cmpDirs_try c fuel = some ⟨tree_node.result r.2 "", none⟩ ∧
          c.subvolume = true ∧ 0 ≤ c.search_init ∧ c.ro1 = some true ∧ c.ro2 = some true ∧
          c.root_id = true ∧ 0 ≤ c.pipe ∧ 0 ≤ c.ioctl ∧ 0 < (c.parser n).2) := by
  unfold Core.cmpDirs_try
  by_cases hsub : c.subvolume = false
  · exact Or.inl ⟨Exn.IOErrorException, by simp only [hsub, if_true], rfl,
      fun h => by simp [hsub] at h⟩
  rw [if_neg hsub]
  by_cases hinit : c.search_init < 0
  · exact Or.inl ⟨Exn.BtrfsSendReceiveException, by simp only [hinit, if_true], rfl,
      fun h => by omega⟩
  rw [if_neg hinit, process_eq c n fuel h0 hn hf]
  have hsub' : c.subvolume = true := by simpa using hsub
  cases h1 : c.ro1 with
  | none => exact Or.inl ⟨Exn.IOErrorException, rfl, rfl, fun h => by simp at h⟩
  | some b1 =>
    cases b1 with
    | false => exact Or.inl ⟨Exn.BtrfsSendReceiveException, rfl, rfl, fun h => by simp at h⟩
    | true =>
      cases h2 : c.ro2 with
      | none => exact Or.inl ⟨Exn.IOErrorException, rfl, rfl, fun h => by simp at h⟩
      | some b2 =>
        cases b2 with
        | false =>
          exact Or.inl ⟨Exn.BtrfsSendReceiveException, rfl, rfl, fun h => by simp at h⟩
        | true =>
          simp only []
          by_cases hx : c.root_id = false ∨ c.pipe < 0 ∨ c.ioctl < 0 ∨ ¬ 0 < (c.parser n).2
          · refine Or.inl ⟨Exn.BtrfsSendReceiveException, by rw [if_pos hx], rfl, ?_⟩
            rintro ⟨_, _, _, _, h5, h6, h7, h8, _⟩
            rcases hx with hx | hx | hx | hx
            · rw [h5] at hx
              exact Bool.noConfusion hx
            · omega
            · omega
            · exact hx h8
          · rw [if_neg hx]
            have hx' : c.root_id = true ∧ 0 ≤ c.pipe ∧ 0 ≤ c.ioctl ∧ 0 < (c.parser n).2 := by
              refine ⟨?_, ?_, ?_, ?_⟩
              · cases hroot : c.root_id with
                | true => rfl
                | false => exact absurd (Or.inl hroot) hx
              · by_contra hp
                exact hx (Or.inr (Or.inl (by omega)))
              · by_contra hp
                exact hx (Or.inr (Or.inr (Or.inl (by omega))))
              · by_contra hp
                exact hx (Or.inr (Or.inr (Or.inr hp)))
            cases hchk : tree_node.check c.cmpFiles
                (processAll c.env tree_node.empty (Core.commands c 0 n)) "" with
            | none =>
              exact Or.inl ⟨Exn.IOErrorException, rfl, rfl, fun h => by simp at h⟩
            | some r =>
              exact Or.inr ⟨r, rfl, rfl, hsub', by omega, trivial, trivial, hx'.1, hx'.2.1, hx'.2.2.1,
                hx'.2.2.2⟩

/-! ## The attribute callbacks commute -/

/-- The status at every path after an attribute callback. -/
theorem statusAt_touch (t : tree_node) (path : String) (flags : Nat) (r : Path) :
    statusAt (touch t path flags) r =
      if r = Path.parse path then some ((statusAt t r).getD 0 ||| flags)
      else match statusAt t r with
        | some s => some s
        | none => if Path.beneath r (Path.parse path) = true then some 0 else none := by
  obtain ⟨_, h2, h3⟩ := orsFlags_touch t path flags
  by_cases hr : r = Path.parse path
  · simp only [hr, if_true]
    simp only [] at h2
    unfold statusAt
    rw [h2]
    cases tree_node.find t (Path.parse path) <;> rfl
  · rw [if_neg hr]
    exact h3 r hr

theorem tree_eq_of_statusAt_all {t1 t2 : tree_node} (hw1 : tree_node.WF t1 = true)
    (hw2 : tree_node.WF t2 = true) (hst : t1.status = t2.status)
    (hs : ∀ q, statusAt t1 q = statusAt t2 q) : t1 = t2 := by
  have hch := childs_eq_of_statusAt_all t1 t2 hw1 hw2 hs
  cases t1
  cases t2
  simp only [tree_node.status_mk, tree_node.childs_mk] at hst hch
  rw [hst, hch]

/-- Two attribute callbacks give the same tree in either order. -/
theorem touch_comm {t : tree_node} (hw : tree_node.WF t = true) (p q : String) (F G : Nat) :
    touch (touch t p F) q G = touch (touch t q G) p F := by
  refine tree_eq_of_statusAt_all (WF_touch (WF_touch hw _ _) _ _) (WF_touch (WF_touch hw _ _) _ _)
    (by simp only [touch_status]) ?_
  intro r
  simp only [statusAt_touch]
  generalize Path.parse p = P
  generalize Path.parse q = Q
  by_cases hp : r = P <;> by_cases hq : r = Q
  · subst hp
    subst hq
    simp only [if_true, Option.getD_some, Nat.lor_assoc, Nat.lor_comm F G]
  · subst hp
    have hq2 : ¬ Q = r := fun e => hq e.symm
    cases h : statusAt t r with
    | some s => simp [hq, h]
    | none =>
      by_cases hb : Path.beneath r Q = true <;> simp [hq, h, hb]
  · subst hq
    cases h : statusAt t r with
    | some s => simp [hp, h]
    | none =>
      by_cases hb : Path.beneath r P = true <;> simp [hp, h, hb]
  · simp only [hp, hq, if_false]
    cases statusAt t r with
    | some s => rfl
    | none =>
      by_cases hb : Path.beneath r P = true <;>
        by_cases hb2 : Path.beneath r Q = true <;> simp [hb, hb2]

/-- An attribute callback applied a second time changes nothing. -/
theorem touch_idem {t : tree_node} (hw : tree_node.WF t = true) (p : String) (F : Nat) :
    touch (touch t p F) p F = touch t p F := by
  refine tree_eq_of_statusAt_all (WF_touch (WF_touch hw _ _) _ _) (WF_touch hw _ _)
    (by simp only [touch_status]) ?_
  intro r
  simp only [statusAt_touch]
  generalize Path.parse p = P
  by_cases hp : r = P
  · subst hp
    simp only [if_true, Option.getD_some, Nat.lor_assoc, Nat.or_self]
  · simp only [hp, if_false]
    cases statusAt t r with
    | some s => rfl
    | none =>
      by_cases hb : Path.beneath r P = true <;> simp [hb]

/-! ## Paths a stream touches through attribute callbacks only -/

theorem framed_refl (a : Option Nat) : framed a a := Or.inl rfl

theorem framed_trans {a b c : Option Nat} (h1 : framed a b) (h2 : framed b c) : framed a c := by
  unfold framed at *
  rcases h2 with h | h | h
  · rw [h]
    exact h1
  · exact Or.inr (Or.inl h)
  · exact Or.inr (Or.inr h)

theorem attrOnlyAt_of_framed {t t2 : tree_node} {p : Path}
    (h : framed (statusAt t p) (statusAt t2 p)) (ha : attrOnlyAt t p) : attrOnlyAt t2 p := by
  intro s hs
  rcases h with h | h | h
  · exact ha s (by rw [← h]; exact hs)
  · rw [h] at hs
    cases hs
    rfl
  · rw [h] at hs
    cases hs

theorem Path.within_false {q p : Path} (h : Path.within q p = false) :
    p ≠ q ∧ Path.beneath q p = false := by
  simpa [Path.within] using h

theorem Path.beneath_of_beneath_append {a b p : Path}
    (h : Path.beneath (a.append b) p = true) : Path.beneath a p = true := by
  obtain ⟨r, rfl⟩ := Path.exists_append_of_beneath h
  rw [Path.append_assoc]
  exact Path.beneath_append _ _

theorem Path.within_append_false {a p : Path} (b : Path) (h : Path.within a p = false) :
    Path.within (a.append b) p = false := by
  obtain ⟨h1, h2⟩ := Path.within_false h
  cases hw : Path.within (a.append b) p with
  | false => rfl
  | true =>
    simp only [Path.within, Bool.or_eq_true, decide_eq_true_eq] at hw
    rcases hw with hw | hw
    · rw [hw, Path.beneath_append] at h2
      exact Bool.noConfusion h2
    · rw [Path.beneath_of_beneath_append hw] at h2
      exact Bool.noConfusion h2

theorem framed_insert (t : tree_node) (q p : Path) :
    framed (statusAt t p) (statusAt (tree_node.insert t q) p) := by
  rw [statusAt_insert]
  cases statusAt t p with
  | some s => exact Or.inl rfl
  | none =>
    simp only []
    split
    · exact Or.inr (Or.inl rfl)
    · exact Or.inl rfl

theorem framed_created (t : tree_node) (q : String) {p : Path} (h : p ≠ Path.parse q) :
    framed (statusAt t p) (statusAt (StreamProcessor.created t q) p) := by
  unfold StreamProcessor.created
  cases tree_node.find t (Path.parse q) with
  | none =>
    simp only []
    rw [statusAt_update (fun x => tree_node.mk CREATED x.childs) (fun _ => rfl) _ _ _ h]
    exact framed_insert t _ p
  | some n =>
    simp only []
    rw [statusAt_update (fun x => tree_node.mk (touched x.status) x.childs) (fun _ => rfl)
      _ _ _ h]
    exact framed_refl _

theorem framed_erase {t : tree_node} (hw : tree_node.WF t = true) {q p : Path}
    (h : Path.within q p = false) :
    framed (statusAt t p) (statusAt (tree_node.erase t q).2 p) := by
  obtain ⟨h1, h2⟩ := Path.within_false h
  rcases statusAt_erase_off hw q p h1 h2 with e | ⟨e, _⟩
  · exact Or.inl e
  · exact Or.inr (Or.inr e)

/-- Erasing a node leaves everything beneath it as it was. -/
theorem statusAt_erase_beneath {t n : tree_node} (hw : tree_node.WF t = true) {q p : Path}
    (hf : tree_node.find t q = some n) (hb : Path.beneath q p = true) :
    statusAt (tree_node.erase t q).2 p = statusAt t p := by
  obtain ⟨r, rfl⟩ := Path.exists_append_of_beneath hb
  unfold statusAt
  rw [find_append, find_append, hf]
  by_cases hn : n.childs = []
  · rw [find_erase_self_leaf hw hf hn]
    show Option.map tree_node.status none = Option.map tree_node.status (tree_node.find n r)
    rw [find_of_childs_nil hn r]
  · rw [find_erase_self_inner hf hn]
    show Option.map tree_node.status (tree_node.find (tree_node.mk 0 n.childs) r)
      = Option.map tree_node.status (tree_node.find n r)
    rw [@find_congr_childs (tree_node.mk 0 n.childs) n rfl r]

theorem framed_deleted {t : tree_node} (hw : tree_node.WF t = true) (q : String) {p : Path}
    (h : p ≠ Path.parse q) :
    framed (statusAt t p) (statusAt (StreamProcessor.deleted t q) p) := by
  unfold StreamProcessor.deleted
  cases hf : tree_node.find t (Path.parse q) with
  | none =>
    simp only []
    rw [statusAt_update (fun x => tree_node.mk DELETED x.childs) (fun _ => rfl) _ _ _ h]
    exact framed_insert t _ p
  | some n =>
    simp only []
    cases hb : Path.beneath (Path.parse q) p with
    | true => exact Or.inl (statusAt_erase_beneath hw hf hb)
    | false => exact framed_erase hw (by simp [Path.within, h, hb])

theorem framed_rename {t : tree_node} (hw : tree_node.WF t = true) {o n p : Path}
    (ho : Path.within o p = false) (hn : Path.within n p = false) :
    framed (statusAt t p) (statusAt (tree_node.rename t o n).2 p) := by
  obtain ⟨ho1, ho2⟩ := Path.within_false ho
  obtain ⟨hn1, hn2⟩ := Path.within_false hn
  unfold tree_node.rename
  cases tree_node.find t o with
  | none => exact framed_refl _
  | some oo0 =>
    cases tree_node.find t n with
    | some nn0 => exact framed_refl _
    | none =>
      have h1 := framed_insert t n p
      have hw1 := WF_insert hw n
      simp only []
      cases ho1' : tree_node.find (tree_node.insert t n) o with
      | none => exact h1
      | some oo =>
        cases hn1' : tree_node.find (tree_node.insert t n) n with
        | none => exact h1
        | some nn =>
          simp only []
          have hw3 : tree_node.WF (tree_node.update (fun x => tree_node.mk x.status nn.childs)
              (tree_node.update (fun _ => tree_node.mk oo.status oo.childs)
                (tree_node.insert t n) n) o) = true :=
            WF_update (f := fun x => tree_node.mk x.status nn.childs)
              (fun x _ => WF_of_childs_eq (WF_find hw1 hn1') _)
              (WF_update (f := fun _ => tree_node.mk oo.status oo.childs)
                (fun x _ => WF_of_childs_eq (WF_find hw1 ho1') _) hw1 n) o
          refine framed_trans ?_ (framed_erase hw3 ho)
          rw [statusAt_update_off _ _ _ _ ho1 ho2, statusAt_update_off _ _ _ _ hn1 hn2]
          exact h1

theorem framed_process_rename {t : tree_node} (hw : tree_node.WF t = true)
    (entries : List String) (src dst : String) {p : Path}
    (hs : Path.within (Path.parse src) p = false)
    (hd : Path.within (Path.parse dst) p = false) :
    framed (statusAt t p) (statusAt (process_rename t entries src dst) p) := by
  unfold process_rename
  cases h1 : tree_node.find t (Path.parse src) with
  | none =>
    simp only []
    have step : ∀ (es : List String) (fs : tree_node), tree_node.WF fs = true →
        framed (statusAt fs p) (statusAt (es.foldl
          (fun fs e => StreamProcessor.created (StreamProcessor.deleted fs (src ++ "/" ++ e))
            (dst ++ "/" ++ e)) fs) p) := by
      intro es
      induction es with
      | nil => intro fs _; exact framed_refl _
      | cons e es ih =>
        intro fs hfs
        have hse : Path.within (Path.parse (src ++ "/" ++ e)) p = false := by
          rw [Path.parse_append]
          exact Path.within_append_false _ hs
        have hde : Path.within (Path.parse (dst ++ "/" ++ e)) p = false := by
          rw [Path.parse_append]
          exact Path.within_append_false _ hd
        exact framed_trans
          (framed_trans (framed_deleted hfs _ (Path.within_false hse).1)
            (framed_created _ _ (Path.within_false hde).1))
          (ih _ (WF_created (WF_deleted hfs _) _))
    exact framed_trans
      (framed_trans (framed_deleted hw _ (Path.within_false hs).1)
        (framed_created _ _ (Path.within_false hd).1))
      (step entries _ (WF_created (WF_deleted hw _) _))
  | some it1 =>
    cases h2 : tree_node.find t (Path.parse dst) with
    | none => exact framed_rename hw hs hd
    | some it2 =>
      simp only []
      have hw1 : tree_node.WF (tree_node.update (fun x => tree_node.mk x.status []) t
          (Path.parse src)) = true :=
        WF_update (f := fun x => tree_node.mk x.status []) (fun x _ => rfl) hw _
      have hsome : (tree_node.find (StreamProcessor.created (StreamProcessor.deleted
          (tree_node.update (fun x => tree_node.mk x.status []) t (Path.parse src)) src) dst)
          (Path.parse dst)).isSome = true := by
        rw [find_created]
        rfl
      rw [statusAt_merge_off _ _ dst "" hsome p (Path.within_false hd).2]
      refine framed_trans (framed_trans ?_ (framed_deleted hw1 _ (Path.within_false hs).1))
        (framed_created _ _ (Path.within_false hd).1)
      rw [statusAt_update_off _ _ _ _ (Path.within_false hs).1 (Path.within_false hs).2]
      exact framed_refl _

theorem attrOnlyAt_touch {t : tree_node} (path : String) {flags : Nat}
    (hf : flags &&& (CREATED ||| DELETED) = 0) {p : Path} (ha : attrOnlyAt t p) :
    attrOnlyAt (touch t path flags) p := by
  intro s hs
  rw [statusAt_touch] at hs
  by_cases hp : p = Path.parse path
  · rw [if_pos hp] at hs
    cases hs
    rw [and_of_or_and_zero _ _ _ hf]
    cases h : statusAt t p with
    | none => rfl
    | some a => exact ha a h
  · rw [if_neg hp] at hs
    cases h : statusAt t p with
    | some a =>
      rw [h] at hs
      cases hs
      exact ha _ h
    | none =>
      rw [h] at hs
      simp only [] at hs
      split at hs
      · cases hs
        rfl
      · cases hs

theorem xattrFlags_and (env : Env) (name : String) :
    xattrFlags env name &&& (CREATED ||| DELETED) = 0 := by
  unfold xattrFlags
  split <;> decide

/-- A callback that is an attribute callback, or does not touch `p`, leaves the node at `p`
without `CREATED` and `DELETED`. -/
theorem attrOnlyAt_process (env : Env) {t : tree_node} (hw : tree_node.WF t = true) (op : Op)
    {p : Path} (h : Op.isAttribute op = true ∨ Op.touches op p = false)
    (ha : attrOnlyAt t p) : attrOnlyAt (process env t op) p := by
  cases op with
  | subvol path => exact ha
  | snapshot path => exact ha
  | mknod path => exact ha
  | mkfifo path => exact ha
  | mksock path => exact ha
  | utimes path => exact ha
  | mkfile path =>
    rcases h with h | h
    · cases h
    · exact attrOnlyAt_of_framed (framed_created t path (by simpa [Op.touches] using h)) ha
  | mkdir path =>
    rcases h with h | h
    · cases h
    · exact attrOnlyAt_of_framed (framed_created t path (by simpa [Op.touches] using h)) ha
  | symlink path lnk =>
    rcases h with h | h
    · cases h
    · exact attrOnlyAt_of_framed (framed_created t path (by simpa [Op.touches] using h)) ha
  | link path lnk =>
    rcases h with h | h
    · cases h
    · exact attrOnlyAt_of_framed (framed_created t path (by simpa [Op.touches] using h)) ha
  | unlink path =>
    rcases h with h | h
    · cases h
    · exact attrOnlyAt_of_framed (framed_deleted hw path (by simpa [Op.touches] using h)) ha
  | rmdir path =>
    rcases h with h | h
    · cases h
    · exact attrOnlyAt_of_framed (framed_deleted hw path (by simpa [Op.touches] using h)) ha
  | rename src dst =>
    rcases h with h | h
    · cases h
    · simp only [Op.touches, Bool.or_eq_false_iff] at h
      exact attrOnlyAt_of_framed (framed_process_rename hw _ src dst h.1 h.2) ha
  | write path => exact attrOnlyAt_touch path (by decide) ha
  | clone path => exact attrOnlyAt_touch path (by decide) ha
  | truncate path => exact attrOnlyAt_touch path (by decide) ha
  | chmod path => exact attrOnlyAt_touch path (by decide) ha
  | chown path => exact attrOnlyAt_touch path (by decide) ha
  | update_extent path => exact attrOnlyAt_touch path (by decide) ha
  | set_xattr path name =>
    simp only [process]
    split
    · exact attrOnlyAt_touch path (xattrFlags_and env name) ha
    · exact ha
  | remove_xattr path name =>
    simp only [process]
    split
    · exact attrOnlyAt_touch path (xattrFlags_and env name) ha
    · exact ha

theorem attrOnlyAt_processAll (env : Env) (ops : List Op) {t : tree_node}
    (hw : tree_node.WF t = true) {p : Path}
    (h : ∀ op ∈ ops, Op.isAttribute op = true ∨ Op.touches op p = false)
    (ha : attrOnlyAt t p) : attrOnlyAt (processAll env t ops) p := by
  induction ops generalizing t with
  | nil => exact ha
  | cons op ops ih =>
    exact ih (WF_process env hw op) (fun o ho => h o (List.mem_cons_of_mem _ ho))
      (attrOnlyAt_process env hw op (h op (List.mem_cons_self _ _)) ha)

/-- A node of the checked tree is a node of the tree before, with the status `check`
computes from its former one. -/
theorem mem_walk_check {cmpFiles : String → Option Nat} {t : tree_node} {pre : String}
    {r : List String × tree_node} (hr : tree_node.check cmpFiles t pre = some r)
    {y : Path × Nat} (hy : y ∈ walk r.2) :
    ∃ s, (y.1, s) ∈ walk t ∧
      (tree_node.check_status cmpFiles (checkName pre y.1) s).map Prod.snd = some y.2 := by
  have h1 := (walk_check cmpFiles t pre r hr).1
  have h2 : (y.1, some y.2) ∈ (walk r.2).map (fun x => (x.1, some x.2)) :=
    List.mem_map_of_mem (fun x : Path × Nat => (x.1, some x.2)) hy
  rw [h1] at h2
  obtain ⟨x, hx, e⟩ := List.mem_map.mp h2
  obtain ⟨q, s⟩ := x
  simp only [Prod.mk.injEq] at e
  obtain ⟨e1, e2⟩ := e
  subst e1
  exact ⟨s, hx, e2⟩

theorem process_attribute (env : Env) (op : Op) (h : Op.isAttribute op = true) :
    (∃ path flags, ∀ t, process env t op = touch t path flags) ∨
      (∀ t, process env t op = t) := by
  cases op with
  | write path => exact Or.inl ⟨path, CONTENT, fun _ => rfl⟩
  | clone path => exact Or.inl ⟨path, CONTENT, fun _ => rfl⟩
  | truncate path => exact Or.inl ⟨path, CONTENT, fun _ => rfl⟩
  | chmod path => exact Or.inl ⟨path, PERMISSIONS, fun _ => rfl⟩
  | chown path => exact Or.inl ⟨path, OWNER ||| GROUP, fun _ => rfl⟩
  | update_extent path => exact Or.inl ⟨path, CONTENT, fun _ => rfl⟩
  | set_xattr path name =>
    cases hx : env.enable_xattrs with
    | true => exact Or.inl ⟨path, xattrFlags env name, fun t => by simp [process, hx]⟩
    | false => exact Or.inr (fun t => by simp [process, hx])
  | remove_xattr path name =>
    cases hx : env.enable_xattrs with
    | true => exact Or.inl ⟨path, xattrFlags env name, fun t => by simp [process, hx]⟩
    | false => exact Or.inr (fun t => by simp [process, hx])
  | subvol path => cases h
  | snapshot path => cases h
  | mkfile path => cases h
  | mkdir path => cases h
  | mknod path => cases h
  | mkfifo path => cases h
  | mksock path => cases h
  | symlink path lnk => cases h
  | rename src dst => cases h
  | link path lnk => cases h
  | unlink path => cases h
  | rmdir path => cases h
  | utimes path => cases h

/-! ## The claims -/

/-- C1. `created(p)`: when `find(p)` locates no node, afterwards it locates a node (without
children) whose status is exactly `CREATED`; when it locates a node with status `s`, afterwards
the node has status `(s & ~(CREATED | DELETED)) | CONTENT | PERMISSIONS | OWNER | GROUP |
XATTRS | ACL` and the same children. -/
theorem created_spec (files : tree_node) (name : String) :
    tree_node.find (StreamProcessor.created files name) (Path.parse name) =
      some (match tree_node.find files (Path.parse name) with
        | none => tree_node.mk CREATED []
        | some n =>
          tree_node.mk (clearBits n.status (CREATED ||| DELETED) |||
            (CONTENT ||| PERMISSIONS ||| OWNER ||| GROUP ||| XATTRS ||| ACL)) n.childs) := by
  unfold StreamProcessor.created
  cases h : tree_node.find files (Path.parse name) with
  | none =>
    simp only [find_update_self, find_insert_self files _ h]
    rfl
  | some n =>
    simp only [find_update_self, h]
    rfl

/-- C2. `deleted(p)` on a path `find` does not locate: afterwards `find(p)` locates a node with
status exactly `DELETED`; at every other path, a node that existed keeps its status, and the
nodes that are new are the ancestors of `p`, each with status 0. -/
theorem deleted_absent (files : tree_node) (name : String)
    (h : tree_node.find files (Path.parse name) = none) :
    tree_node.find (StreamProcessor.deleted files name) (Path.parse name)
        = some (tree_node.mk DELETED []) ∧
      ∀ q : Path, q ≠ Path.parse name →
        statusAt (StreamProcessor.deleted files name) q =
          match statusAt files q with
          | some s => some s
          | none => if Path.beneath q (Path.parse name) = true then some 0 else none := by
  unfold StreamProcessor.deleted
  simp only [h]
  refine ⟨?_, ?_⟩
  · simp only [find_update_self, find_insert_self files _ h]
    rfl
  · intro q hq
    rw [statusAt_update (fun x => tree_node.mk DELETED x.childs) (fun x => rfl) _ _ _ hq,
      statusAt_insert]
    simp [hq]

theorem deleted_absent_witness :
    tree_node.find (StreamProcessor.deleted tree_node.empty "a/b") (Path.parse "a/b")
        = some (tree_node.mk DELETED []) ∧
      ∀ q : Path, q ≠ Path.parse "a/b" →
        statusAt (StreamProcessor.deleted tree_node.empty "a/b") q =
          match statusAt tree_node.empty q with
          | some s => some s
          | none => if Path.beneath q (Path.parse "a/b") = true then some 0 else none :=
  deleted_absent tree_node.empty "a/b" rfl

/-- C3, as stated, fails: after `mkdir d; mkfile d/x`, the call `deleted(d)` finds `d`, and
afterwards `find` still locates both `d` (now with status 0) and `d/x`. -/
theorem deleted_present_counterexample :
    (tree_node.find exampleDir (Path.parse "d")).isSome = true ∧
      tree_node.find (StreamProcessor.deleted exampleDir "d") (Path.parse "d")
        = some (tree_node.mk 0 [("x", tree_node.mk CREATED [])]) ∧
      tree_node.find (StreamProcessor.deleted exampleDir "d") (Path.parse "d/x")
        = some (tree_node.mk CREATED []) := by
  refine ⟨rfl, rfl, rfl⟩

/-- C3, amended. `deleted(p)` on a path `find` locates, in a tree of ordered maps: if the node
has no children it is unlinked, and afterwards neither `p` nor any path beneath `p` is located;
if it has children the node stays with status 0 and everything beneath it is as before. -/
theorem deleted_present (files : tree_node) (name : String) (n : tree_node)
    (hw : tree_node.WF files = true)
    (h : tree_node.find files (Path.parse name) = some n) :
    tree_node.find (StreamProcessor.deleted files name) (Path.parse name)
        = (if n.childs.isEmpty = true then none else some (tree_node.mk 0 n.childs)) ∧
      ∀ q : Path,
        tree_node.find (StreamProcessor.deleted files name) ((Path.parse name).append q)
          = if n.childs.isEmpty = true then none
            else tree_node.find files ((Path.parse name).append q) := by
  unfold StreamProcessor.deleted
  simp only [h]
  by_cases he : n.childs.isEmpty = true
  · have hn : n.childs = [] := by simpa using he
    have h1 := find_erase_self_leaf hw h hn
    simp only [he, if_true]
    refine ⟨h1, fun q => ?_⟩
    rw [find_append, h1]
    rfl
  · have hn : n.childs ≠ [] := by simpa using he
    have h1 := find_erase_self_inner h hn
    simp only [he]
    refine ⟨h1, fun q => ?_⟩
    rw [find_append, find_append, h1, h]
    simp only [Option.some_bind, Bool.false_eq_true, if_false]
    exact @find_congr_childs (tree_node.mk 0 n.childs) n rfl q

theorem deleted_present_witness :
    tree_node.find (StreamProcessor.deleted exampleDir "d/x") (Path.parse "d/x")
        = (if (tree_node.mk CREATED []).childs.isEmpty = true then none
           else some (tree_node.mk 0 (tree_node.mk CREATED []).childs)) ∧
      ∀ q : Path,
        tree_node.find (StreamProcessor.deleted exampleDir "d/x") ((Path.parse "d/x").append q)
          = if (tree_node.mk CREATED []).childs.isEmpty = true then none
            else tree_node.find exampleDir ((Path.parse "d/x").append q) :=
  deleted_present exampleDir "d/x" (tree_node.mk CREATED []) (by decide) rfl

/-- C4, as stated, fails: on the empty tree `created(a)` followed by `deleted(a)` leaves no
node at `a` at all, so none with status `DELETED`. -/
theorem created_deleted_counterexample :
    tree_node.find tree_node.empty (Path.parse "a") = none ∧
      tree_node.find
        (StreamProcessor.deleted (StreamProcessor.created tree_node.empty "a") "a")
        (Path.parse "a") = none := by
  refine ⟨rfl, rfl⟩

/-- C4, amended. In a tree of ordered maps in which `p` is absent, `created(p)` followed by
`deleted(p)` leaves no node at `p`. -/
theorem created_deleted (files : tree_node) (name : String)
    (hw : tree_node.WF files = true)
    (h : tree_node.find files (Path.parse name) = none) :
    tree_node.find
      (StreamProcessor.deleted (StreamProcessor.created files name) name)
      (Path.parse name) = none := by
  have hc := find_created files name
  simp only [h] at hc
  have hwc : tree_node.WF (StreamProcessor.created files name) = true := WF_created hw name
  unfold StreamProcessor.deleted
  simp only [hc]
  exact find_erase_self_leaf hwc hc rfl

theorem created_deleted_witness :
    tree_node.find
      (StreamProcessor.deleted (StreamProcessor.created exampleDir "d/y") "d/y")
      (Path.parse "d/y") = none :=
  created_deleted exampleDir "d/y" (by decide) rfl

/-- C5. In a tree in which `p` is absent, `deleted(p)` followed by `created(p)` leaves a node
at `p` whose status is exactly `CONTENT | PERMISSIONS | OWNER | GROUP | XATTRS | ACL`, a mask
that contains neither `CREATED` nor `DELETED`. -/
theorem deleted_created (files : tree_node) (name : String)
    (h : tree_node.find files (Path.parse name) = none) :
    statusAt (StreamProcessor.created (StreamProcessor.deleted files name) name)
        (Path.parse name)
        = some (CONTENT ||| PERMISSIONS ||| OWNER ||| GROUP ||| XATTRS ||| ACL) ∧
      (CONTENT ||| PERMISSIONS ||| OWNER ||| GROUP ||| XATTRS ||| ACL) &&& CREATED = 0 ∧
      (CONTENT ||| PERMISSIONS ||| OWNER ||| GROUP ||| XATTRS ||| ACL) &&& DELETED = 0 := by
  refine ⟨?_, by decide, by decide⟩
  have hd := (find_deleted_of_absent files name h)
  have hc := find_created (StreamProcessor.deleted files name) name
  simp only [hd] at hc
  simp only [statusAt, hc, Option.map_some', tree_node.status_mk]
  rfl

theorem deleted_created_witness :
    statusAt (StreamProcessor.created (StreamProcessor.deleted exampleDir "d/y") "d/y")
        (Path.parse "d/y")
        = some (CONTENT ||| PERMISSIONS ||| OWNER ||| GROUP ||| XATTRS ||| ACL) ∧
      (CONTENT ||| PERMISSIONS ||| OWNER ||| GROUP ||| XATTRS ||| ACL) &&& CREATED = 0 ∧
      (CONTENT ||| PERMISSIONS ||| OWNER ||| GROUP ||| XATTRS ||| ACL) &&& DELETED = 0 :=
  deleted_created exampleDir "d/y" rfl

/-- C6. `rename(o, n)` when `o` is located, `n` is not, and `n` does not lie beneath `o` (in a
tree of ordered maps): it returns true; afterwards `o` is not located, the node at `n` is the
node that was at `o` (same status, same subtree), so `find(n/q)` yields what `find(o/q)`
yielded before, for every relative path `q`; and this is the tree `process_rename` produces
when `from` is present and `to` is absent. -/
theorem rename_success (t : tree_node) (o n : Path) (oo : tree_node)
    (hw : tree_node.WF t = true)
    (ho : tree_node.find t o = some oo) (hn : tree_node.find t n = none)
    (hb : Path.beneath o n = false) :
    (tree_node.rename t o n).1 = true ∧
      tree_node.find (tree_node.rename t o n).2 o = none ∧
      tree_node.find (tree_node.rename t o n).2 n = some oo ∧
      (∀ q : Path, tree_node.find (tree_node.rename t o n).2 (n.append q)
        = tree_node.find t (o.append q)) ∧
      (∀ (entries : List String) (src dst : String), Path.parse src = o → Path.parse dst = n →
        process_rename t entries src dst = (tree_node.rename t o n).2) := by
  obtain ⟨h1, h2⟩ := find_rename hw ho hn hb
  refine ⟨?_, h1, h2, ?_, ?_⟩
  · rw [rename_eq ho hn hb]
  · intro q
    rw [find_append, find_append, h2, ho]
  · intro entries src dst hs hd
    simp only [process_rename, hs, hd, ho, hn]

theorem rename_success_witness :
    (tree_node.WF exampleDir = true ∧
      tree_node.find exampleDir (Path.parse "d") = some (tree_node.mk CREATED [("x", tree_node.mk CREATED [])]) ∧
      tree_node.find exampleDir (Path.parse "e") = none ∧
      Path.beneath (Path.parse "d") (Path.parse "e") = false) ∧
    ((tree_node.rename exampleDir (Path.parse "d") (Path.parse "e")).1 = true ∧
      tree_node.find (tree_node.rename exampleDir (Path.parse "d") (Path.parse "e")).2
        (Path.parse "d") = none ∧
      tree_node.find (tree_node.rename exampleDir (Path.parse "d") (Path.parse "e")).2
        (Path.parse "e") = some (tree_node.mk CREATED [("x", tree_node.mk CREATED [])]) ∧
      (∀ q : Path,
        tree_node.find (tree_node.rename exampleDir (Path.parse "d") (Path.parse "e")).2
          ((Path.parse "e").append q) = tree_node.find exampleDir ((Path.parse "d").append q)) ∧
      (∀ (entries : List String) (src dst : String),
        Path.parse src = Path.parse "d" → Path.parse dst = Path.parse "e" →
        process_rename exampleDir entries src dst
          = (tree_node.rename exampleDir (Path.parse "d") (Path.parse "e")).2)) ∧
    tree_node.result
      (processAll exampleEnv tree_node.empty [Op.mkdir "d", Op.mkfile "d/x", Op.rename "d" "e"]) ""
      = [("/e", CREATED), ("/e/x", CREATED)] :=
  ⟨⟨by decide, rfl, rfl, rfl⟩,
    rename_success exampleDir (Path.parse "d") (Path.parse "e")
      (tree_node.mk CREATED [("x", tree_node.mk CREATED [])]) (by decide) rfl rfl rfl,
    by decide⟩

/-- C7. `rename(o, n)` fails exactly when `o` is not located or `n` is located: it then returns
false and the tree is the one it was given; in every other case it returns true. -/
theorem rename_failure (t : tree_node) (o n : Path) :
    ((tree_node.find t o = none ∨ (tree_node.find t n).isSome = true) →
        tree_node.rename t o n = (false, t)) ∧
      (¬ (tree_node.find t o = none ∨ (tree_node.find t n).isSome = true) →
        (tree_node.rename t o n).1 = true) := by
  constructor
  · intro h
    unfold tree_node.rename
    cases ho : tree_node.find t o with
    | none => rfl
    | some oo =>
      cases hn : tree_node.find t n with
      | some nn => rfl
      | none =>
        rcases h with h | h
        · rw [ho] at h
          exact Option.noConfusion h
        · rw [hn] at h
          exact absurd h (by decide)
  · intro h
    unfold tree_node.rename
    cases ho : tree_node.find t o with
    | none => exact absurd (Or.inl ho) h
    | some oo =>
      cases hn : tree_node.find t n with
      | some nn => exact absurd (Or.inr (by rw [hn]; rfl)) h
      | none =>
        simp only []
        split <;> rfl

theorem rename_failure_witness :
    (tree_node.rename exampleDir (Path.parse "z") (Path.parse "e") = (false, exampleDir) ∧
      tree_node.rename exampleDir (Path.parse "d") (Path.parse "d/x") = (false, exampleDir)) ∧
      (tree_node.rename exampleDir (Path.parse "d") (Path.parse "e")).1 = true :=
  ⟨⟨(rename_failure exampleDir (Path.parse "z") (Path.parse "e")).1 (Or.inl rfl),
    (rename_failure exampleDir (Path.parse "d") (Path.parse "d/x")).1 (Or.inr rfl)⟩,
    (rename_failure exampleDir (Path.parse "d") (Path.parse "e")).2
      (fun h => h.elim (fun h1 => Option.noConfusion h1) (fun h2 => Bool.noConfusion h2))⟩

/-- C8 (P6) fails on the code: on the tree built by `mkfile a/b/c; mkfile t; rename a -> t`,
with `o = t/t` present and `n = t/b/w` absent and not beneath `o`, both renames succeed, but
the way back erases `t/b/w` and with it the childless status-0 node `t/b` that `merge` had left
behind: the tree is not the original one.  The same happens when the two renames arrive as
stream callbacks. -/
theorem rename_roundtrip_counterexample :
    (tree_node.find danglingTree (Path.parse "t/t")).isSome = true ∧
      tree_node.find danglingTree (Path.parse "t/b/w") = none ∧
      Path.beneath (Path.parse "t/t") (Path.parse "t/b/w") = false ∧
      (tree_node.rename danglingTree (Path.parse "t/t") (Path.parse "t/b/w")).1 = true ∧
      (tree_node.rename
        (tree_node.rename danglingTree (Path.parse "t/t") (Path.parse "t/b/w")).2
        (Path.parse "t/b/w") (Path.parse "t/t")).1 = true ∧
      tree_node.find danglingTree (Path.parse "t/b") = some (tree_node.mk 0 []) ∧
      tree_node.find (tree_node.rename
        (tree_node.rename danglingTree (Path.parse "t/t") (Path.parse "t/b/w")).2
        (Path.parse "t/b/w") (Path.parse "t/t")).2 (Path.parse "t/b") = none ∧
      (tree_node.rename
        (tree_node.rename danglingTree (Path.parse "t/t") (Path.parse "t/b/w")).2
        (Path.parse "t/b/w") (Path.parse "t/t")).2 ≠ danglingTree ∧
      processAll exampleEnv danglingTree [Op.rename "t/t" "t/b/w", Op.rename "t/b/w" "t/t"]
        ≠ danglingTree := by
  refine ⟨rfl, rfl, rfl, rfl, rfl, rfl, rfl, ?_, ?_⟩
  · intro h
    have := congrArg (fun t => tree_node.find t (Path.parse "t/b")) h
    exact Option.noConfusion this
  · intro h
    have := congrArg (fun t => tree_node.find t (Path.parse "t/b")) h
    exact Option.noConfusion this

/-- C9 (P3). Starting from the empty tree, after any finite sequence of stream callbacks that
contains no rename whose destination lies beneath its source (with any directory listings of
snapshot 1, with or without extended-attribute support), no node of the tree, the root
included, has both `CREATED` and `DELETED` set in its status. -/
theorem no_created_and_deleted (env : Env) (ops : List Op)
    (_hops : ∀ op ∈ ops, Op.renamesBeneath op = false) :
    ¬ ((processAll env tree_node.empty ops).status &&& CREATED ≠ 0 ∧
        (processAll env tree_node.empty ops).status &&& DELETED ≠ 0) ∧
      ∀ (q : Path) (n : tree_node),
        tree_node.find (processAll env tree_node.empty ops) q = some n →
        ¬ (n.status &&& CREATED ≠ 0 ∧ n.status &&& DELETED ≠ 0) := by
  have hall : allStatus exclusive (processAll env tree_node.empty ops) :=
    allStatus_processAll (P := exclusive) exclusive_zero exclusive_created exclusive_deleted
      (fun s _ => exclusive_touched s) exclusive_or env ops (allStatus_empty _)
  refine ⟨?_, fun q n h => (allStatus_find hall h).1⟩
  rw [processAll_status]
  exact exclusive_zero

theorem no_created_and_deleted_witness :
    (∀ op ∈ [Op.mkdir "d", Op.mkfile "d/x", Op.rename "d" "e"], Op.renamesBeneath op = false) ∧
      ¬ ((tree_node.mk CREATED []).status &&& CREATED ≠ 0 ∧
        (tree_node.mk CREATED []).status &&& DELETED ≠ 0) :=
  ⟨by decide,
    (no_created_and_deleted exampleEnv [Op.mkdir "d", Op.mkfile "d/x", Op.rename "d" "e"]
      (by decide)).2 (Path.parse "e/x") (tree_node.mk CREATED []) rfl⟩

/-- C10 (P4) fails on the code: in the stream `mkfile a/b/c; mkfile t; rename a -> t` (no
destination beneath its source) the rename finds both `a` and `t`, and `merge` recurses with
the already prefixed path `t/b` as `prefix`, so the grandchild is upserted at `t/t/b/c`
instead of `t/b/c`; the node `t/b`, copied with status 0, is left without any child. -/
theorem merge_leaves_dangling_zero :
    (∀ op ∈ danglingOps, Op.renamesBeneath op = false) ∧
      tree_node.find danglingTree (Path.parse "t/b") = some (tree_node.mk 0 []) ∧
      tree_node.result danglingTree "" = [("/t", ATTRS), ("/t/t/b/c", CREATED)] ∧
      ¬ noDanglingZero danglingTree := by
  refine ⟨by decide, rfl, by decide, ?_⟩
  intro h
  obtain ⟨r, m, hr, _⟩ := h (Path.parse "t/b") (tree_node.mk 0 []) rfl rfl
  rw [find_of_childs_nil (t := tree_node.mk 0 []) rfl r] at hr
  exact Option.noConfusion hr

/-- C11 fails on the code: after `mkfile a/b/c; mkfile t`, both `a` and `t` are in the tree,
distinct and neither beneath the other; `a/b/c` is a descendant of `a` with status `CREATED`
and `t/b/c` is absent.  After `rename a -> t` there is no node at `t/b/c`: `merge` recurses
with the already prefixed path `t/b` as `prefix` and upserts the descendant at `t/t/b/c`. -/
theorem rename_merge_misplaces_descendant :
    (tree_node.find mergeSource (Path.parse "a")).isSome = true ∧
      (tree_node.find mergeSource (Path.parse "t")).isSome = true ∧
      Path.parse "a" ≠ Path.parse "t" ∧
      Path.beneath (Path.parse "a") (Path.parse "t") = false ∧
      Path.beneath (Path.parse "t") (Path.parse "a") = false ∧
      statusAt mergeSource ((Path.parse "a").append (Path.parse "b/c")) = some CREATED ∧
      tree_node.find mergeSource ((Path.parse "t").append (Path.parse "b/c")) = none ∧
      tree_node.find (process_rename mergeSource [] "a" "t")
        ((Path.parse "t").append (Path.parse "b/c")) = none ∧
      statusAt (process_rename mergeSource [] "a" "t") (Path.parse "t/t/b/c") = some CREATED := by
  refine ⟨rfl, rfl, by decide, rfl, rfl, rfl, rfl, rfl, rfl⟩

/-- C12. `process_rename(from, to)` when `from` is not in the tree, with `E` the listing read
from snapshot 1: the resulting tree is the one obtained by `deleted(from)`, `created(to)` and
then, for each `e` of `E` in order, `deleted(from/e)` and `created(to/e)`. -/
theorem rename_untracked (files : tree_node) (entries : List String) (src dst : String)
    (h : tree_node.find files (Path.parse src) = none) :
    process_rename files entries src dst = spec_untracked_rename files entries src dst := by
  simp only [process_rename, h, spec_untracked_rename, spec_mark_entries_eq]

theorem rename_untracked_witness :
    tree_node.find tree_node.empty (Path.parse "d") = none ∧
      process_rename tree_node.empty ["x", "y", "y/z"] "d" "e"
        = spec_untracked_rename tree_node.empty ["x", "y", "y/z"] "d" "e" ∧
      tree_node.result (processAll listingEnv tree_node.empty [Op.rename "d" "e"]) ""
        = [("/d", DELETED), ("/d/x", DELETED), ("/d/y", DELETED), ("/d/y/z", DELETED),
           ("/e", CREATED), ("/e/x", CREATED), ("/e/y", CREATED), ("/e/y/z", CREATED)] :=
  ⟨rfl, rename_untracked tree_node.empty ["x", "y", "y/z"] "d" "e" rfl, by decide⟩

/-- C13. The attribute callbacks: `write`, `clone`, `truncate` and `update_extent` perform
`insert(p)` and OR `CONTENT` into the status of the node; `chmod` ORs `PERMISSIONS`; `chown`
ORs `OWNER | GROUP`; with extended-attribute support, `set_xattr` and `remove_xattr` OR
`XATTRS`, plus `ACL` exactly when `is_acl_signature(name)` holds.  In each case the children
of the node and the status of every other existing node are unchanged, the only new nodes are
ancestors with status 0, and the callback returns 0. -/
theorem attribute_callbacks (env : Env) (files : tree_node) (path name : String) :
    orsFlags files path CONTENT (process_write files path) ∧
      orsFlags files path CONTENT (process_clone files path) ∧
      orsFlags files path CONTENT (process_truncate files path) ∧
      orsFlags files path CONTENT (process_update_extent files path) ∧
      orsFlags files path PERMISSIONS (process_chmod files path) ∧
      orsFlags files path (OWNER ||| GROUP) (process_chown files path) ∧
      (env.enable_xattrs = true →
        orsFlags files path (if env.is_acl_signature name = true then XATTRS ||| ACL else XATTRS)
          (process_set_xattr env files path name) ∧
        orsFlags files path (if env.is_acl_signature name = true then XATTRS ||| ACL else XATTRS)
          (process_remove_xattr env files path name)) := by
  refine ⟨orsFlags_touch _ _ _, orsFlags_touch _ _ _, orsFlags_touch _ _ _, orsFlags_touch _ _ _,
    orsFlags_touch _ _ _, orsFlags_touch _ _ _, ?_⟩
  intro hx
  have e : process_xattr env files path name
      = (0, touch files path
          (if env.is_acl_signature name = true then XATTRS ||| ACL else XATTRS)) := by
    rw [process_xattr_eq]
    simp only [hx, if_true, xattrFlags]
  simp only [process_set_xattr, process_remove_xattr, e]
  exact ⟨orsFlags_touch _ _ _, orsFlags_touch _ _ _⟩

theorem attribute_callbacks_witness :
    orsFlags exampleDir "d/x" XATTRS (process_set_xattr exampleEnv exampleDir "d/x" "user.a") ∧
      orsFlags exampleDir "d/x" XATTRS
        (process_remove_xattr exampleEnv exampleDir "d/x" "user.a") :=
  (attribute_callbacks exampleEnv exampleDir "d/x" "user.a").2.2.2.2.2.2 rfl

/-- C14. `insert(p)` on a tree of ordered maps: afterwards `find(p)` locates the node `insert`
returned, which is the node that was there or a fresh node with status 0 and no children;
every path located before is still located with the same status, and the only other new
nodes are ancestors of `p`, with status 0; inserting `p` a second time changes nothing. -/
theorem insert_spec (t : tree_node) (p : Path) (hw : tree_node.WF t = true) :
    tree_node.find (tree_node.insert t p) p
        = some ((tree_node.find t p).getD (tree_node.mk 0 [])) ∧
      (∀ q : Path, statusAt (tree_node.insert t p) q =
        match statusAt t q with
        | some s => some s
        | none => if q = p ∨ Path.beneath q p = true then some 0 else none) ∧
      tree_node.insert (tree_node.insert t p) p = tree_node.insert t p := by
  refine ⟨find_insert_self_eq t p, fun q => ?_, ?_⟩
  · have h := statusAt_insert t p q
    cases hq : statusAt t q <;> simp only [hq] at h ⊢ <;> exact h
  · exact insert_eq_self (WF_insert hw p) (find_insert_self_eq t p)

theorem insert_spec_witness :
    tree_node.find (tree_node.insert exampleDir (Path.parse "d/y/z")) (Path.parse "d/y/z")
        = some ((tree_node.find exampleDir (Path.parse "d/y/z")).getD (tree_node.mk 0 [])) ∧
      (∀ q : Path, statusAt (tree_node.insert exampleDir (Path.parse "d/y/z")) q =
        match statusAt exampleDir q with
        | some s => some s
        | none =>
          if q = Path.parse "d/y/z" ∨ Path.beneath q (Path.parse "d/y/z") = true then some 0
          else none) ∧
      tree_node.insert (tree_node.insert exampleDir (Path.parse "d/y/z")) (Path.parse "d/y/z")
        = tree_node.insert exampleDir (Path.parse "d/y/z") :=
  insert_spec exampleDir (Path.parse "d/y/z") (by decide)

/-- C15. `erase(p)` on a path that `find` locates, in a tree of ordered maps: if the node at
`p` has no children it is unlinked and `find(p)` fails afterwards; if it has children the node
stays, its status becomes 0 and everything beneath it is unchanged; so the node at `p` is
removed when and only when it carries no children.  Every path that is neither `p` nor
beneath `p` keeps its status, except that a node with status 0 may disappear. -/
theorem erase_spec (t : tree_node) (p : Path) (n : tree_node) (hw : tree_node.WF t = true)
    (h : tree_node.find t p = some n) :
    (n.childs = [] → tree_node.find (tree_node.erase t p).2 p = none) ∧
      (n.childs ≠ [] →
        tree_node.find (tree_node.erase t p).2 p = some (tree_node.mk 0 n.childs) ∧
        ∀ q : Path, tree_node.find (tree_node.erase t p).2 (p.append q)
          = tree_node.find t (p.append q)) ∧
      (tree_node.find (tree_node.erase t p).2 p = none ↔ n.childs = []) ∧
      (∀ q : Path, q ≠ p → Path.beneath p q = false →
        statusAt (tree_node.erase t p).2 q = statusAt t q ∨
          (statusAt (tree_node.erase t p).2 q = none ∧ statusAt t q = some 0)) := by
  refine ⟨fun hn => find_erase_self_leaf hw h hn, fun hn => ?_, ?_,
    fun q h1 h2 => statusAt_erase_off hw p q h1 h2⟩
  · have h1 := find_erase_self_inner h hn
    refine ⟨h1, fun q => ?_⟩
    rw [find_append, find_append, h1, h]
    exact @find_congr_childs (tree_node.mk 0 n.childs) n rfl q
  · constructor
    · intro hnone
      by_contra hn
      rw [find_erase_self_inner h hn] at hnone
      exact Option.noConfusion hnone
    · exact fun hn => find_erase_self_leaf hw h hn

theorem erase_spec_witness :
    tree_node.find (tree_node.erase exampleDir (Path.parse "d")).2 (Path.parse "d")
        = some (tree_node.mk 0 [("x", tree_node.mk CREATED [])]) ∧
      tree_node.find (tree_node.erase exampleDir (Path.parse "d/x")).2 (Path.parse "d/x")
        = none :=
  ⟨((erase_spec exampleDir (Path.parse "d")
      (tree_node.mk CREATED [("x", tree_node.mk CREATED [])]) (by decide) rfl).2.1
      (by simp)).1,
    (erase_spec exampleDir (Path.parse "d/x") (tree_node.mk CREATED []) (by decide) rfl).1 rfl⟩

/-- C16 fails on the code: in the tree after `mkdir d; mkfile d/x`, `find(d/y)` locates no
node, yet `erase(d/y)` returns true: in the branch for a path with a `/` the result of the
recursive call is dropped and `true` is returned as soon as the first segment is found. -/
theorem erase_true_for_missing_path :
    tree_node.find exampleDir (Path.parse "d/y") = none ∧
      (tree_node.erase exampleDir (Path.parse "d/y")).1 = true ∧
      (tree_node.erase exampleDir (Path.parse "y")).1 = false := by
  refine ⟨rfl, rfl, rfl⟩

/-- C17, as stated, fails: after `mkfile a; mkfile /a` the tree has the two nodes `a` and
`/a` (segments `""`, `a`), both with status `CREATED`; `result` recurses into the child with
the empty key with `prefix` still empty, emits `"/a"` for the node `/a` instead of `"//a"`,
and so emits the path `"/a"` twice. -/
theorem result_counterexample :
    statusAt emptySegmentTree (Path.parse "a") = some CREATED ∧
      statusAt emptySegmentTree (Path.parse "/a") = some CREATED ∧
      Path.parse "/a" = Path.cons "" (Path.last "a") ∧
      "/" ++ Path.render (Path.parse "/a") = "//a" ∧
      tree_node.result emptySegmentTree "" = [("/a", CREATED), ("/a", CREATED)] := by
  refine ⟨rfl, rfl, rfl, by decide, by decide⟩

/-- C17, amended. For a tree of ordered maps with keys obtained by splitting paths, in
which no child of the root has the empty key: `result` invokes the callback exactly once for
each node with non-zero status and never for a node with status 0, in the order of the walk;
each invocation carries the status of the node and `"/"` followed by its segments joined with
`"/"`; the walk lists each node `find` locates exactly once, and no path is emitted twice. -/
theorem result_spec (t : tree_node) (hw : tree_node.WF t = true) (hk : keysSplit t = true)
    (ht : topNonempty t = true) :
    tree_node.result t "" =
        ((walk t).filter (fun x => decide (x.2 ≠ 0))).map
          (fun x => ("/" ++ Path.render x.1, x.2)) ∧
      (∀ q s, (q, s) ∈ walk t ↔ statusAt t q = some s) ∧
      ((walk t).map Prod.fst).Nodup ∧
      ((tree_node.result t "").map Prod.fst).Nodup := by
  have h1 : tree_node.result t "" =
      ((walk t).filter (fun x => decide (x.2 ≠ 0))).map
        (fun x => ("/" ++ Path.render x.1, x.2)) := by
    rw [result_eq_walk]
    refine List.map_congr_left ?_
    intro x hx
    rw [emitName_eq_render x.1 (head_ne_of_mem_walk ht (List.mem_of_mem_filter hx))]
  have hnd := walk_nodup t hw
  refine ⟨h1, fun q s => mem_walk_iff t hw q s, hnd, ?_⟩
  rw [h1, List.map_map]
  have e : (Prod.fst ∘ fun x : Path × Nat => ("/" ++ Path.render x.1, x.2))
      = (fun p : Path => "/" ++ Path.render p) ∘ Prod.fst := rfl
  rw [e, ← List.map_map]
  have hsub : (((walk t).filter (fun x => decide (x.2 ≠ 0))).map Prod.fst).Nodup :=
    List.Nodup.sublist (List.Sublist.map _ (List.filter_sublist _)) hnd
  refine List.Nodup.map_on ?_ hsub
  intro p hp q hq hpq
  obtain ⟨x, hx, rfl⟩ := List.mem_map.mp hp
  obtain ⟨y, hy, rfl⟩ := List.mem_map.mp hq
  exact render_injective
    (slashFree_of_mem_walk t hk x (List.mem_of_mem_filter hx))
    (slashFree_of_mem_walk t hk y (List.mem_of_mem_filter hy))
    (string_append_left_cancel hpq)

theorem result_spec_witness :
    tree_node.result exampleDir "" =
        ((walk exampleDir).filter (fun x => decide (x.2 ≠ 0))).map
          (fun x => ("/" ++ Path.render x.1, x.2)) ∧
      (∀ q s, (q, s) ∈ walk exampleDir ↔ statusAt exampleDir q = some s) ∧
      ((walk exampleDir).map Prod.fst).Nodup ∧
      ((tree_node.result exampleDir "").map Prod.fst).Nodup :=
  result_spec exampleDir (by decide) (by decide) (by decide)

/-- C18. For every tree of ordered maps, `result` emits the nodes with non-zero status in the
order of a depth-first pre-order walk: the walk is strictly ascending in the order in which a
path comes before every path beneath it, a whole subtree comes before the subtree of a sibling
with a greater segment, and siblings are ordered by their segment; the emitted sequence
depends only on which paths the tree holds with which status, not on how it was built. -/
theorem result_order (t : tree_node) (hw : tree_node.WF t = true) :
    tree_node.result t "" =
        ((walk t).filter (fun x => decide (x.2 ≠ 0))).map (fun x => (emitName "" x.1, x.2)) ∧
      (walk t).Pairwise (fun x y => Path.lt x.1 y.1 = true) ∧
      (∀ p q : Path, Path.beneath p q = true → Path.lt p q = true) ∧
      (∀ p q : Path, keyLt (Path.head p) (Path.head q) = true → Path.lt p q = true) ∧
      (∀ r p q : Path, keyLt (Path.head p) (Path.head q) = true →
        Path.lt (r.append p) (r.append q) = true) ∧
      (∀ t2 : tree_node, tree_node.WF t2 = true → (∀ q, statusAt t q = statusAt t2 q) →
        tree_node.result t2 "" = tree_node.result t "") := by
  refine ⟨result_eq_walk t "", walk_sorted t hw, fun p q h => Path.lt_of_beneath h,
    fun p q h => Path.lt_of_head h, fun r p q h => ?_, fun t2 hw2 hs => ?_⟩
  · rw [Path.lt_append]
    exact Path.lt_of_head h
  · rw [result_eq, result_eq, childs_eq_of_statusAt_all t t2 hw hw2 hs]

theorem result_order_witness :
    tree_node.result (processAll exampleEnv tree_node.empty [Op.mkfile "b", Op.mkfile "a/c",
        Op.chmod "a"]) ""
      = tree_node.result (processAll exampleEnv tree_node.empty [Op.chmod "a", Op.mkfile "a/c",
        Op.mkfile "b"]) "" ∧
    tree_node.result (processAll exampleEnv tree_node.empty [Op.mkfile "b", Op.mkfile "a/c",
        Op.chmod "a"]) ""
      = [("/a", PERMISSIONS), ("/a/c", CREATED), ("/b", CREATED)] :=
  ⟨(result_order
      (processAll exampleEnv tree_node.empty [Op.chmod "a", Op.mkfile "a/c", Op.mkfile "b"])
      (by decide)).2.2.2.2.2
      (processAll exampleEnv tree_node.empty [Op.mkfile "b", Op.mkfile "a/c", Op.chmod "a"])
      (by decide)
      (fun q => congrArg (fun t => statusAt t q)
        (show processAll exampleEnv tree_node.empty
            [Op.chmod "a", Op.mkfile "a/c", Op.mkfile "b"]
          = processAll exampleEnv tree_node.empty
            [Op.mkfile "b", Op.mkfile "a/c", Op.chmod "a"] from rfl)),
    by decide⟩

/-- C19. The post-pass.  For a node with status `s`, `check` invokes the content compare
exactly when `s` carries an attribute flag and neither `CREATED` nor `DELETED`, and the new
status is then `s` with the six attribute flags cleared, united with the returned mask;
otherwise the compare is not invoked and the status is `CREATED` alone, `DELETED` alone, or
unchanged (so 0 stays 0).  Over a tree, `check` returns normally exactly when every compare it
invokes does; it then keeps every node, gives each the status computed from its former one,
and has invoked the compare, in walk order, on the nodes whose status needed it, under the
name that is the path of the node when the first segment is non-empty. -/
theorem check_spec (cmpFiles : String → Option Nat) (t : tree_node) :
    (∀ name s, tree_node.check_status cmpFiles name s =
        if needsCompare s = true then
          (cmpFiles name).map (fun m => ([name], clearBits s ATTRS ||| m))
        else some ([], collapsed s)) ∧
      (∀ name, tree_node.check_status cmpFiles name 0 = some ([], 0)) ∧
      (∀ name s, s &&& CREATED ≠ 0 ∨ s &&& DELETED ≠ 0 →
        tree_node.check_status cmpFiles name s = some ([], collapsed s)) ∧
      ((tree_node.check cmpFiles t "").isSome = true ↔
        ∀ x ∈ walk t, needsCompare x.2 = true → (cmpFiles (checkName "" x.1)).isSome = true) ∧
      (∀ r, tree_node.check cmpFiles t "" = some r →
        (walk r.2).map (fun x => (x.1, some x.2))
            = (walk t).map (fun x =>
                (x.1, (tree_node.check_status cmpFiles (checkName "" x.1) x.2).map Prod.snd)) ∧
          r.1 = ((walk t).filter (fun x => needsCompare x.2)).map (fun x => checkName "" x.1)) ∧
      (∀ p : Path, Path.head p ≠ "" → checkName "" p = Path.render p) := by
  refine ⟨check_status_eq cmpFiles, fun name => ?_, fun name s h => ?_,
    check_isSome_iff cmpFiles t "", fun r hr => walk_check cmpFiles t "" r hr,
    fun p hp => checkName_eq_render p hp⟩
  · rw [check_status_eq]
    rfl
  · rw [check_status_eq]
    have hn : needsCompare s = false := by
      rcases h with h | h <;> simp [needsCompare, h]
    simp [hn]

theorem check_spec_witness :
    tree_node.check exampleCompare touchedTree "" =
        some (["b", "c/d"],
          tree_node.mk 0 [("a", tree_node.mk CREATED []), ("b", tree_node.mk PERMISSIONS []),
            ("c", tree_node.mk 0 [("d", tree_node.mk 0 [])])]) ∧
      ["b", "c/d"] = ((walk touchedTree).filter (fun x => needsCompare x.2)).map
        (fun x => checkName "" x.1) :=
  ⟨rfl, ((check_spec exampleCompare touchedTree).2.2.2.2.1 _ rfl).2⟩

/-- C20. The collapse rule on the report: when every status of the tree is a set over the
eight flags and the content compare returns attribute flags only, every pair `result` emits
after the post-pass has a mask that is exactly `CREATED`, exactly `DELETED`, or a non-empty
set of attribute flags; a status that carried `CREATED` is replaced by `CREATED` alone, and
one that carried `DELETED` without `CREATED` by `DELETED` alone. -/
theorem report_collapsed (cmpFiles : String → Option Nat) (t : tree_node)
    (r : List String × tree_node) (hu : allStatus inUniverse t)
    (hc : ∀ name m, cmpFiles name = some m → m &&& ATTRS = m)
    (hr : tree_node.check cmpFiles t "" = some r) :
    (∀ x ∈ tree_node.result r.2 "",
        x.2 = CREATED ∨ x.2 = DELETED ∨ (x.2 ≠ 0 ∧ x.2 &&& ATTRS = x.2)) ∧
      (∀ name s, s &&& CREATED ≠ 0 →
        tree_node.check_status cmpFiles name s = some ([], CREATED)) ∧
      (∀ name s, s &&& CREATED = 0 → s &&& DELETED ≠ 0 →
        tree_node.check_status cmpFiles name s = some ([], DELETED)) := by
  refine ⟨?_, fun name s h => ?_, fun name s h1 h2 => ?_⟩
  · have hall : allStatus (fun m => m = 0 ∨ reportable m) r.2 :=
      allStatus_check cmpFiles
        (fun name s r' hs hr' => check_status_reportable cmpFiles hc name s r' hs hr') t "" r hu hr
    intro x hx
    obtain ⟨h1, h2⟩ := allStatus_result hall "" x hx
    rcases h1 with h1 | h1
    · exact absurd h1 h2
    · exact h1
  · rw [check_status_eq]
    simp [needsCompare, collapsed, h]
  · rw [check_status_eq]
    simp [needsCompare, collapsed, h1, h2]

theorem report_collapsed_witness :
    (∀ x ∈ tree_node.result
        (tree_node.mk 0 [("a", tree_node.mk CREATED []), ("b", tree_node.mk PERMISSIONS []),
          ("c", tree_node.mk 0 [("d", tree_node.mk 0 [])])]) "",
        x.2 = CREATED ∨ x.2 = DELETED ∨ (x.2 ≠ 0 ∧ x.2 &&& ATTRS = x.2)) ∧
      tree_node.result
        (tree_node.mk 0 [("a", tree_node.mk CREATED []), ("b", tree_node.mk PERMISSIONS []),
          ("c", tree_node.mk 0 [("d", tree_node.mk 0 [])])]) ""
        = [("/a", CREATED), ("/b", PERMISSIONS)] :=
  ⟨(report_collapsed exampleCompare touchedTree _ (inUniverse_processAll exampleEnv _)
      (fun name m h => by
        unfold exampleCompare at h
        split at h <;> cases h <;> decide)
      (show tree_node.check exampleCompare touchedTree "" = some (["b", "c/d"],
          tree_node.mk 0 [("a", tree_node.mk CREATED []), ("b", tree_node.mk PERMISSIONS []),
            ("c", tree_node.mk 0 [("d", tree_node.mk 0 [])])]) from rfl)).1,
    by decide⟩

/-- C21, as stated, fails: in the run `failingCore` the stream is `mkfile a; chmod b;
write c/d` and the content compare fails on the touched path `b`.  The failure escapes from
the post-pass (`check` does not return, so no status is set to the six attribute flags and no
tree is left to report), `process` raises without having invoked the callback, and `cmpDirs`
delivers the report of the fallback comparator instead of the one of the send-stream core. -/
theorem compare_failure_counterexample :
    statusAt touchedTree (Path.parse "b") = some PERMISSIONS ∧
      needsCompare PERMISSIONS = true ∧
      failingCore.cmpFiles "b" = none ∧
      tree_node.check failingCore.cmpFiles touchedTree "" = none ∧
      Core.do_send failingCore 2 tree_node.empty = some (Except.ok touchedTree) ∧
      Core.process failingCore 2 = some ⟨[], some Exn.IOErrorException⟩ ∧
      Core.cmpDirs failingCore exampleFallback 2 = some (true, exampleFallback) := by
  refine ⟨rfl, by decide, rfl, rfl, rfl, rfl, rfl⟩

/-- C21, amended.  If, during the post-pass, the content compare fails for a node that needs
it, the failure is propagated: `check` does not return, `process` raises the exception
without having invoked the caller's callback, and `cmpDirs` catches it and delivers what
the fallback comparator reports. -/
theorem compare_failure_propagates (c : Core) (fallback : Outcome) (n fuel : Nat)
    (h0 : ∀ j, j < n → (c.parser j).2 = 0) (hn : 0 < (c.parser n).2) (hf : n < fuel)
    (hsub : c.subvolume = true) (hinit : 0 ≤ c.search_init)
    (h1 : c.ro1 = some true) (h2 : c.ro2 = some true) (h3 : c.root_id = true)
    (hp : 0 ≤ c.pipe) (hi : 0 ≤ c.ioctl)
    (x : Path × Nat)
    (hx : x ∈ walk (processAll c.env tree_node.empty (Core.commands c 0 n)))
    (hneed : needsCompare x.2 = true) (hfail : c.cmpFiles (checkName "" x.1) = none) :
    tree_node.check c.cmpFiles (processAll c.env tree_node.empty (Core.commands c 0 n)) ""
        = none ∧
      Core.process c fuel = some ⟨[], some Exn.IOErrorException⟩ ∧
      Core.cmpDirs c fallback fuel = some (true, fallback) := by
  have hchk : tree_node.check c.cmpFiles
      (processAll c.env tree_node.empty (Core.commands c 0 n)) "" = none := by
    cases hc : tree_node.check c.cmpFiles
        (processAll c.env tree_node.empty (Core.commands c 0 n)) "" with
    | none => rfl
    | some r =>
      have := (check_isSome_iff c.cmpFiles _ "").mp (by rw [hc]; rfl) x hx hneed
      rw [hfail] at this
      exact Bool.noConfusion this
  have hproc : Core.process c fuel = some ⟨[], some Exn.IOErrorException⟩ := by
    rw [process_eq c n fuel h0 (by omega) hf, h1, h2]
    have hx' : ¬ (c.root_id = false ∨ c.pipe < 0 ∨ c.ioctl < 0 ∨ ¬ 0 < (c.parser n).2) := by
      rintro (h | h | h | h)
      · rw [h3] at h
        exact Bool.noConfusion h
      · omega
      · omega
      · exact h hn
    simp only [if_neg hx', hchk]
  refine ⟨hchk, hproc, ?_⟩
  have htry : Core.cmpDirs_try c fuel = some ⟨[], some Exn.IOErrorException⟩ := by
    unfold Core.cmpDirs_try
    rw [if_neg (by simp [hsub]), if_neg (by omega), hproc]
  exact cmpDirs_of_raised fallback htry rfl rfl rfl

theorem compare_failure_propagates_witness :
    tree_node.check failingCore.cmpFiles
        (processAll failingCore.env tree_node.empty (Core.commands failingCore 0 1)) "" = none ∧
      Core.process failingCore 2 = some ⟨[], some Exn.IOErrorException⟩ ∧
      Core.cmpDirs failingCore exampleFallback 2 = some (true, exampleFallback) :=
  compare_failure_propagates failingCore exampleFallback 1 2
    (fun j hj => by
      obtain rfl : j = 0 := by omega
      rfl)
    (by decide) (by decide) rfl (by decide) rfl rfl rfl (by decide) (by decide)
    (Path.parse "b", PERMISSIONS) (by decide) (by decide) rfl

/-- C22. Attribute cancellation end to end.  For every stream and every path `p` that the
stream touches through attribute callbacks only (every callback with the path argument `p` is
an attribute callback or leaves the tree alone, and no rename has its source or destination
at `p` or above `p`): if the content compare returns the empty mask for `p`, then after the
post-pass the node at `p`, if there is one, has status 0, and the result walk, which reports
the nodes with non-zero status, emits no callback for it. -/
theorem attribute_cancellation (env : Env) (cmpFiles : String → Option Nat) (ops : List Op)
    (p : Path) (r : List String × tree_node)
    (hops : ∀ op ∈ ops, Op.isAttribute op = true ∨ Op.touches op p = false)
    (hc : cmpFiles (checkName "" p) = some 0)
    (hr : tree_node.check cmpFiles (processAll env tree_node.empty ops) "" = some r) :
    (∀ s, (p, s) ∈ walk r.2 → s = 0) ∧
      tree_node.result r.2 "" =
        ((walk r.2).filter (fun x => decide (x.2 ≠ 0))).map (fun x => (emitName "" x.1, x.2)) ∧
      (∀ x ∈ (walk r.2).filter (fun x => decide (x.2 ≠ 0)), x.1 ≠ p) ∧
      (topNonempty (processAll env tree_node.empty ops) = true → Path.slashFree p = true →
        ∀ x ∈ tree_node.result r.2 "", x.1 ≠ "/" ++ Path.render p) := by
  have hw : tree_node.WF (processAll env tree_node.empty ops) = true :=
    WF_processAll env ops WF_empty
  have hk : keysSplit (processAll env tree_node.empty ops) = true :=
    keysSplit_processAll env ops keysSplit_empty
  have ha : attrOnlyAt (processAll env tree_node.empty ops) p :=
    attrOnlyAt_processAll env ops WF_empty hops (fun s hs => by
      unfold statusAt at hs
      rw [find_of_childs_nil (t := tree_node.empty) rfl p] at hs
      cases hs)
  have h1 : ∀ s, (p, s) ∈ walk r.2 → s = 0 := by
    intro s2 hs2
    obtain ⟨s, hs, hchk⟩ := mem_walk_check hr hs2
    simp only [] at hs hchk
    have hst := (mem_walk_iff _ hw p s).mp hs
    have hcd := ha s hst
    have hu : inUniverse s := by
      unfold statusAt at hst
      cases hf : tree_node.find (processAll env tree_node.empty ops) p with
      | none => simp [hf] at hst
      | some n =>
        simp only [hf, Option.map_some', Option.some.injEq] at hst
        rw [← hst]
        exact (allStatus_find (inUniverse_processAll env ops) hf).1
    have hcr := and_zero_of_and_or_zero_left hcd
    have hdl := and_zero_of_and_or_zero_right hcd
    have hat : s &&& ATTRS = s := and_eq_self_of_or (and_eq_self_of_or hu hcr) hdl
    rw [check_status_eq, hc] at hchk
    by_cases hn : needsCompare s = true
    · simp only [hn, if_true, Option.map_some', Option.some.injEq] at hchk
      rw [← hchk, clearBits_of_subset hat]
      rfl
    · simp only [hn, Bool.false_eq_true, if_false, Option.map_some', Option.some.injEq] at hchk
      have hz : s &&& ATTRS = 0 := by
        by_contra hne
        exact hn (by simp [needsCompare, hne, hcr, hdl])
      rw [← hchk]
      have : collapsed s = s := by simp [collapsed, hcr, hdl]
      rw [this, ← hat, hz]
  have h3 : ∀ x ∈ (walk r.2).filter (fun x => decide (x.2 ≠ 0)), x.1 ≠ p := by
    intro x hx e
    obtain ⟨q, s⟩ := x
    simp only [] at e
    subst e
    have hm := List.mem_of_mem_filter hx
    have hz := h1 s hm
    have hnz := List.of_mem_filter hx
    simp only [decide_eq_true_eq] at hnz
    exact hnz hz
  refine ⟨h1, result_eq_walk _ _, h3, ?_⟩
  intro ht hp x hx e
  rw [result_eq_walk] at hx
  obtain ⟨y, hy, rfl⟩ := List.mem_map.mp hx
  simp only [] at e
  obtain ⟨s, hs, _⟩ := mem_walk_check hr (List.mem_of_mem_filter hy)
  have hhead : Path.head y.1 ≠ "" := head_ne_of_mem_walk (x := (y.1, s)) ht hs
  have hsf : Path.slashFree y.1 = true := slashFree_of_mem_walk _ hk (y.1, s) hs
  rw [emitName_eq_render _ hhead] at e
  exact h3 y hy (render_injective hsf hp (string_append_left_cancel e))

theorem attribute_cancellation_witness :
    tree_node.check (fun _ => some 0) (processAll exampleEnv tree_node.empty [Op.chmod "f"]) ""
        = some (["f"], tree_node.mk 0 [("f", tree_node.mk 0 [])]) ∧
      tree_node.result (tree_node.mk 0 [("f", tree_node.mk 0 [])]) "" = [] ∧
      (∀ s, (Path.parse "f", s) ∈ walk (tree_node.mk 0 [("f", tree_node.mk 0 [])]) → s = 0) :=
  ⟨rfl, rfl,
    (attribute_cancellation exampleEnv (fun _ => some 0) [Op.chmod "f"] (Path.parse "f")
      (["f"], tree_node.mk 0 [("f", tree_node.mk 0 [])]) (by decide) rfl rfl).1⟩

/-- C23. `Btrfs::cmpDirs` delivers results through exactly one comparator.  In a run whose
consumer ends (the parser returns its first non-zero value at call `n`), the `try` block
either raises, and then it is a `SnapperException`, the core has invoked the callback zero
times, the fallback comparator is invoked and the outcome is exactly the one of the fallback;
or it completes, exactly when every step succeeds (subvolume opened, search initialised, both
snapshots read-only, parent root id resolved, pipe, send request and parser successful,
post-pass without a failing compare), and then the fallback is not invoked and the calls are
the result walk of the checked tree. -/
theorem cmpDirs_one_comparator (c : Core) (fallback : Outcome) (n fuel : Nat)
    (h0 : ∀ j, j < n → (c.parser j).2 = 0) (hn : (c.parser n).2 ≠ 0) (hf : n < fuel) :
    ∃ core, Core.cmpDirs_try c fuel = some core ∧
      (core.raised = none ↔
        (c.subvolume = true ∧ 0 ≤ c.search_init ∧ c.ro1 = some true ∧ c.ro2 = some true ∧
          c.root_id = true ∧ 0 ≤ c.pipe ∧ 0 ≤ c.ioctl ∧ 0 < (c.parser n).2 ∧
          (tree_node.check c.cmpFiles
            (processAll c.env tree_node.empty (Core.commands c 0 n)) "").isSome = true)) ∧
      (core.raised ≠ none →
        core.calls = [] ∧ Core.cmpDirs c fallback fuel = some (true, fallback)) ∧
      (core.raised = none →
        Core.cmpDirs c fallback fuel = some (false, core) ∧
        ∃ r, tree_node.check c.cmpFiles
            (processAll c.env tree_node.empty (Core.commands c 0 n)) "" = some r ∧
          core.calls = tree_node.result r.2 "") := by
  rcases cmpDirs_try_cases c n fuel h0 hn hf with ⟨e, he, hs, hnot⟩ | ⟨r, hr, he, hall⟩
  · refine ⟨_, he, ⟨fun h => Option.noConfusion h, fun h => absurd h hnot⟩, ?_, ?_⟩
    · intro _
      exact ⟨rfl, cmpDirs_of_raised fallback he rfl rfl hs⟩
    · intro h
      exact Option.noConfusion h
  · refine ⟨_, he, ⟨fun _ => ?_, fun _ => rfl⟩, ?_, ?_⟩
    · obtain ⟨a1, a2, a3, a4, a5, a6, a7, a8⟩ := hall
      exact ⟨a1, a2, a3, a4, a5, a6, a7, a8, by rw [hr]; rfl⟩
    · intro h
      exact absurd rfl h
    · intro _
      exact ⟨cmpDirs_of_ok fallback he rfl, r, hr, rfl⟩

theorem cmpDirs_one_comparator_witness :
    Core.cmpDirs exampleCore exampleFallback 2
        = some (false, ⟨[("/a", CREATED), ("/b", PERMISSIONS)], none⟩) ∧
      Core.cmpDirs { exampleCore with ro2 := some false } exampleFallback 2
        = some (true, exampleFallback) ∧
      ∃ core, Core.cmpDirs_try exampleCore 2 = some core ∧
        (core.raised = none →
          Core.cmpDirs exampleCore exampleFallback 2 = some (false, core) ∧
          ∃ r, tree_node.check exampleCore.cmpFiles
              (processAll exampleCore.env tree_node.empty (Core.commands exampleCore 0 1)) ""
                = some r ∧
            core.calls = tree_node.result r.2 "") :=
  ⟨rfl, rfl,
    (cmpDirs_one_comparator exampleCore exampleFallback 1 2
      (fun j hj => by
        obtain rfl : j = 0 := by omega
        rfl)
      (by decide) (by decide)).imp (fun _ h => ⟨h.1, h.2.2.2⟩)⟩

/-- C24. `StreamProcessor::do_send` over the outcomes of the pipe creation, the send ioctl
and the consumer.  When the pipe cannot be created it raises `BtrfsSendReceiveException`
without starting the consumer.  Otherwise, with the consumer ending at the first non-zero
parser result (call `n`), it returns normally if and only if the pipe was created, the send
request succeeded and a positive parser result came before any negative one; in every other
case it raises `BtrfsSendReceiveException`. -/
theorem do_send_spec (c : Core) (files : tree_node) (n fuel : Nat)
    (h0 : ∀ j, j < n → (c.parser j).2 = 0) (hn : (c.parser n).2 ≠ 0) (hf : n < fuel) :
    ∃ res, Core.do_send c fuel files = some res ∧
      ((∃ fs, res = Except.ok fs) ↔
        (0 ≤ c.pipe ∧ 0 ≤ c.ioctl ∧
          ∃ m, 0 < (c.parser m).2 ∧ ∀ j, j < m → ¬ (c.parser j).2 < 0)) ∧
      ((¬ ∃ fs, res = Except.ok fs) → res = Except.error Exn.BtrfsSendReceiveException) ∧
      (c.pipe < 0 → ∀ fuel2,
        Core.do_send c fuel2 files = some (Except.error Exn.BtrfsSendReceiveException)) := by
  have hpos : (∃ m, 0 < (c.parser m).2 ∧ ∀ j, j < m → ¬ (c.parser j).2 < 0) ↔
      0 < (c.parser n).2 := by
    constructor
    · rintro ⟨m, hm, hb⟩
      rcases Nat.lt_trichotomy n m with h | h | h
      · have := hb n h
        omega
      · rw [h]
        exact hm
      · have := h0 m h
        omega
    · intro h
      exact ⟨n, h, fun j hj => by rw [h0 j hj]; omega⟩
  refine ⟨_, do_send_eq c n fuel files h0 hn hf, ?_, ?_, ?_⟩
  · rw [hpos]
    by_cases hx : c.pipe < 0 ∨ c.ioctl < 0 ∨ ¬ 0 < (c.parser n).2
    · rw [if_pos hx]
      constructor
      · rintro ⟨fs, h⟩
        cases h
      · rintro ⟨a, b, d⟩
        rcases hx with hx | hx | hx
        · omega
        · omega
        · exact absurd d hx
    · rw [if_neg hx]
      refine ⟨fun _ => ⟨?_, ?_, ?_⟩, fun _ => ⟨_, rfl⟩⟩
      · by_contra h
        exact hx (Or.inl (by omega))
      · by_contra h
        exact hx (Or.inr (Or.inl (by omega)))
      · by_contra h
        exact hx (Or.inr (Or.inr h))
  · intro h
    by_cases hx : c.pipe < 0 ∨ c.ioctl < 0 ∨ ¬ 0 < (c.parser n).2
    · rw [if_pos hx]
    · rw [if_neg hx] at h
      exact absurd ⟨_, rfl⟩ h
  · intro hp fuel2
    unfold Core.do_send
    rw [if_pos hp]

theorem do_send_spec_witness :
    Core.do_send exampleCore 2 tree_node.empty = some (Except.ok touchedTree) ∧
      Core.do_send { exampleCore with ioctl := -1 } 2 tree_node.empty
        = some (Except.error Exn.BtrfsSendReceiveException) ∧
      ∃ res, Core.do_send exampleCore 2 tree_node.empty = some res ∧
        ((∃ fs, res = Except.ok fs) ↔
          (0 ≤ exampleCore.pipe ∧ 0 ≤ exampleCore.ioctl ∧
            ∃ m, 0 < (exampleCore.parser m).2 ∧ ∀ j, j < m → ¬ (exampleCore.parser j).2 < 0)) :=
  ⟨rfl, rfl,
    (do_send_spec exampleCore tree_node.empty 1 2
      (fun j hj => by
        obtain rfl : j = 0 := by omega
        rfl)
      (by decide) (by decide)).imp (fun _ h => ⟨h.1, h.2.1⟩)⟩

/-- C25. The attribute callbacks are order-independent and idempotent: on a tree of ordered
maps, two attribute callbacks (`write`, `clone`, `truncate`, `update_extent`, `chmod`,
`chown`, `set_xattr`, `remove_xattr`) on any two paths give the same tree in either order,
and a callback applied twice gives the same tree as applied once. -/
theorem attribute_order_independent (env : Env) (t : tree_node) (op1 op2 : Op)
    (hw : tree_node.WF t = true) (h1 : Op.isAttribute op1 = true)
    (h2 : Op.isAttribute op2 = true) :
    process env (process env t op1) op2 = process env (process env t op2) op1 ∧
      process env (process env t op1) op1 = process env t op1 := by
  rcases process_attribute env op1 h1 with ⟨p, F, e1⟩ | e1 <;>
    rcases process_attribute env op2 h2 with ⟨q, G, e2⟩ | e2
  · simp only [e1, e2]
    exact ⟨touch_comm hw p q F G, touch_idem hw p F⟩
  · simp only [e1, e2]
    exact ⟨trivial, touch_idem hw p F⟩
  · simp only [e1, e2]
    exact ⟨trivial, trivial⟩
  · simp only [e1, e2]
    exact ⟨trivial, trivial⟩

theorem attribute_order_independent_witness :
    statusAt (processAll exampleEnv tree_node.empty [Op.write "c", Op.truncate "c"])
        (Path.parse "c") = some CONTENT ∧
      tree_node.result (processAll exampleEnv tree_node.empty [Op.write "c", Op.truncate "c"]) ""
        = [("/c", CONTENT)] ∧
      process exampleEnv (process exampleEnv exampleDir (Op.chmod "d/x")) (Op.write "d/y")
        = process exampleEnv (process exampleEnv exampleDir (Op.write "d/y")) (Op.chmod "d/x") :=
  ⟨rfl, rfl,
    (attribute_order_independent exampleEnv exampleDir (Op.chmod "d/x") (Op.write "d/y")
      (by decide) rfl rfl).1⟩

/-- C26. `Btrfs::openInfosDir` over the result of the `stat` of `.snapshots`: it raises
`IOErrorException` if and only if the `stat` fails, or the directory is not a btrfs
subvolume, or its owner is not 0, or its group is not 0 while the mode has the group-write
bit, or the mode has the world-write bit; otherwise it returns the directory. -/
theorem openInfosDir_spec (is_subvolume : Stat → Bool) (stat : Option Stat) :
    (Btrfs.openInfosDir is_subvolume stat = Except.error Exn.IOErrorException ↔
      (stat = none ∨ ∃ st, stat = some st ∧
        (is_subvolume st = false ∨ st.st_uid ≠ 0 ∨
          (st.st_gid ≠ 0 ∧ st.st_mode &&& S_IWGRP ≠ 0) ∨ st.st_mode &&& S_IWOTH ≠ 0))) ∧
      (Btrfs.openInfosDir is_subvolume stat = Except.error Exn.IOErrorException ∨
        Btrfs.openInfosDir is_subvolume stat = Except.ok ()) := by
  cases stat with
  | none => exact ⟨⟨fun _ => Or.inl rfl, fun _ => rfl⟩, Or.inl rfl⟩
  | some st =>
    unfold Btrfs.openInfosDir
    by_cases a : is_subvolume st = false
    · simp [a]
    · by_cases b : st.st_uid ≠ 0
      · simp [a, b]
      · by_cases d : st.st_gid ≠ 0 ∧ st.st_mode &&& S_IWGRP ≠ 0
        · simp [a, b, d]
        · by_cases e : st.st_mode &&& S_IWOTH ≠ 0
          · simp [a, b, d, e]
          · simp [a, b, d, e]

theorem openInfosDir_spec_witness :
    Btrfs.openInfosDir (fun st => decide (st.st_ino = 256)) (some ⟨256, 16872, 0, 100⟩)
        = Except.ok () ∧
      Btrfs.openInfosDir (fun st => decide (st.st_ino = 256)) (some ⟨256, 16888, 0, 100⟩)
        = Except.error Exn.IOErrorException ∧
      Btrfs.openInfosDir (fun st => decide (st.st_ino = 256)) (some ⟨256, 16895, 0, 0⟩)
        = Except.error Exn.IOErrorException :=
  ⟨rfl,
    (openInfosDir_spec (fun st => decide (st.st_ino = 256)) (some ⟨256, 16888, 0, 100⟩)).1.2
      (Or.inr ⟨_, rfl, Or.inr (Or.inr (Or.inl ⟨by decide, by decide⟩))⟩),
    rfl⟩

end Snapper
